import Mathlib

/-!
# OpenAPI document synthesis of `egs` (`swagger.go`)

A shallow embedding of the schema synthesis engine: the reflective walk over request and
response models (`getComponentByModel`), the parameter synthesizer (`getParametersByModel`),
the security and enum registrars, the path builder (`buildPath`) and the document assembler
(`BuildOpenAPI`), with the route registration of `egs.go`, `group.go` and `router/router.go`
as far as it fills the router map.

Conventions of the embedding.

* A Go `map[string]V` is an association list `GoMap V`; `GoMap.store` is assignment
  `m[k] = v` and `GoMap.lookup` is `m[k]`. A `range` over a map visits the list in order, so
  the unspecified iteration order of Go is the order of the list.
* A Go panic is the `Except.error` result; all state is passed explicitly.
* Reflection is replaced by a description of the Go type (`GoType`). Model instances are
  taken at the zero value of their type, as `&TestStruct{}` in the examples and every
  `reflect.New` of the synthesizer produce them.
* Go strings are Lean strings (valid UTF-8 text).
-/

namespace Egs

/-! ## Go maps -/

/-- Go `map[string]V`: an association list, visited by `range` in list order. -/
abbrev GoMap (α : Type) := List (String × α)

/-- Map read `m[k]` (with the comma-ok result as an `Option`). -/
def GoMap.lookup {α : Type} : GoMap α → String → Option α
  | [], _ => none
  | (k, v) :: rest, key => if k = key then some v else GoMap.lookup rest key

/-- Map assignment `m[k] = v`: replaces the entry of an existing key, else adds one. -/
def GoMap.store {α : Type} : GoMap α → String → α → GoMap α
  | [], key, val => [(key, val)]
  | (k, v) :: rest, key, val =>
    if k = key then (key, val) :: rest else (k, v) :: GoMap.store rest key val

/-- Keys of a map, in visiting order. -/
def GoMap.keys {α : Type} (m : GoMap α) : List String := m.map Prod.fst

/-! ## Strings -/

/-- The character class `[0-9a-zA-Z]`. -/
def isAlnum (c : Char) : Bool :=
  (48 ≤ c.toNat && c.toNat ≤ 57) || (97 ≤ c.toNat && c.toNat ≤ 122) ||
    (65 ≤ c.toNat && c.toNat ≤ 90)

/-- Go `unicode.IsSpace`: the white space characters `strings.TrimSpace` removes. -/
def isSpace (c : Char) : Bool :=
  let n := c.toNat
  (9 ≤ n && n ≤ 13) || n = 32 || n = 0x85 || n = 0xA0 || n = 0x1680 ||
    (0x2000 ≤ n && n ≤ 0x200A) || n = 0x2028 || n = 0x2029 || n = 0x202F || n = 0x205F ||
    n = 0x3000

/-- Go `strings.Split(s, sep)` for a one-character separator, on character lists. -/
def splitOn (sep : Char) : List Char → List (List Char)
  | [] => [[]]
  | c :: rest =>
    if c = sep then [] :: splitOn sep rest
    else
      match splitOn sep rest with
      | [] => [[c]]
      | h :: t => (c :: h) :: t

/-- Go `strings.TrimSpace`, on character lists. -/
def trimSpace (cs : List Char) : List Char :=
  ((cs.dropWhile isSpace).reverse.dropWhile isSpace).reverse

/-- The last element of a non-empty split, `split[len(split)-1]`. -/
def lastPart : List (List Char) → List Char
  | [] => []
  | [x] => x
  | _ :: y :: rest => lastPart (y :: rest)

/-- Go `generateRefName`. -/
def generateRefName (structName : String) : String :=
  "#/components/schemas/" ++ structName

/-- Go `removePackageName`: the text after the last `.` of the name. -/
def removePackageName (name : String) : String :=
  String.mk (lastPart (splitOn '.' name.toList))

/-- The scan of `regexp.MustCompile("/:([0-9a-zA-Z]+)").ReplaceAllString(path, "/{${1}}")`:
matches are found left to right without overlap, each one being `/:` followed by the longest
non-empty run of `[0-9a-zA-Z]`; the text outside the matches is copied. The first argument
bounds the number of scan steps. -/
def fixChars : Nat → List Char → List Char
  | 0, cs => cs
  | _ + 1, [] => []
  | n + 1, '/' :: ':' :: rest =>
    match rest.takeWhile isAlnum with
    | [] => '/' :: fixChars n (':' :: rest)
    | d :: ds => '/' :: '{' :: (d :: ds) ++ '}' :: fixChars n (rest.dropWhile isAlnum)
  | n + 1, c :: rest => c :: fixChars n rest

/-- Go `Swagger.fixPath`. Every scan step consumes at least one character, so the length of
the path bounds the number of steps. -/
def fixPath (path : String) : String :=
  String.mk (fixChars path.length path.toList)

/-- A path text: the text before the first `/` followed by the `/`-led segments. -/
def joinSegs : List (List Char) → List Char
  | [] => []
  | s :: rest => '/' :: s ++ joinSegs rest

/-- The rewrite of one segment as the specification words it: `:<name>` becomes `{<name>}`,
any other segment is kept. -/
def braceSeg : List Char → List Char
  | ':' :: name => '{' :: name ++ ['}']
  | s => s

/-- The rewrite of one segment as `fixPath` performs it: in `:<name>` the longest prefix of
`<name>` in `[0-9a-zA-Z]`, when not empty, is put in braces and the rest of the segment is
kept; any other segment is kept. -/
def rewriteSeg : List Char → List Char
  | ':' :: name =>
    match name.takeWhile isAlnum with
    | [] => ':' :: name
    | d :: ds => '{' :: (d :: ds) ++ '}' :: name.dropWhile isAlnum
  | s => s

/-! ## Go types, as reflection sees them -/

/-- The basic kinds of `reflect.Kind`: the ones `isBuiltinType` lists. -/
inductive BasicKind
  | bool | int | int8 | int16 | int32 | int64 | uint | uint8 | uint16 | uint32 | uint64
  | uintptr | float32 | float64 | complex64 | complex128 | string | unsafePointer
  deriving DecidableEq, Repr

/-- Go `reflect.Kind`. -/
inductive Kind
  | basic (b : BasicKind)
  | Array | Chan | Func | Interface | Map | Ptr | Slice | Struct
  deriving DecidableEq, Repr

/-- One `key:"value"` pair of a struct tag, as `structtag.Parse` returns it. -/
structure Tag where
  key : String
  value : String
  deriving DecidableEq, Repr

/-- The `Name` of a `structtag.Tag`: the value up to its first comma (the rest are the tag
options). -/
def Tag.name (t : Tag) : String :=
  String.mk (t.value.toList.takeWhile (fun c => c != ','))

/-- Go `reflect.StructField` without its type: name, whether the field is exported, and the
result of `structtag.Parse(string(field.Tag))` (`none` when the tag text is malformed). -/
structure FieldInfo where
  name : String
  exported : Bool := true
  tags : Option (List Tag) := some []
  deriving DecidableEq, Repr

/-- A Go type. `builtin` is a predeclared type (`int`, `string`, ...), `defined` a named type
over a basic kind (`type Status int`); composite types carry their name, empty for a type
literal such as `[]int`, and struct types also their package path. -/
inductive GoType where
  | builtin (k : BasicKind)
  | defined (name : String) (k : BasicKind)
  | struct (pkg name : String) (fields : List (FieldInfo × GoType))
  | slice (name : String) (elem : GoType)
  | map (name : String) (key elem : GoType)
  | ptr (name : String) (elem : GoType)
  | iface (name : String)
  | array (name : String) (elem : GoType)
  | chan (name : String) (elem : GoType)
  | func (name : String)

/-- The name of a predeclared type. -/
def BasicKind.name : BasicKind → String
  | .bool => "bool" | .int => "int" | .int8 => "int8" | .int16 => "int16"
  | .int32 => "int32" | .int64 => "int64" | .uint => "uint" | .uint8 => "uint8"
  | .uint16 => "uint16" | .uint32 => "uint32" | .uint64 => "uint64"
  | .uintptr => "uintptr" | .float32 => "float32" | .float64 => "float64"
  | .complex64 => "complex64" | .complex128 => "complex128" | .string => "string"
  | .unsafePointer => "Pointer"

/-- Go `reflect.Type.Name()`. -/
def GoType.name : GoType → String
  | .builtin k => k.name
  | .defined n _ => n
  | .struct _ n _ => n
  | .slice n _ => n
  | .map n _ _ => n
  | .ptr n _ => n
  | .iface n => n
  | .array n _ => n
  | .chan n _ => n
  | .func n => n

/-- Go `reflect.Type.Kind()`. -/
def GoType.kind : GoType → Kind
  | .builtin k => .basic k
  | .defined _ k => .basic k
  | .struct _ _ _ => .Struct
  | .slice _ _ => .Slice
  | .map _ _ _ => .Map
  | .ptr _ _ => .Ptr
  | .iface _ => .Interface
  | .array _ _ => .Array
  | .chan _ _ => .Chan
  | .func _ => .Func

/-- Go `isBuiltinType`: the switch lists every basic kind. -/
def isBuiltinType (t : GoType) : Bool :=
  match t.kind with
  | .basic _ => true
  | _ => false

/-- Go `tags.Get(key)` of `structtag`: the first tag with that key. -/
def Tags.get (tags : List Tag) (key : String) : Option Tag :=
  tags.find? (fun t => decide (t.key = key))

/-- Go `field.Tag.Get("enum")`: the value of the `enum` key, empty when absent. -/
def enumTagOf (tags : List Tag) : String :=
  match Tags.get tags "enum" with
  | some t => t.value
  | none => ""

/-- The `model any` argument of the synthesizers: the nil interface, a value `T{}` of type
`t`, or a pointer `&T{}` to one. The typed nil pointer `(*T)(nil)` is `val (ptr "" T)`. -/
inductive Model where
  | nil
  | val (t : GoType)
  | ref (t : GoType)

/-- Go `reflect.TypeOf(model)` and `reflect.ValueOf(model)` after the one-level dereference
of `getComponentByModel`: the type, and whether the value is valid (it is the zero `Value`
after dereferencing a nil pointer). -/
def Model.deref : Model → Option (GoType × Bool)
  | .nil => none
  | .val (.ptr _ e) => some (e, false)
  | .val t => some (t, true)
  | .ref t => some (t, true)

/-- Go `reflect.New(t).Elem().Interface()`: the zero value of `t` as an `any`; the zero
value of an interface type is the nil interface. -/
def zeroValue : GoType → Model
  | .iface _ => .nil
  | t => .val t

/-- The ways document construction aborts. -/
inductive Panic
  | tagSyntax
  | zeroValue
  | unexported
  | notStruct
  | nilSchema
  | enumIndex
  | enumValues
  | nilMap
  deriving DecidableEq, Repr

deriving instance DecidableEq for Except

/-- Go `value.Interface()` on the value of a struct field of a zero-valued instance: the
dynamic type of the result (`none` for the nil interface). `derefed` tells that a
pointer-kind value went through `value = value.Elem()` before, which leaves the zero
`Value` for a nil pointer. -/
def fieldInterface (fi : FieldInfo) (ft : GoType) (derefed : Bool) :
    Except Panic (Option GoType) :=
  match ft with
  | .ptr _ _ =>
    if derefed then .error .zeroValue
    else if fi.exported then .ok (some ft) else .error .unexported
  | .iface _ => if fi.exported then .ok none else .error .unexported
  | _ => if fi.exported then .ok (some ft) else .error .unexported

/-! ## The OpenAPI document (the part of `kin-openapi` the generator writes) -/

/-- An `openapi3.Schema` as the scalar constructors leave it: type, format and minimum. -/
structure BasicSchema where
  type : String := ""
  format : String := ""
  min : Option Int := none
  deriving DecidableEq, Repr

/-- An `openapi3.SchemaRef` in item or additional-properties position. -/
structure ItemRef where
  ref : String := ""
  value : Option BasicSchema := none
  deriving DecidableEq, Repr

/-- Go `openapi3.AdditionalProperties`. -/
structure AdditionalProperties where
  has : Option Bool := none
  schema : Option ItemRef := none
  deriving DecidableEq, Repr

/-- An `openapi3.Schema` in field position. -/
structure Schema where
  type : String := ""
  format : String := ""
  min : Option Int := none
  description : String := ""
  default : Option String := none
  items : Option ItemRef := none
  additionalProperties : AdditionalProperties := {}
  deriving DecidableEq, Repr

/-- An `openapi3.SchemaRef` in field position: a reference string or an inline schema. -/
structure SchemaRef where
  ref : String := ""
  value : Option Schema := none
  deriving DecidableEq, Repr

/-- A literal of an enum list (`[]any`). -/
inductive Lit
  | str (s : String)
  | int (n : Int)
  deriving DecidableEq, Repr

/-- An `openapi3.Schema` registered in `Components.Schemas`. -/
structure Component where
  type : String := ""
  title : String := ""
  description : String := ""
  enum : List Lit := []
  required : List String := []
  properties : GoMap SchemaRef := []
  deriving DecidableEq, Repr

/-- Go `openapi3.SecurityScheme`. -/
structure SecurityScheme where
  type : String := ""
  scheme : String := ""
  loc : String := ""
  name : String := ""
  deriving DecidableEq, Repr

/-- Go `openapi3.Components`; `schemas` is `none` while the Go map is nil. -/
structure Components where
  schemas : Option (GoMap Component) := none
  securitySchemes : GoMap SecurityScheme := []
  deriving DecidableEq, Repr

/-- The write `if Schemas == nil { Schemas = make(...) }; Schemas[name] = schema`. -/
def Components.setSchema (c : Components) (name : String) (schema : Component) :
    Components :=
  { c with schemas := some (GoMap.store (c.schemas.getD []) name schema) }

/-- The read `Components.Schemas[name]`. -/
def Components.schema (c : Components) (name : String) : Option Component :=
  GoMap.lookup (c.schemas.getD []) name

/-- Go `Swagger.checkSchemaExist`. -/
def checkSchemaExist (c : Components) (name : String) : Bool :=
  (c.schemas.getD []).any (fun e => decide (e.2.title = name))

/-- Go `openapi3.NewIntegerSchema`. -/
def NewIntegerSchema : BasicSchema := { type := "integer" }

/-- Go `openapi3.NewInt32Schema`. -/
def NewInt32Schema : BasicSchema := { type := "integer", format := "int32" }

/-- Go `openapi3.NewInt64Schema`. -/
def NewInt64Schema : BasicSchema := { type := "integer", format := "int64" }

/-- Go `openapi3.NewStringSchema`. -/
def NewStringSchema : BasicSchema := { type := "string" }

/-- Go `openapi3.NewDateTimeSchema`. -/
def NewDateTimeSchema : BasicSchema := { type := "string", format := "date-time" }

/-- Go `openapi3.NewFloat64Schema`. -/
def NewFloat64Schema : BasicSchema := { type := "number" }

/-- Go `openapi3.NewBoolSchema`. -/
def NewBoolSchema : BasicSchema := { type := "boolean" }

/-- Go `openapi3.NewBytesSchema`. -/
def NewBytesSchema : BasicSchema := { type := "string", format := "byte" }

/-- A scalar schema in field position. -/
def Schema.basic (b : BasicSchema) : Schema :=
  { type := b.type, format := b.format, min := b.min }

/-- Go `openapi3.NewArraySchema`. -/
def NewArraySchema : Schema := { type := "array" }

/-- Go `openapi3.NewObjectSchema` in field position (its property map is empty). -/
def NewObjectSchema : Schema := { type := "object" }

/-- Go `openapi3.NewObjectSchema` as the schema a model is accumulated in. -/
def NewObjectComponent : Component := { type := "object" }

/-- Go `Swagger.getSchemaByValue`, on the dynamic type of its argument (`none` for the nil
interface): a type switch on exact types, with no schema (nil) when no case matches. -/
def getSchemaByValue (t : Option GoType) : Option Schema :=
  match t with
  | some (.builtin .int) => some (Schema.basic NewIntegerSchema)
  | some (.builtin .int8) => some (Schema.basic NewIntegerSchema)
  | some (.builtin .int16) => some (Schema.basic NewIntegerSchema)
  | some (.builtin .uint) => some (Schema.basic { NewIntegerSchema with min := some 0 })
  | some (.builtin .uint8) => some (Schema.basic { NewIntegerSchema with min := some 0 })
  | some (.builtin .uint16) => some (Schema.basic { NewIntegerSchema with min := some 0 })
  | some (.builtin .int32) => some (Schema.basic NewInt32Schema)
  | some (.builtin .uint32) => some (Schema.basic { NewInt32Schema with min := some 0 })
  | some (.builtin .int64) => some (Schema.basic NewInt64Schema)
  | some (.builtin .uint64) => some (Schema.basic { NewInt64Schema with min := some 0 })
  | some (.builtin .string) => some (Schema.basic NewStringSchema)
  | some (.struct pkg name _) =>
    if pkg = "time" ∧ name = "Time" then some (Schema.basic NewDateTimeSchema) else none
  | some (.builtin .float32) => some (Schema.basic { NewFloat64Schema with format := "float" })
  | some (.builtin .float64) =>
    some (Schema.basic { NewFloat64Schema with format := "double" })
  | some (.builtin .bool) => some (Schema.basic NewBoolSchema)
  | some (.slice name (.builtin .uint8)) =>
    if name = "" then some (Schema.basic NewBytesSchema) else none
  | some (.ptr name (.struct pkg sname _)) =>
    if name = "" ∧ pkg = "mime/multipart" ∧ sname = "FileHeader" then
      some (Schema.basic { NewStringSchema with format := "binary" })
    else none
  | some (.slice name (.ptr pname (.struct pkg sname _))) =>
    if name = "" ∧ pname = "" ∧ pkg = "mime/multipart" ∧ sname = "FileHeader" then
      some { NewArraySchema with
        items := some { ref := "", value := some { type := "string", format := "binary" } } }
    else none
  | _ => none

/-- Go `Swagger.getBasicSchemaByType`. -/
def getBasicSchemaByType (typ : Kind) : Option BasicSchema :=
  match typ with
  | .basic .int => some NewIntegerSchema
  | .basic .int8 => some NewIntegerSchema
  | .basic .int16 => some NewIntegerSchema
  | .basic .uint => some { NewIntegerSchema with min := some 0 }
  | .basic .uint8 => some { NewIntegerSchema with min := some 0 }
  | .basic .uint16 => some { NewIntegerSchema with min := some 0 }
  | .basic .int32 => some NewInt32Schema
  | .basic .uint32 => some { NewInt32Schema with min := some 0 }
  | .basic .int64 => some NewInt64Schema
  | .basic .uint64 => some { NewInt64Schema with min := some 0 }
  | .basic .string => some NewStringSchema
  | .basic .float32 => some { NewFloat64Schema with format := "float" }
  | .basic .float64 => some { NewFloat64Schema with format := "double" }
  | .basic .bool => some NewBoolSchema
  | _ => none

/-! ## Enum registrar -/

/-- The loop of Go `parseEnumTag` over the `;`-separated parts: each part is split at `:`,
key and value are the trimmed first two pieces (`split[1]` is out of range when the part has
no `:`). -/
def parseEnumParts : List (List Char) → GoMap String → Except Panic (GoMap String)
  | [], res => .ok res
  | part :: rest, res =>
    match splitOn ':' part with
    | k :: v :: _ =>
      parseEnumParts rest (GoMap.store res (String.mk (trimSpace k)) (String.mk (trimSpace v)))
    | _ => .error .enumIndex

/-- Go `parseEnumTag`. -/
def parseEnumTag (enumTag : String) : Except Panic (GoMap String) :=
  parseEnumParts (splitOn ';' enumTag.toList) []

/-- Go `Swagger.getEnumComponentByTag`. -/
def getEnumComponentByTag (c : Components) (name enumTag : String) :
    Except Panic Components :=
  match parseEnumTag enumTag with
  | .error e => .error e
  | .ok parts =>
    let typ := (GoMap.lookup parts "type").getD "string"
    match GoMap.lookup parts "values" with
    | none => .error .enumValues
    | some vs =>
      let values := (splitOn ',' vs.toList).map (fun v => Lit.str (String.mk (trimSpace v)))
      .ok (c.setSchema name
        { type := typ, title := name,
          description := (GoMap.lookup parts "description").getD "", enum := values })

/-! ## Schema synthesizer -/

/-- The visibility test and the name of a field in `getComponentByModel`: a request model
skips a field without a `form` tag and names the others by the `form` alias; a response
model names a field by its `json` alias, else by the field name. `none` is the `continue`. -/
def fieldName (isRequest : Bool) (fi : FieldInfo) (tags : List Tag) : Option String :=
  match Tags.get tags "form", isRequest with
  | none, true => none
  | some formTag, true => some formTag.name
  | _, false =>
    match Tags.get tags "json" with
    | some jsonTag => some jsonTag.name
    | none => some fi.name

/-- The `binding` test of `getComponentByModel`: the field name is appended to the required
list when the name of the `binding` tag is `required`. -/
def addRequired (required : List String) (tags : List Tag) (name : String) : List String :=
  match Tags.get tags "binding" with
  | some bindingTag => if bindingTag.name = "required" then required ++ [name] else required
  | none => required

/-- The `enum` test of `getComponentByModel`: a non-empty `enum` tag registers an enum
component under the field name. -/
def registerEnum (c : Components) (name enumTag : String) : Except Panic Components :=
  if enumTag = "" then .ok c else getEnumComponentByTag c name enumTag

/-- The assignment `fieldSchema.Description = descriptionTag.Name` when the field has a
`description` tag; it dereferences the schema pointer. -/
def setDescription (tags : List Tag) (schema : Option Schema) : Except Panic (Option Schema) :=
  match Tags.get tags "description" with
  | none => .ok schema
  | some descriptionTag =>
    match schema with
    | none => .error .nilSchema
    | some s => .ok (some { s with description := descriptionTag.name })

/-- The assignment `fieldSchema.Default = defaultTag.Name` when the field has a `default`
tag; it dereferences the schema pointer. -/
def setDefault (tags : List Tag) (schema : Option Schema) : Except Panic (Option Schema) :=
  match Tags.get tags "default" with
  | none => .ok schema
  | some defaultTag =>
    match schema with
    | none => .error .nilSchema
    | some s => .ok (some { s with default := some defaultTag.name })

/-- The end of `getComponentByModel`: the accumulated schema gets the bare type name as its
title and is stored under it. -/
def registerModel (c : Components) (typeName : String) (acc : Component) : Components :=
  c.setSchema (removePackageName typeName) { acc with title := removePackageName typeName }

mutual
/-- The field loop of `getComponentByModel`; `valid` tells whether `value_` is a valid
`reflect.Value` (`value_.Field(i)` aborts on the zero `Value`), `acc` is `schemaRef.Value`. -/
def fieldLoop (isRequest valid : Bool) (c : Components) (acc : Component) :
    List (FieldInfo × GoType) → Except Panic (Components × Component)
  | [] => .ok (c, acc)
  | (fi, ft) :: rest =>
    if valid = false then .error .zeroValue
    else
      match fi.tags with
      | none => .error .tagSyntax
      | some tags =>
        match fieldName isRequest fi tags with
        | none => fieldLoop isRequest valid c acc rest
        | some name =>
          match registerEnum c name (enumTagOf tags) with
          | .error e => .error e
          | .ok c1 =>
            match fieldProp isRequest c1 fi tags ft with
            | .error e => .error e
            | .ok (c2, prop) =>
              fieldLoop isRequest valid c2
                { acc with
                  required := addRequired acc.required tags name,
                  properties := GoMap.store acc.properties name prop } rest

/-- The dispatch of `getComponentByModel` on the kind of the field type: the schema stored
in `schemaRef.Value.Properties[fieldName]`, after the nested models are registered. -/
def fieldProp (isRequest : Bool) (c : Components) (fi : FieldInfo) (tags : List Tag) :
    GoType → Except Panic (Components × SchemaRef)
  | .struct pkg name fields =>
    if name = "Time" then
      match fieldInterface fi (.struct pkg name fields) true with
      | .error e => .error e
      | .ok v =>
        match getSchemaByValue v with
        | none => .error .nilSchema
        | some fieldSchema =>
          .ok (c, { value := some { fieldSchema with format := "date-time", type := "string" } })
    else if checkSchemaExist c name then .ok (c, { ref := generateRefName name })
    else
      match fieldLoop isRequest true c NewObjectComponent fields with
      | .error e => .error e
      | .ok (c1, acc) => .ok (registerModel c1 name acc, { ref := generateRefName name })
  | .slice sname elem =>
    match fieldInterface fi (.slice sname elem) true with
    | .error e => .error e
    | .ok v =>
      if isBuiltinType elem = false then
        match (if checkSchemaExist c elem.name then .ok c else synthZero isRequest c elem) with
        | .error e => .error e
        | .ok c1 =>
          match getSchemaByValue v with
          | none => .error .nilSchema
          | some fieldSchema =>
            let items : ItemRef := { ref := generateRefName elem.name }
            .ok (c1, { value := some { fieldSchema with items := some items } })
      else
        match setDescription tags (getSchemaByValue v) with
        | .error e => .error e
        | .ok s1 =>
          match setDefault tags s1 with
          | .error e => .error e
          | .ok s2 => .ok (c, { value := s2 })
  | .map _ _ elem =>
    match elem.kind with
    | .Interface =>
      let ap : AdditionalProperties := { has := some true }
      .ok (c, { value := some { NewObjectSchema with additionalProperties := ap } })
    | .Struct =>
      match (if checkSchemaExist c elem.name then .ok c else synthZero isRequest c elem) with
      | .error e => .error e
      | .ok c1 =>
        let ap : AdditionalProperties := { schema := some { ref := generateRefName elem.name } }
        .ok (c1, { value := some { NewObjectSchema with additionalProperties := ap } })
    | k =>
      let ap : AdditionalProperties := { schema := some { value := getBasicSchemaByType k } }
      .ok (c, { value := some { NewObjectSchema with additionalProperties := ap } })
  | .iface _ => .ok (c, { value := some NewObjectSchema })
  | t =>
    match fieldInterface fi t true with
    | .error e => .error e
    | .ok v =>
      match setDescription tags (getSchemaByValue v) with
      | .error e => .error e
      | .ok s1 =>
        match setDefault tags s1 with
        | .error e => .error e
        | .ok s2 => .ok (c, { value := s2 })

/-- The nested call `getComponentByModel(reflect.New(t).Elem().Interface(), isRequest)`:
the synthesis of the zero value of `t`. -/
def synthZero (isRequest : Bool) (c : Components) : GoType → Except Panic Components
  | .iface _ => .ok c
  | .ptr _ (.struct _ name fields) =>
    match fieldLoop isRequest false c NewObjectComponent fields with
    | .error e => .error e
    | .ok (c1, acc) => .ok (registerModel c1 name acc)
  | .ptr _ elem => .ok (registerModel c elem.name NewObjectComponent)
  | .struct _ name fields =>
    match fieldLoop isRequest true c NewObjectComponent fields with
    | .error e => .error e
    | .ok (c1, acc) => .ok (registerModel c1 name acc)
  | t => .ok (registerModel c t.name NewObjectComponent)
end

/-- The body of `getComponentByModel` after the dereference: the field loop when the type
is a struct, then the registration under the bare type name. -/
def synthType (isRequest valid : Bool) (c : Components) : GoType → Except Panic Components
  | .struct _ name fields =>
    match fieldLoop isRequest valid c NewObjectComponent fields with
    | .error e => .error e
    | .ok (c1, acc) => .ok (registerModel c1 name acc)
  | t => .ok (registerModel c t.name NewObjectComponent)

/-- Go `Swagger.getComponentByModel`. -/
def getComponentByModel (c : Components) (model : Model) (isRequest : Bool) :
    Except Panic Components :=
  match model.deref with
  | none => .ok c
  | some (t, valid) => synthType isRequest valid c t

/-! ## Parameter synthesizer -/

/-- Go `openapi3.Parameter`: location (`In`), name, description, required flag, schema. -/
structure Parameter where
  loc : String := ""
  name : String := ""
  description : String := ""
  required : Bool := false
  schema : Option Schema := none
  deriving DecidableEq, Repr

/-- The four location tests of `getParametersByModel`, run in the order query, uri, header,
cookie; each test that finds its tag assigns `In` and `Name`. -/
def paramLocation (tags : List Tag) : Parameter :=
  let p0 : Parameter := {}
  let p1 : Parameter :=
    match Tags.get tags "query" with
    | some queryTag => { p0 with loc := "query", name := queryTag.name }
    | none => p0
  let p2 : Parameter :=
    match Tags.get tags "uri" with
    | some uriTag => { p1 with loc := "path", name := uriTag.name }
    | none => p1
  let p3 : Parameter :=
    match Tags.get tags "header" with
    | some headerTag => { p2 with loc := "header", name := headerTag.name }
    | none => p2
  match Tags.get tags "cookie" with
  | some cookieTag => { p3 with loc := "cookie", name := cookieTag.name }
  | none => p3

/-- The description and binding tests of `getParametersByModel`. -/
def paramMeta (tags : List Tag) (p : Parameter) : Parameter :=
  let p1 : Parameter :=
    match Tags.get tags "description" with
    | some descriptionTag => { p with description := descriptionTag.name }
    | none => p
  match Tags.get tags "binding" with
  | some bindingTag => { p1 with required := decide (bindingTag.name = "required") }
  | none => p1

/-- The field loop of `getParametersByModel`; `valid` as in `fieldLoop`. -/
def paramLoop (valid : Bool) : List (FieldInfo × GoType) → Except Panic (List Parameter)
  | [] => .ok []
  | (fi, ft) :: rest =>
    if valid = false then .error .zeroValue
    else
      match fi.tags with
      | none => .error .tagSyntax
      | some tags =>
        if (paramLocation tags).loc = "" then paramLoop valid rest
        else
          match fieldInterface fi ft false with
          | .error e => .error e
          | .ok v =>
            match setDefault tags (getSchemaByValue v) with
            | .error e => .error e
            | .ok schema =>
              match paramLoop valid rest with
              | .error e => .error e
              | .ok ps => .ok ({ paramMeta tags (paramLocation tags) with schema := schema } :: ps)

/-- Go `Swagger.getParametersByModel`; `type_.NumField()` aborts on a type that is not a
struct. -/
def getParametersByModel (model : Model) : Except Panic (List Parameter) :=
  match model.deref with
  | none => .ok []
  | some (.struct _ _ fields, valid) => paramLoop valid fields
  | some (_, _) => .error .notStruct

/-! ## Security registrar -/

/-- The implementations of the `security.Security` interface. -/
inductive Security
  | apiKey (authName name loc : String)
  | basic (authName : String)
  | bearer (authName : String)
  deriving DecidableEq, Repr

/-- Go `Name()` of a security requirement. -/
def Security.Name : Security → String
  | .apiKey authName _ _ => authName
  | .basic authName => authName
  | .bearer authName => authName

/-- Go `Schema()` of a security requirement. -/
def Security.Schema : Security → SecurityScheme
  | .apiKey _ name loc => { type := "apiKey", loc := loc, name := name }
  | .basic _ => { type := "http", scheme := "basic" }
  | .bearer _ => { type := "http", scheme := "bearer" }

/-- Go `openapi3.SecurityRequirement`: scheme name to scopes. -/
abbrev SecurityRequirement := GoMap (List String)

/-- Go `Swagger.getSecurity`: each requirement is stored in the security-scheme registry
under its name and appended, by name and without scopes, to the requirement list. -/
def getSecurity (c : Components) :
    List Security → Components × List SecurityRequirement
  | [] => (c, [])
  | s :: rest =>
    let c1 : Components :=
      { c with securitySchemes := GoMap.store c.securitySchemes s.Name s.Schema }
    let r := getSecurity c1 rest
    (r.1, GoMap.store [] s.Name [] :: r.2)

/-! ## Routes -/

/-- Go `openapi3.Headers`, copied unchanged into the document: header name to description. -/
abbrev Headers := GoMap String

/-- Go `router.Request`. -/
structure Request where
  description : String := ""
  model : Model := .nil
  headers : Headers := []

/-- Go `router.ResponseItem`. -/
structure ResponseItem where
  description : String := ""
  model : Model := .nil
  headers : Headers := []

/-- Go `router.EnumItem`. -/
structure EnumItem where
  name : String := ""
  kind : String := ""
  values : List Lit := []
  description : String := ""
  deriving DecidableEq, Repr

/-- Go `router.Router`, without the HTTP handlers. -/
structure Router where
  path : String := ""
  method : String := ""
  summary : String := ""
  description : String := ""
  operationID : String := ""
  deprecated : Bool := false
  exclude : Bool := false
  requestContentType : String := ""
  responseContentType : String := ""
  tags : List String := []
  model : Model := .nil
  securities : List Security := []
  response : GoMap ResponseItem := []
  request : Request := {}
  enum : GoMap EnumItem := []

/-- Go `RouterMap`: for each router group (the pointer keys play no part in the build), the
routes by path and then by method. -/
abbrev RouterMap := List (GoMap (GoMap Router))

/-- Go `Swagger.getEnumComponent`; the assignment aborts while `Components.Schemas` is the
nil map. -/
def getEnumComponent (c : Components) : GoMap EnumItem → Except Panic Components
  | [] => .ok c
  | (enumName, enumItem) :: rest =>
    match c.schemas with
    | none => .error .nilMap
    | some m =>
      getEnumComponent
        { c with schemas := some (GoMap.store m enumName
            { type := enumItem.kind, title := enumName,
              description := enumItem.description, enum := enumItem.values }) } rest

/-! ## Path builder -/

/-- Go `openapi3.MediaType` with its schema reference. -/
structure MediaType where
  schema : SchemaRef := {}
  deriving DecidableEq, Repr

/-- Go `openapi3.Response`. -/
structure Response where
  description : Option String := none
  content : GoMap MediaType := []
  headers : Headers := []
  deriving DecidableEq, Repr

/-- Go `openapi3.RequestBody`. -/
structure RequestBody where
  required : Bool := false
  content : GoMap MediaType := []
  deriving DecidableEq, Repr

/-- Go `openapi3.Operation`. -/
structure Operation where
  tags : List String := []
  summary : String := ""
  description : String := ""
  operationID : String := ""
  responses : GoMap Response := []
  parameters : List Parameter := []
  deprecated : Bool := false
  security : List SecurityRequirement := []
  requestBody : Option RequestBody := none
  deriving DecidableEq, Repr

/-- Go `openapi3.PathItem`. -/
structure PathItem where
  get : Option Operation := none
  post : Option Operation := none
  delete : Option Operation := none
  put : Option Operation := none
  patch : Option Operation := none
  head : Option Operation := none
  options : Option Operation := none
  connect : Option Operation := none
  trace : Option Operation := none
  deriving DecidableEq, Repr

/-- Go `binding.MIMEJSON`. -/
def MIMEJSON : String := "application/json"

/-- Go `openapi3.NewResponses` of the `kin-openapi` releases whose `Responses` is a map: it
holds a `default` response with an empty description. -/
def NewResponses : GoMap Response := [("default", { description := some "" })]

/-- The loop of `getResponsesRef`; the content type, once defaulted, stays so. -/
def responsesLoop : GoMap ResponseItem → String → GoMap Response → GoMap Response
  | [], _, ret => ret
  | (k, v) :: rest, contentType, ret =>
    match v.model.deref with
    | none => responsesLoop rest contentType ret
    | some (type_, _) =>
      let contentType1 := if contentType = "" then MIMEJSON else contentType
      let schemaRef : SchemaRef := { ref := generateRefName (removePackageName type_.name) }
      responsesLoop rest contentType1
        (GoMap.store ret k
          { description := some v.description,
            content := GoMap.store [] contentType1 { schema := schemaRef },
            headers := v.headers })

/-- Go `Swagger.getResponsesRef`. -/
def getResponsesRef (response : GoMap ResponseItem) (contentType : String) : GoMap Response :=
  responsesLoop response contentType NewResponses

/-- Go `Swagger.getRequestBodyRef`. -/
def getRequestBodyRef (name contentType : String) : RequestBody :=
  let contentType1 := if contentType = "" then MIMEJSON else contentType
  let schemaRef : SchemaRef := { ref := generateRefName (removePackageName name) }
  { required := true, content := GoMap.store [] contentType1 { schema := schemaRef } }

/-- The loop `for _, resp := range r.Response { getComponentByModel(resp.Model, false) }`. -/
def responseModels (c : Components) : GoMap ResponseItem → Except Panic Components
  | [] => .ok c
  | (_, resp) :: rest =>
    match getComponentByModel c resp.model false with
    | .error e => .error e
    | .ok c1 => responseModels c1 rest

/-- The request body `buildPath` prepares for a route: absent for a nil request model, else
the reference to the schema named by the dereferenced type of the request model. -/
def routeRequestBody (r : Router) : Option RequestBody :=
  match r.request.model.deref with
  | none => none
  | some (requestType, _) => some (getRequestBodyRef requestType.name r.requestContentType)

/-- The `switch method` of `buildPath`: the operation is put in the slot of its method, and
gets the request body under POST and PUT. -/
def setMethod (pathItem : PathItem) (method : String) (operation : Operation)
    (requestBody : Option RequestBody) : PathItem :=
  if method = "GET" then { pathItem with get := some operation }
  else if method = "POST" then
    { pathItem with post := some { operation with requestBody := requestBody } }
  else if method = "DELETE" then { pathItem with delete := some operation }
  else if method = "PUT" then
    { pathItem with put := some { operation with requestBody := requestBody } }
  else if method = "PATCH" then { pathItem with patch := some operation }
  else if method = "HEAD" then { pathItem with head := some operation }
  else if method = "OPTIONS" then { pathItem with options := some operation }
  else if method = "CONNECT" then { pathItem with connect := some operation }
  else if method = "TRACE" then { pathItem with trace := some operation }
  else pathItem

/-- The body of the innermost loop of `buildPath` for a route that is not excluded: the
models and enums are registered, then the operation is built. -/
def buildOperation (c : Components) (r : Router) : Except Panic (Components × Operation) :=
  match getComponentByModel c r.request.model true with
  | .error e => .error e
  | .ok c1 =>
    match responseModels c1 r.response with
    | .error e => .error e
    | .ok c2 =>
      match getEnumComponent c2 r.enum with
      | .error e => .error e
      | .ok c3 =>
        match getParametersByModel r.model with
        | .error e => .error e
        | .ok parameters =>
          let sec := getSecurity c3 r.securities
          .ok (sec.1,
            { tags := r.tags, summary := r.summary, description := r.description,
              operationID := r.operationID,
              responses := getResponsesRef r.response r.requestContentType,
              parameters := parameters, deprecated := r.deprecated, security := sec.2 })

/-- The loop of `buildPath` over the methods of one path. -/
def methodLoop (c : Components) (pathItem : PathItem) :
    GoMap Router → Except Panic (Components × PathItem)
  | [] => .ok (c, pathItem)
  | (method, r) :: rest =>
    if r.exclude then methodLoop c pathItem rest
    else
      match buildOperation c r with
      | .error e => .error e
      | .ok (c1, operation) =>
        methodLoop c1 (setMethod pathItem method operation (routeRequestBody r)) rest

/-- The loop of `buildPath` over the paths of one router group. -/
def pathLoop (c : Components) (paths : GoMap PathItem) :
    GoMap (GoMap Router) → Except Panic (Components × GoMap PathItem)
  | [] => .ok (c, paths)
  | (path, m) :: rest =>
    match methodLoop c {} m with
    | .error e => .error e
    | .ok (c1, pathItem) => pathLoop c1 (GoMap.store paths (fixPath path) pathItem) rest

/-- The loop of `buildPath` over the router groups. -/
def groupLoop (c : Components) (paths : GoMap PathItem) :
    RouterMap → Except Panic (Components × GoMap PathItem)
  | [] => .ok (c, paths)
  | routers :: rest =>
    match pathLoop c paths routers with
    | .error e => .error e
    | .ok (c1, paths1) => groupLoop c1 paths1 rest

/-- Go `Swagger.buildPath`: the components after the walk and the `Paths` of the document. -/
def buildPath (c : Components) (routers : RouterMap) :
    Except Panic (Components × GoMap PathItem) :=
  groupLoop c [] routers

/-! ## Document assembler -/

/-- Go `openapi3.Info` (contact and license are copied unchanged and left out). -/
structure Info where
  title : String := ""
  description : String := ""
  termsOfService : String := ""
  version : String := ""
  deriving DecidableEq, Repr

/-- Go `openapi3.T`, the document (the server list is copied unchanged and left out). -/
structure T where
  openapi : String := ""
  info : Info := {}
  components : Components := {}
  paths : GoMap PathItem := []
  deriving DecidableEq, Repr

/-- Go `Swagger`, the fields `BuildOpenAPI` reads. -/
structure Swagger where
  title : String := ""
  description : String := ""
  termsOfService : String := ""
  version : String := ""
  routers : RouterMap := []

/-- Go `Swagger.BuildOpenAPI`: the document starts with nil `Schemas` and an empty
`SecuritySchemes`. -/
def BuildOpenAPI (swagger : Swagger) : Except Panic T :=
  match buildPath { schemas := none, securitySchemes := [] } swagger.routers with
  | .error e => .error e
  | .ok (components, paths) =>
    .ok { openapi := "3.0.0",
          info := { title := swagger.title, description := swagger.description,
                    termsOfService := swagger.termsOfService, version := swagger.version },
          components := components, paths := paths }

/-! ## Registry keys a synthesis may write -/

mutual
/-- The registry keys the field loop of `getComponentByModel` may write for these fields:
the names of enum-tagged fields and the keys of the nested models. -/
def fieldsNames (isRequest : Bool) : List (FieldInfo × GoType) → List String
  | [] => []
  | (fi, ft) :: rest =>
    match fi.tags with
    | none => []
    | some tags =>
      match fieldName isRequest fi tags with
      | none => fieldsNames isRequest rest
      | some name =>
        (if enumTagOf tags = "" then [] else [name]) ++
          (propNames isRequest ft ++ fieldsNames isRequest rest)

/-- The registry keys the dispatch on one field type may write. -/
def propNames (isRequest : Bool) : GoType → List String
  | .struct _ name fields =>
    if name = "Time" then [] else removePackageName name :: fieldsNames isRequest fields
  | .slice _ elem => if isBuiltinType elem = false then zeroNames isRequest elem else []
  | .map _ _ elem =>
    match elem.kind with
    | .Struct => zeroNames isRequest elem
    | _ => []
  | _ => []

/-- The registry keys the synthesis of the zero value of a type may write. -/
def zeroNames (isRequest : Bool) : GoType → List String
  | .iface _ => []
  | .ptr _ (.struct _ name fields) => removePackageName name :: fieldsNames isRequest fields
  | .ptr _ elem => [removePackageName elem.name]
  | .struct _ name fields => removePackageName name :: fieldsNames isRequest fields
  | t => [removePackageName t.name]
end

/-- The registry keys `getComponentByModel` may write for a model. -/
def modelNames (isRequest : Bool) (model : Model) : List String :=
  match model.deref with
  | none => []
  | some (.struct _ name fields, _) => removePackageName name :: fieldsNames isRequest fields
  | some (t, _) => [removePackageName t.name]

/-! ## Notions the statements use -/

/-- The name under which a field is visible to `getComponentByModel`, if it is: no name for
a field the loop skips or whose tag text is malformed. -/
def resolvedName (isRequest : Bool) (f : FieldInfo × GoType) : Option String :=
  match f.1.tags with
  | none => none
  | some tags => fieldName isRequest f.1 tags

/-- Whether the name of the `binding` tag of a field is `required`. -/
def boundRequired (f : FieldInfo × GoType) : Bool :=
  match f.1.tags with
  | none => false
  | some tags =>
    match Tags.get tags "binding" with
    | some bindingTag => decide (bindingTag.name = "required")
    | none => false

/-- The resolved names of the visible fields, in declaration order. -/
def visibleNames (isRequest : Bool) (fields : List (FieldInfo × GoType)) : List String :=
  fields.filterMap (resolvedName isRequest)

/-- The resolved names of the visible fields bound as required, in declaration order. -/
def requiredNames (isRequest : Bool) (fields : List (FieldInfo × GoType)) : List String :=
  (fields.filter boundRequired).filterMap (resolvedName isRequest)

/-! ## Example models -/

/-- The response model of `examples/main.go` with its scalar fields:
`TestResp{Code int; Msg string}`, tagged `json:"code"` and `json:"msg"`. -/
def exampleTestResp : GoType :=
  .struct "main" "TestResp"
    [({ name := "Code", tags := some [{ key := "json", value := "code" }] }, .builtin .int),
     ({ name := "Msg", tags := some [{ key := "json", value := "msg" }] }, .builtin .string)]

/-- The request model `TestStruct` of `examples/main.go`. -/
def exampleTestStruct : GoType :=
  .struct "main" "TestStruct"
    [({ name := "ID",
        tags := some [{ key := "uri", value := "id" }, { key := "validate", value := "required" },
          { key := "json", value := "id" }] }, .builtin .string),
     ({ name := "Name",
        tags := some [{ key := "form", value := "name" }, { key := "json", value := "name" }] },
      .builtin .string),
     ({ name := "Age",
        tags := some [{ key := "form", value := "age" }, { key := "json", value := "age" }] },
      .builtin .int),
     ({ name := "Token",
        tags := some [{ key := "header", value := "authorization" },
          { key := "validate", value := "required" }, { key := "json", value := "token" }] },
      .builtin .string)]

/-- A model with bound fields: `Login{User string; Note string; Pass string}` tagged
`json:"user" binding:"required"`, `json:"note"` and `json:"pass" binding:"required,min=8"`. -/
def exampleLogin : GoType :=
  .struct "main" "Login"
    [({ name := "User",
        tags := some [{ key := "json", value := "user" },
          { key := "binding", value := "required" }] }, .builtin .string),
     ({ name := "Note", tags := some [{ key := "json", value := "note" }] }, .builtin .string),
     ({ name := "Pass",
        tags := some [{ key := "json", value := "pass" },
          { key := "binding", value := "required,min=8" }] }, .builtin .string)]

/-- The operation a path item holds for a method, none for a method without a slot. -/
def slotOf (pathItem : PathItem) (method : String) : Option Operation :=
  if method = "GET" then pathItem.get
  else if method = "POST" then pathItem.post
  else if method = "DELETE" then pathItem.delete
  else if method = "PUT" then pathItem.put
  else if method = "PATCH" then pathItem.patch
  else if method = "HEAD" then pathItem.head
  else if method = "OPTIONS" then pathItem.options
  else if method = "CONNECT" then pathItem.connect
  else if method = "TRACE" then pathItem.trace
  else none

/-- The methods `buildPath` has a slot for. -/
def httpMethods : List String :=
  ["GET", "POST", "DELETE", "PUT", "PATCH", "HEAD", "OPTIONS", "CONNECT", "TRACE"]

/-- The content type after the defaulting `if contentType == "" { contentType = MIMEJSON }`. -/
def defaultJSON (contentType : String) : String :=
  if contentType = "" then MIMEJSON else contentType

/-- The registry keys the response models of a route may write. -/
def responseNames : GoMap ResponseItem → List String
  | [] => []
  | (_, resp) :: rest => modelNames false resp.model ++ responseNames rest

/-- The registry keys a route may write: none when it is excluded, else those of its request
model, of its response models and of its enum descriptors. -/
def routeNames (r : Router) : List String :=
  if r.exclude then []
  else modelNames true r.request.model ++ (responseNames r.response ++ GoMap.keys r.enum)

/-- The registry keys the routes of one path may write. -/
def methodsNames : GoMap Router → List String
  | [] => []
  | (_, r) :: rest => routeNames r ++ methodsNames rest

/-- The registry keys the routes of one group may write. -/
def groupNames : GoMap (GoMap Router) → List String
  | [] => []
  | (_, m) :: rest => methodsNames m ++ groupNames rest

/-- The registry keys the routes of a router map may write. -/
def routersNames : RouterMap → List String
  | [] => []
  | g :: rest => groupNames g ++ routersNames rest

/-- The document path keys of the paths of one group. -/
def groupKeys (g : GoMap (GoMap Router)) : List String :=
  g.map (fun pm => fixPath pm.1)

/-- The document path keys of the paths of a router map. -/
def routersKeys : RouterMap → List String
  | [] => []
  | g :: rest => groupKeys g ++ routersKeys rest

/-- A nested model: `Item{Sku string}` tagged `json:"sku" form:"sku"`. -/
def exampleItem : GoType :=
  .struct "main" "Item"
    [({ name := "Sku",
        tags := some [{ key := "json", value := "sku" }, { key := "form", value := "sku" }] },
      .builtin .string)]

/-- A model with a slice of structs: `Order{Items []Item}` tagged
`json:"items" form:"items"`. -/
def exampleOrder : GoType :=
  .struct "main" "Order"
    [({ name := "Items",
        tags := some [{ key := "json", value := "items" }, { key := "form", value := "items" }] },
      .slice "" exampleItem)]

/-- A model with a nested struct and a map of structs:
`Cart{First Item; ByName map[string]Item}` tagged `json:"first"` and `json:"byName"`. -/
def exampleCart : GoType :=
  .struct "main" "Cart"
    [({ name := "First", tags := some [{ key := "json", value := "first" }] }, exampleItem),
     ({ name := "ByName", tags := some [{ key := "json", value := "byName" }] },
      .map "" (.builtin .string) exampleItem)]

/-- A document whose only route, `GET /hidden` with a `200` response of `&TestResp{}`, is
excluded from the documentation. -/
def exampleHidden : Swagger :=
  { routers := [[("/hidden", [("GET",
      { exclude := true, response := [("200", { model := .ref exampleTestResp })] })])]] }

/-- A document with the one route `PATCH /items/:id` whose request model is `&Item{}`. -/
def examplePatch : Swagger :=
  { routers := [[("/items/:id", [("PATCH", { request := { model := .ref exampleItem } })])]] }

/-- A route with the request model `&Item{}`, as registered under `POST /items`. -/
def examplePostRoute : Router := { request := { model := .ref exampleItem } }

/-- A route with different request and response content types and a `200` response of
`&TestResp{}` described as `done`. -/
def exampleUpload : Router :=
  { requestContentType := "multipart/form-data", responseContentType := "application/xml",
    response := [("200", { description := "done", model := .ref exampleTestResp })] }

/-- A request model whose first field carries two location tags:
`Traced{Trace string; Page int; Note string}` tagged `query:"trace" header:"X-Trace"`,
`query:"page" binding:"required"` and `json:"note"`. -/
def exampleTraced : GoType :=
  .struct "main" "Traced"
    [({ name := "Trace",
        tags := some [{ key := "query", value := "trace" },
          { key := "header", value := "X-Trace" }] }, .builtin .string),
     ({ name := "Page",
        tags := some [{ key := "query", value := "page" },
          { key := "binding", value := "required" }] }, .builtin .int),
     ({ name := "Note", tags := some [{ key := "json", value := "note" }] }, .builtin .string)]

/-- The location and name of the parameter of a field as the specification words it: those
of the first tag the field carries in the order query, uri, header, cookie. -/
def firstLocation (tags : List Tag) : Option (String × String) :=
  match Tags.get tags "query" with
  | some t => some ("query", t.name)
  | none =>
    match Tags.get tags "uri" with
    | some t => some ("path", t.name)
    | none =>
      match Tags.get tags "header" with
      | some t => some ("header", t.name)
      | none =>
        match Tags.get tags "cookie" with
        | some t => some ("cookie", t.name)
        | none => none

/-- The location and name of the parameter of a field as `getParametersByModel` leaves
them: those of the last tag the field carries in the order query, uri, header, cookie. -/
def lastLocation (tags : List Tag) : Option (String × String) :=
  match Tags.get tags "cookie" with
  | some t => some ("cookie", t.name)
  | none =>
    match Tags.get tags "header" with
    | some t => some ("header", t.name)
    | none =>
      match Tags.get tags "uri" with
      | some t => some ("path", t.name)
      | none =>
        match Tags.get tags "query" with
        | some t => some ("query", t.name)
        | none => none

/-- Location, name and required flag of the parameter of a field, for a choice of the
location rule; no parameter for a field without location tag. -/
def paramOf (locate : List Tag → Option (String × String)) (f : FieldInfo × GoType) :
    Option (String × String × Bool) :=
  match f.1.tags with
  | none => none
  | some tags => (locate tags).map (fun p => (p.1, p.2, boundRequired f))

/-- Type, format and minimum of a schema. -/
def Schema.core (s : Schema) : String × String × Option Int := (s.type, s.format, s.min)

/-- A model with a slice of strings: `Article{Tags []string}` tagged `json:"tags"`. -/
def exampleArticle : GoType :=
  .struct "main" "Article"
    [({ name := "Tags", tags := some [{ key := "json", value := "tags" }] },
      .slice "" (.builtin .string))]

/-- The model `Article` with a description on its slice of strings: the field is tagged
`json:"tags" description:"labels"`. -/
def exampleArticleDescribed : GoType :=
  .struct "main" "Article"
    [({ name := "Tags",
        tags := some [{ key := "json", value := "tags" },
          { key := "description", value := "labels" }] },
      .slice "" (.builtin .string))]

/-- The enum descriptor set `{"Color": {Kind: "string", Values: ["red", "green"],
Description: "a color"}}`. -/
def exampleColorEnum : GoMap EnumItem :=
  [("Color", { name := "Color", kind := "string", values := [.str "red", .str "green"],
               description := "a color" })]

/-- A document whose only route, `GET /colors`, declares the enum descriptor `Color` and has
no request or response model. -/
def exampleEnumOnly : Swagger :=
  { routers := [[("/colors", [("GET", { enum := exampleColorEnum })])]] }

/-- The document of `exampleEnumOnly` with a `200` response of `&TestResp{}` added to the
route. -/
def exampleEnumWithModel : Swagger :=
  { routers := [[("/colors", [("GET",
      { enum := exampleColorEnum,
        response := [("200", { model := .ref exampleTestResp })] })])]] }

/-- The schema `getEnumComponent` registers for a descriptor. -/
def enumComponent (enumName : String) (enumItem : EnumItem) : Component :=
  { type := enumItem.kind, title := enumName, description := enumItem.description,
    enum := enumItem.values }

/-! ## Route registration -/

set_option linter.dupNamespace false

/-- Go `router.Option`. -/
abbrev RouterOption := Router → Router

/-- Go `router.Security`, the route option: the requirements are appended to those of the
route. -/
def routerSecurity (securities : List Security) : RouterOption :=
  fun router => { router with securities := router.securities ++ securities }

/-- Go `router.Resp`, the route option. -/
def routerResp (response : GoMap ResponseItem) : RouterOption :=
  fun router => { router with response := response }

/-- The router `router.NewRouterX` makes before it returns its address: the options are
applied in turn to a route without model (the handlers play no part in the document). -/
def NewRouterX (options : List RouterOption) : Router :=
  options.foldl (fun router option => option router) {}

/-- The assignment `*p = f(*p)` in a list of routers addressed by position; an address
outside the list changes nothing. -/
def updateAt (f : Router → Router) : List Router → Nat → List Router
  | [], _ => []
  | x :: rest, 0 => f x :: rest
  | x :: rest, p + 1 => x :: updateAt f rest p

/-- Go `Egs` with the routers of the program. `heap` holds the `router.Router` values made
so far, a `*router.Router` being a position in it; `routes` is `Routers[&e.RouterGroup]`,
the one key `New` makes and `handle` writes, and holds these pointers by path and then by
method. -/
structure Egs where
  heap : List Router := []
  routes : GoMap (GoMap Nat) := []

/-- Go `New`: no route yet. -/
def New : Egs := {}

/-- The allocation `&Router{...}` of `router.NewRouterX` and `router.NewRouter`: the router
is added to the heap and its address returned. -/
def Egs.alloc (e : Egs) (r : Router) : Egs × Nat :=
  ({ e with heap := e.heap ++ [r] }, e.heap.length)

/-- Go `Egs.Routers`, the map `New` shares with the `Swagger`, as `buildPath` reads it:
through the pointers, at the time of the build. -/
def Egs.Routers (e : Egs) : RouterMap :=
  [e.routes.map (fun pm => (pm.1, pm.2.map (fun mr => (mr.1, e.heap.getD mr.2 {}))))]

/-- Go `Egs.handle`: method and path are written into the router behind the pointer, and
the pointer is stored under its path and method. -/
def Egs.handle (e : Egs) (path method : String) (r : Nat) : Egs :=
  { heap := updateAt (fun x => { x with method := method, path := path }) e.heap r,
    routes := GoMap.store e.routes path
      (GoMap.store ((GoMap.lookup e.routes path).getD []) method r) }

/-- Go `Group`, without the handlers and the gin group; the tags and the requirements are
the contents of its slices. -/
structure Group where
  path : String := ""
  tags : List String := []
  securities : List Security := []

/-- Go `GroupOption`. -/
abbrev GroupOption := Group → Group

/-- Go `Tags` of package `egs`, the group option. -/
def groupTags (tags : String) : GroupOption :=
  fun g => { g with tags := g.tags ++ [tags] }

/-- Go `Security` of package `egs`, the group option: the requirements are appended to those
of the group. -/
def groupSecurity (securities : List Security) : GroupOption :=
  fun g => { g with securities := g.securities ++ securities }

/-- Go `Egs.Group`: a new group under a path, with the options applied in turn. -/
def Egs.Group (path : String) (options : List GroupOption) : Group :=
  options.foldl (fun g option => option g) { path := path }

/-- Go `Group.handle`: the tags and the requirements of the group are appended to those of
the router behind the pointer, which `Egs.handle` then stores under the path of the group
followed by the path given. -/
def Group.handle (g : Group) (e : Egs) (method path : String) (r : Nat) : Egs :=
  Egs.handle
    { e with
      heap := updateAt
        (fun x => { x with tags := x.tags ++ g.tags,
                           securities := x.securities ++ g.securities }) e.heap r }
    (g.path ++ path) method r

/-- The requirements of the routes `buildPath` builds an operation for under one path, in
visiting order. -/
def methodsSecurities : GoMap Router → List Security
  | [] => []
  | (_, r) :: rest => (if r.exclude then [] else r.securities) ++ methodsSecurities rest

/-- The requirements of the routes of one router group that are not excluded, in visiting
order. -/
def groupSecurities : GoMap (GoMap Router) → List Security
  | [] => []
  | (_, m) :: rest => methodsSecurities m ++ groupSecurities rest

/-- The requirements of all the routes that are not excluded, in visiting order. -/
def routersSecurities : RouterMap → List Security
  | [] => []
  | g :: rest => groupSecurities g ++ routersSecurities rest

/-- The security-scheme registry after each requirement of a list is stored in turn under
its name. -/
def storeSchemes (ss : GoMap SecurityScheme) : List Security → GoMap SecurityScheme
  | [] => ss
  | s :: rest => storeSchemes (GoMap.store ss s.Name s.Schema) rest

/-- The bearer requirement of `examples/main.go`. -/
def jwtAuth : Security := .bearer "jwtAuth"

/-- The registration of `examples/main.go` for the group `test`, with a route without model:
`testGroup := app.Group("test", egs.Security(jwtAuth))`, then `testGroup.POST("/:id", r)`
for the router `r` with the `200` response of `&TestResp{}`. -/
def exampleSecured : Egs :=
  let made := New.alloc (NewRouterX [routerResp [("200", { model := .ref exampleTestResp })]])
  (Egs.Group "test" [groupSecurity [jwtAuth]]).handle made.1 "POST" "/:id" made.2

/-- One route with two requirements of the same name: `GET /me` with
`router.Security(&security.Basic{AuthName: "auth"}, &security.Bearer{AuthName: "auth"})`. -/
def exampleSameName : Egs :=
  let made := New.alloc (NewRouterX [routerSecurity [.basic "auth", .bearer "auth"]])
  made.1.handle "/me" "GET" made.2

/-- One router, made with `router.Security(&security.Basic{AuthName: "own"})`, registered as
`GET /x` under the group `/a` with the bearer requirement `first` and then under the group
`/b` with the bearer requirement `second`. -/
def exampleTwoGroups : Egs :=
  let made := New.alloc (NewRouterX [routerSecurity [.basic "own"]])
  let e1 := (Egs.Group "/a" [groupSecurity [.bearer "first"]]).handle made.1 "GET" "/x" made.2
  (Egs.Group "/b" [groupSecurity [.bearer "second"]]).handle e1 "GET" "/x" made.2

/-! ## Notions of the idempotence statement -/

/-- The registry is keyed by title: no key twice (as in every Go map) and every schema is
stored under its title, as every write of the builder does. -/
def Components.wellKeyed (c : Components) : Prop :=
  (GoMap.keys (c.schemas.getD [])).Nodup ∧ ∀ e ∈ c.schemas.getD [], e.2.title = e.1

/-- The nested lookups of a field type go by a plain type name: a struct field or a struct
map value has a type name that `removePackageName` leaves as it is (no `.`), and a slice
has elements of a predeclared kind. -/
def plainNested : GoType → Bool
  | .struct _ name _ => decide (removePackageName name = name)
  | .slice _ elem => isBuiltinType elem
  | .map _ _ (.struct _ name _) => decide (removePackageName name = name)
  | _ => true

/-- The number of schemas of the registry with a title. -/
def titledCount (c : Components) (title : String) : Nat :=
  ((c.schemas.getD []).filter (fun e => decide (e.2.title = title))).length

/-- A model with an enum field and a nested struct that has an enum field of the same name:
`Paint{Tone string; Base Primer}` tagged `json:"color" enum:"values:red"` and `json:"base"`,
with `Primer{Tone string}` tagged `json:"color" enum:"values:blue"`. -/
def examplePaint : GoType :=
  .struct "main" "Paint"
    [({ name := "Tone",
        tags := some [{ key := "json", value := "color" },
          { key := "enum", value := "values:red" }] }, .builtin .string),
     ({ name := "Base", tags := some [{ key := "json", value := "base" }] },
      .struct "main" "Primer"
        [({ name := "Tone",
            tags := some [{ key := "json", value := "color" },
              { key := "enum", value := "values:blue" }] }, .builtin .string)])]

/-- A model with a nested struct and an enum field of its own:
`Shirt{Size string; Maker Brand}` tagged `json:"size" enum:"values:s,m,l"` and
`json:"maker"`, with `Brand{Name string}` tagged `json:"name"`. -/
def exampleShirt : GoType :=
  .struct "main" "Shirt"
    [({ name := "Size",
        tags := some [{ key := "json", value := "size" },
          { key := "enum", value := "values:s,m,l" }] }, .builtin .string),
     ({ name := "Maker", tags := some [{ key := "json", value := "maker" }] },
      .struct "main" "Brand"
        [({ name := "Name", tags := some [{ key := "json", value := "name" }] },
          .builtin .string)])]

/-! ## Schemas a synthesis may register -/

/-- The inline schema of the scalar branches of `getComponentByModel`, after the
description and default overrides: none when the code aborts. -/
def scalarProp (tags : List Tag) (x : Except Panic (Option GoType)) : Option SchemaRef :=
  match x with
  | .error _ => none
  | .ok v =>
    match setDescription tags (getSchemaByValue v) with
    | .error _ => none
    | .ok s1 =>
      match setDefault tags s1 with
      | .error _ => none
      | .ok s2 => some { value := s2 }

/-- The property the dispatch of `getComponentByModel` stores for a field, which does not
depend on the registry: none when the dispatch aborts on the field itself. -/
def propOf (fi : FieldInfo) (tags : List Tag) : GoType → Option SchemaRef
  | .struct pkg name fields =>
    if name = "Time" then
      match fieldInterface fi (.struct pkg name fields) true with
      | .error _ => none
      | .ok v =>
        match getSchemaByValue v with
        | none => none
        | some fieldSchema =>
          some { value := some { fieldSchema with format := "date-time", type := "string" } }
    else some { ref := generateRefName name }
  | .slice sname elem =>
    if isBuiltinType elem = false then
      match fieldInterface fi (.slice sname elem) true with
      | .error _ => none
      | .ok v =>
        match getSchemaByValue v with
        | none => none
        | some fieldSchema =>
          let items : ItemRef := { ref := generateRefName elem.name }
          some { value := some { fieldSchema with items := some items } }
    else scalarProp tags (fieldInterface fi (.slice sname elem) true)
  | .map _ _ elem =>
    match elem.kind with
    | .Interface =>
      let ap : AdditionalProperties := { has := some true }
      some { value := some { NewObjectSchema with additionalProperties := ap } }
    | .Struct =>
      let ap : AdditionalProperties := { schema := some { ref := generateRefName elem.name } }
      some { value := some { NewObjectSchema with additionalProperties := ap } }
    | k =>
      let ap : AdditionalProperties := { schema := some { value := getBasicSchemaByType k } }
      some { value := some { NewObjectSchema with additionalProperties := ap } }
  | .iface _ => some { value := some NewObjectSchema }
  | t => scalarProp tags (fieldInterface fi t true)

/-- The schema the field loop of `getComponentByModel` accumulates over the fields, from
the required list and the properties it starts with. -/
def accOf (isRequest : Bool) (acc : Component) : List (FieldInfo × GoType) → Component
  | [] => acc
  | (fi, ft) :: rest =>
    match fi.tags with
    | none => acc
    | some tags =>
      match fieldName isRequest fi tags with
      | none => accOf isRequest acc rest
      | some name =>
        match propOf fi tags ft with
        | none => acc
        | some prop =>
          accOf isRequest
            { acc with
              required := addRequired acc.required tags name,
              properties := GoMap.store acc.properties name prop } rest

/-- The schema `getComponentByModel` registers for a struct type, read as a request or as a
response model. -/
def modelComponent (isRequest : Bool) (name : String) (fields : List (FieldInfo × GoType)) :
    Component :=
  { accOf isRequest NewObjectComponent fields with title := removePackageName name }

/-- The schema `getComponentByModel` registers for a type that is not a struct. -/
def emptyComponent (name : String) : Component :=
  { NewObjectComponent with title := removePackageName name }

/-- The schema an inline enum tag registers under a field name, none when the tag is empty
or the registration aborts. -/
def enumWrites (name enumTag : String) : List (String × Component) :=
  if enumTag = "" then []
  else
    match getEnumComponentByTag {} name enumTag with
    | .ok c => c.schemas.getD []
    | .error _ => []

mutual
/-- The schemas the field loop of `getComponentByModel` may register for these fields, each
with its key. -/
def fieldsWrites (isRequest : Bool) : List (FieldInfo × GoType) → List (String × Component)
  | [] => []
  | (fi, ft) :: rest =>
    match fi.tags with
    | none => []
    | some tags =>
      match fieldName isRequest fi tags with
      | none => fieldsWrites isRequest rest
      | some name =>
        enumWrites name (enumTagOf tags) ++
          (propWrites isRequest ft ++ fieldsWrites isRequest rest)

/-- The schemas the dispatch on one field type may register. -/
def propWrites (isRequest : Bool) : GoType → List (String × Component)
  | .struct _ name fields =>
    if name = "Time" then []
    else (removePackageName name, modelComponent isRequest name fields) ::
      fieldsWrites isRequest fields
  | .slice _ elem => if isBuiltinType elem = false then zeroWrites isRequest elem else []
  | .map _ _ elem =>
    match elem.kind with
    | .Struct => zeroWrites isRequest elem
    | _ => []
  | _ => []

/-- The schemas the synthesis of the zero value of a type may register. -/
def zeroWrites (isRequest : Bool) : GoType → List (String × Component)
  | .iface _ => []
  | .ptr _ (.struct _ name fields) =>
    (removePackageName name, modelComponent isRequest name fields) ::
      fieldsWrites isRequest fields
  | .ptr _ elem => [(removePackageName elem.name, emptyComponent elem.name)]
  | .struct _ name fields =>
    (removePackageName name, modelComponent isRequest name fields) ::
      fieldsWrites isRequest fields
  | t => [(removePackageName t.name, emptyComponent t.name)]
end

/-- The route `GET /ping` with the `200` response of `&TestResp{}`. -/
def examplePingRoute : Router := { response := [("200", { model := .ref exampleTestResp })] }

/-- The route `POST /login` with the request model `&Login{}`, the `200` response of
`&TestResp{}` and the bearer requirement `jwtAuth`. -/
def exampleLoginRoute : Router :=
  { request := { model := .ref exampleLogin },
    response := [("200", { model := .ref exampleTestResp })], securities := [jwtAuth] }

/-- Two routes that declare the same response model, `/ping` visited first. -/
def exampleTwoRoutes : Swagger :=
  { routers := [[("/ping", [("GET", examplePingRoute)]),
      ("/login", [("POST", exampleLoginRoute)])]] }

/-- The routes of `exampleTwoRoutes`, with `/login` visited first. -/
def exampleTwoRoutesSwapped : Swagger :=
  { routers := [[("/login", [("POST", exampleLoginRoute)]),
      ("/ping", [("GET", examplePingRoute)])]] }

/-- A model whose two fields resolve to one name and are both bound as required:
`Dup{A string; B string}`, both tagged `json:"x" binding:"required"`. -/
def exampleDup : GoType :=
  .struct "main" "Dup"
    [({ name := "A",
        tags := some [{ key := "json", value := "x" },
          { key := "binding", value := "required" }] }, .builtin .string),
     ({ name := "B",
        tags := some [{ key := "json", value := "x" },
          { key := "binding", value := "required" }] }, .builtin .string)]

/-- A model whose two fields resolve to one name, the first bound as required and the
second not: `Half{A string; B string}` tagged `json:"x" binding:"required"` and
`json:"x"`. -/
def exampleHalf : GoType :=
  .struct "main" "Half"
    [({ name := "A",
        tags := some [{ key := "json", value := "x" },
          { key := "binding", value := "required" }] }, .builtin .string),
     ({ name := "B", tags := some [{ key := "json", value := "x" }] }, .builtin .string)]

/-- A document whose path `/:id` (route `GET`) is visited before its path `/{id}` (route
`POST`); both have the document key `/{id}`. -/
def exampleSameKey : Swagger :=
  { routers := [[("/:id", [("GET", { summary := "first" })]),
      ("/{id}", [("POST", { summary := "second" })])]] }

/-- A response model whose two fields carry a `json` tag without a name:
`Bare{A string; B int}`, both tagged `json:",omitempty"`. -/
def exampleBare : GoType :=
  .struct "main" "Bare"
    [({ name := "A", tags := some [{ key := "json", value := ",omitempty" }] },
      .builtin .string),
     ({ name := "B", tags := some [{ key := "json", value := ",omitempty" }] },
      .builtin .int)]

/-- The components after the schemas of a list are stored, in turn, under their names. -/
def applyWrites (c : Components) : List (String × Component) → Components
  | [] => c
  | w :: rest => applyWrites (c.setSchema w.1 w.2) rest

/-- The schema a list of writes stores last under a name. -/
def lastWrite (ws : List (String × Component)) (k : String) : Option Component :=
  GoMap.lookup ws.reverse k

/-- The registry is keyed by title and its names are those of a list. -/
def Components.keyedBy (c : Components) (K : List String) : Prop :=
  c.wellKeyed ∧ ∀ k, (c.schema k).isSome = true ↔ k ∈ K

mutual
/-- The schemas the field loop of `getComponentByModel` stores, in order, when the registry
has the names `K` and every name it stores is among them: the enum of each enum-tagged
visible field and, for a nested model whose type name is not in `K`, the schemas of its
synthesis. -/
def fieldsReplay (K : List String) (isRequest : Bool) :
    List (FieldInfo × GoType) → List (String × Component)
  | [] => []
  | (fi, ft) :: rest =>
    match fi.tags with
    | none => []
    | some tags =>
      match fieldName isRequest fi tags with
      | none => fieldsReplay K isRequest rest
      | some name =>
        enumWrites name (enumTagOf tags) ++
          (propReplay K isRequest ft ++ fieldsReplay K isRequest rest)

/-- The schemas the dispatch on one field type stores when the registry has the names
`K`. -/
def propReplay (K : List String) (isRequest : Bool) : GoType → List (String × Component)
  | .struct _ name fields =>
    if name = "Time" then []
    else if name ∈ K then []
    else fieldsReplay K isRequest fields ++
      [(removePackageName name, modelComponent isRequest name fields)]
  | .slice _ elem =>
    if isBuiltinType elem = false then
      (if elem.name ∈ K then [] else zeroReplay K isRequest elem)
    else []
  | .map _ _ elem =>
    match elem.kind with
    | .Struct => if elem.name ∈ K then [] else zeroReplay K isRequest elem
    | _ => []
  | _ => []

/-- The schemas the synthesis of the zero value of a type stores when the registry has the
names `K`. -/
def zeroReplay (K : List String) (isRequest : Bool) : GoType → List (String × Component)
  | .iface _ => []
  | .ptr _ (.struct _ name fields) =>
    fieldsReplay K isRequest fields ++
      [(removePackageName name, modelComponent isRequest name fields)]
  | .ptr _ elem => [(removePackageName elem.name, emptyComponent elem.name)]
  | .struct _ name fields =>
    fieldsReplay K isRequest fields ++
      [(removePackageName name, modelComponent isRequest name fields)]
  | t => [(removePackageName t.name, emptyComponent t.name)]
end

/-- The schemas a second synthesis of a struct model stores, in order, in the registry the
first one left: those of its field loop, then the schema of the model. -/
def secondWrites (c1 : Components) (isRequest : Bool) (name : String)
    (fields : List (FieldInfo × GoType)) : List (String × Component) :=
  fieldsReplay (GoMap.keys (c1.schemas.getD [])) isRequest fields ++
    [(removePackageName name, modelComponent isRequest name fields)]

/-- A model whose two fields resolve to one name and carry different enum tags:
`Two{A string; B string}` tagged `json:"color" enum:"values:red"` and
`json:"color" enum:"values:blue"`. -/
def exampleTwo : GoType :=
  .struct "main" "Two"
    [({ name := "A",
        tags := some [{ key := "json", value := "color" },
          { key := "enum", value := "values:red" }] }, .builtin .string),
     ({ name := "B",
        tags := some [{ key := "json", value := "color" },
          { key := "enum", value := "values:blue" }] }, .builtin .string)]

/-- No enum-tagged visible field has a name under which the synthesis may store later in
the same call: the name is not a key of the nested models of the field nor a key the
fields after it may write. -/
def enumsKept (isRequest : Bool) : List (FieldInfo × GoType) → Bool
  | [] => true
  | (fi, ft) :: rest =>
    (match fi.tags with
      | none => true
      | some tags =>
        match fieldName isRequest fi tags with
        | none => true
        | some name =>
          decide (enumTagOf tags = "") ||
            decide (name ∉ propNames isRequest ft ++ fieldsNames isRequest rest)) &&
      enumsKept isRequest rest

/-! ## Lemmas on maps -/

theorem GoMap.lookup_store_same {α : Type} (m : GoMap α) (k : String) (v : α) :
    GoMap.lookup (GoMap.store m k v) k = some v := by
  induction m with
  | nil => simp [GoMap.store, GoMap.lookup]
  | cons p rest ih =>
    obtain ⟨k1, v1⟩ := p
    by_cases h : k1 = k
    · simp [GoMap.store, GoMap.lookup, h]
    · simp [GoMap.store, GoMap.lookup, h, ih]

theorem GoMap.lookup_store_other {α : Type} (m : GoMap α) (k k2 : String) (v : α)
    (hk : k ≠ k2) : GoMap.lookup (GoMap.store m k v) k2 = GoMap.lookup m k2 := by
  induction m with
  | nil => simp [GoMap.store, GoMap.lookup, hk]
  | cons p rest ih =>
    obtain ⟨k1, v1⟩ := p
    by_cases h : k1 = k
    · subst h
      simp [GoMap.store, GoMap.lookup, hk]
    · by_cases h2 : k1 = k2
      · subst h2
        simp [GoMap.store, GoMap.lookup, h]
      · simp [GoMap.store, GoMap.lookup, h, h2, ih]

theorem GoMap.lookup_isSome_iff_mem_keys {α : Type} (m : GoMap α) (k : String) :
    (GoMap.lookup m k).isSome = true ↔ k ∈ GoMap.keys m := by
  induction m with
  | nil => simp [GoMap.lookup, GoMap.keys]
  | cons p rest ih =>
    obtain ⟨k1, v1⟩ := p
    by_cases h : k1 = k
    · simp [GoMap.lookup, GoMap.keys, h]
    · have h2 : ¬ k = k1 := fun e => h e.symm
      simp only [GoMap.lookup, h, if_false, ih, GoMap.keys, List.map_cons, List.mem_cons, h2,
        false_or]

theorem fixChars_nil (n : Nat) : fixChars n [] = [] := by
  cases n <;> simp [fixChars]

theorem fixChars_cons_ne (n : Nat) (c : Char) (rest : List Char) (hc : c ≠ '/') :
    fixChars (n + 1) (c :: rest) = c :: fixChars n rest := by
  rw [fixChars]
  intro r h
  exact absurd h hc

theorem fixChars_slash_other (n : Nat) (rest : List Char) (hr : ∀ r, rest ≠ ':' :: r) :
    fixChars (n + 1) ('/' :: rest) = '/' :: fixChars n rest := by
  rw [fixChars]
  intro r _ h
  exact hr r h

theorem fixChars_slash_colon (n : Nat) (rest : List Char) :
    fixChars (n + 1) ('/' :: ':' :: rest) =
      match rest.takeWhile isAlnum with
      | [] => '/' :: fixChars n (':' :: rest)
      | d :: ds => '/' :: '{' :: (d :: ds) ++ '}' :: fixChars n (rest.dropWhile isAlnum) := by
  rw [fixChars]


theorem fixChars_skip (pre : List Char) (hpre : '/' ∉ pre) :
    ∀ (n : Nat) (rest : List Char), (pre ++ rest).length ≤ n →
      fixChars n (pre ++ rest) = pre ++ fixChars (n - pre.length) rest := by
  induction pre with
  | nil => intro n rest _; simp
  | cons c pre ih =>
    intro n rest hn
    have hc : c ≠ '/' := fun e => hpre (by simp [e])
    have hp : '/' ∉ pre := fun h => hpre (List.mem_cons_of_mem _ h)
    cases n with
    | zero => simp at hn
    | succ n =>
      simp only [List.cons_append, List.length_cons] at hn ⊢
      rw [fixChars_cons_ne n c _ hc, ih hp n rest (by omega)]
      simp

theorem takeWhile_append_stop {p : Char → Bool} (l tail : List Char)
    (ht : tail = [] ∨ ∃ c t, tail = c :: t ∧ p c = false) :
    (l ++ tail).takeWhile p = l.takeWhile p ∧
      (l ++ tail).dropWhile p = l.dropWhile p ++ tail := by
  induction l with
  | nil =>
    rcases ht with h | ⟨c, t, h, hc⟩
    · simp [h]
    · simp [h, List.takeWhile, List.dropWhile, hc]
  | cons a l ih =>
    by_cases ha : p a = true
    · simp [List.takeWhile, List.dropWhile, ha, ih.1, ih.2]
    · simp [List.takeWhile, List.dropWhile, ha]

theorem not_mem_dropWhile {p : Char → Bool} (c : Char) (l : List Char) (h : c ∉ l) :
    c ∉ l.dropWhile p := by
  intro hm
  exact h ((List.dropWhile_suffix p).subset hm)

theorem length_dropWhile_le {p : Char → Bool} (l : List Char) :
    (l.dropWhile p).length ≤ l.length :=
  (List.dropWhile_suffix p).length_le

/-- One segment step of the scan: the text after the segment is rewritten on its own. -/
theorem fixChars_segment (s tail out : List Char) (hs : '/' ∉ s)
    (ht : tail = [] ∨ ∃ t, tail = '/' :: t)
    (hout : ∀ m, tail.length ≤ m → fixChars m tail = out) :
    ∀ n, ('/' :: s ++ tail).length ≤ n →
      fixChars n ('/' :: s ++ tail) = '/' :: rewriteSeg s ++ out := by
  intro n hn
  have hstop : tail = [] ∨ ∃ c t, tail = c :: t ∧ isAlnum c = false := by
    rcases ht with h | ⟨t, h⟩
    · exact Or.inl h
    · exact Or.inr ⟨'/', t, h, by decide⟩
  cases n with
  | zero => simp at hn
  | succ n =>
    simp only [List.cons_append, List.length_cons, List.length_append] at hn
    cases s with
    | nil =>
      have hr : ∀ r, ([] ++ tail : List Char) ≠ ':' :: r := by
        intro r h
        rcases ht with h1 | ⟨t, h1⟩
        · simp [h1] at h
        · simp [h1] at h
      rw [List.cons_append, fixChars_slash_other n _ hr]
      simp only [List.nil_append, rewriteSeg, List.cons_append]
      rw [hout n (by simp at hn; omega)]
    | cons c s =>
      by_cases hc : c = ':'
      · subst hc
        have hs2 : '/' ∉ s := fun h => hs (List.mem_cons_of_mem _ h)
        obtain ⟨e1, e2⟩ := takeWhile_append_stop (p := isAlnum) s tail hstop
        simp only [List.cons_append]
        rw [fixChars_slash_colon, e1, e2]
        simp only [rewriteSeg]
        cases htw : s.takeWhile isAlnum with
        | nil =>
          simp only
          have := fixChars_skip (':' :: s) hs n tail (by simp at hn ⊢; omega)
          simp only [List.cons_append] at this
          rw [this, hout _ (by simp at hn ⊢; omega)]
          simp
        | cons d ds =>
          simp only
          have hd : '/' ∉ s.dropWhile isAlnum := not_mem_dropWhile _ _ hs2
          have hl := length_dropWhile_le (p := isAlnum) s
          rw [fixChars_skip _ hd n tail (by simp at hn ⊢; omega),
            hout _ (by simp at hn ⊢; omega)]
          simp
      · have hr : ∀ r, (c :: s ++ tail : List Char) ≠ ':' :: r := by
          intro r h
          simp only [List.cons_append] at h
          injection h with h1 _
          exact hc h1
        rw [List.cons_append, fixChars_slash_other n _ hr]
        rw [fixChars_skip (c :: s) hs n tail (by simp at hn ⊢; omega),
          hout _ (by simp at hn ⊢; omega)]
        have : rewriteSeg (c :: s) = c :: s := by
          unfold rewriteSeg
          split
          · rename_i h
            injection h with h1 _
            exact absurd h1 hc
          · rfl
        rw [this]
        simp

theorem joinSegs_head (segs : List (List Char)) :
    joinSegs segs = [] ∨ ∃ t, joinSegs segs = '/' :: t := by
  cases segs with
  | nil => exact Or.inl rfl
  | cons s rest => exact Or.inr ⟨_, rfl⟩

/-- The scan rewrites a path segment by segment. -/
theorem fixChars_segments (segs : List (List Char)) (hsegs : ∀ s ∈ segs, '/' ∉ s) :
    ∀ n, (joinSegs segs).length ≤ n →
      fixChars n (joinSegs segs) = joinSegs (segs.map rewriteSeg) := by
  induction segs with
  | nil => intro n _; simp [joinSegs, fixChars_nil]
  | cons s rest ih =>
    intro n hn
    have h1 := fixChars_segment s (joinSegs rest) (joinSegs (rest.map rewriteSeg))
      (hsegs s (by simp)) (joinSegs_head rest)
      (ih (fun x hx => hsegs x (List.mem_cons_of_mem _ hx))) n (by simpa [joinSegs] using hn)
    simpa [joinSegs] using h1

theorem fixChars_path (pre : List Char) (segs : List (List Char)) (hpre : '/' ∉ pre)
    (hsegs : ∀ s ∈ segs, '/' ∉ s) (n : Nat) (hn : (pre ++ joinSegs segs).length ≤ n) :
    fixChars n (pre ++ joinSegs segs) = pre ++ joinSegs (segs.map rewriteSeg) := by
  rw [fixChars_skip pre hpre n _ hn, fixChars_segments segs hsegs _ (by simp at hn ⊢; omega)]

theorem fixChars_unchanged : ∀ (n : Nat) (cs : List Char),
    (∀ a b, cs ≠ a ++ '/' :: ':' :: b) → fixChars n cs = cs := by
  intro n
  induction n with
  | zero => intro cs _; simp [fixChars]
  | succ n ih =>
    intro cs h
    cases cs with
    | nil => simp [fixChars]
    | cons c rest =>
      have hrest : ∀ a b, rest ≠ a ++ '/' :: ':' :: b := by
        intro a b e
        exact h (c :: a) b (by simp [e])
      by_cases hc : c = '/'
      · subst hc
        have hr : ∀ r, rest ≠ ':' :: r := by
          intro r e
          exact h [] r (by simp [e])
        rw [fixChars_slash_other n rest hr, ih rest hrest]
      · rw [fixChars_cons_ne n c rest hc, ih rest hrest]

theorem rewriteSeg_alnum (s : List Char)
    (h : ∀ name, s = ':' :: name → name ≠ [] ∧ ∀ c ∈ name, isAlnum c = true) :
    rewriteSeg s = braceSeg s := by
  cases s with
  | nil => rfl
  | cons c name =>
    by_cases hc : c = ':'
    · subst hc
      obtain ⟨hne, hall⟩ := h name rfl
      have e1 : name.takeWhile isAlnum = name := List.takeWhile_eq_self_iff.mpr hall
      have e2 : name.dropWhile isAlnum = [] := List.dropWhile_eq_nil_iff.mpr hall
      simp only [rewriteSeg, braceSeg, e1, e2]
      cases name with
      | nil => exact absurd rfl hne
      | cons d ds => simp
    · have e1 : rewriteSeg (c :: name) = c :: name := by
        unfold rewriteSeg
        split
        · rename_i h
          injection h with h1 _
          exact absurd h1 hc
        · rfl
      have e2 : braceSeg (c :: name) = c :: name := by
        unfold braceSeg
        split
        · rename_i h
          injection h with h1 _
          exact absurd h1 hc
        · rfl
      rw [e1, e2]

/-! ## Lemmas on the registry -/

theorem Components.schema_setSchema_same (c : Components) (k : String) (v : Component) :
    (c.setSchema k v).schema k = some v := by
  simp [Components.setSchema, Components.schema, GoMap.lookup_store_same]

theorem Components.schema_setSchema_other (c : Components) (k k2 : String) (v : Component)
    (h : k ≠ k2) : (c.setSchema k v).schema k2 = c.schema k2 := by
  simp [Components.setSchema, Components.schema, GoMap.lookup_store_other _ _ _ _ h]

theorem getEnumComponentByTag_ok (c c1 : Components) (name enumTag : String)
    (h : getEnumComponentByTag c name enumTag = .ok c1) :
    ∃ v : Component, v.title = name ∧ c1 = c.setSchema name v := by
  unfold getEnumComponentByTag at h
  split at h
  · cases h
  · split at h
    · cases h
    · injection h with h
      exact ⟨_, rfl, h.symm⟩

theorem registerEnum_ok (c c1 : Components) (name enumTag : String)
    (h : registerEnum c name enumTag = .ok c1) :
    (enumTag = "" ∧ c1 = c) ∨
      (enumTag ≠ "" ∧ ∃ v : Component, v.title = name ∧ c1 = c.setSchema name v) := by
  unfold registerEnum at h
  split at h
  · rename_i he
    injection h with h
    exact Or.inl ⟨he, h.symm⟩
  · rename_i he
    exact Or.inr ⟨he, getEnumComponentByTag_ok c c1 name enumTag h⟩

theorem registerModel_eq (c : Components) (name : String) (acc : Component) :
    ∃ v : Component, v.title = removePackageName name ∧
      registerModel c name acc = c.setSchema (removePackageName name) v :=
  ⟨_, rfl, rfl⟩

/-- Every registration of the synthesizer keeps a property `P` of the components that each
single write under a key in `W` keeps, as long as the keys it may write are in `W`. -/
theorem synth_preserves (P : Components → Prop) (W : String → Prop)
    (hP : ∀ c k v, W k → v.title = k → P c → P (c.setSchema k v)) :
    ∀ n : Nat,
      (∀ fs : List (FieldInfo × GoType), sizeOf fs ≤ n → ∀ isReq valid c acc r,
        (∀ k ∈ fieldsNames isReq fs, W k) →
        fieldLoop isReq valid c acc fs = .ok r → P c → P r.1) ∧
      (∀ ft : GoType, sizeOf ft ≤ n → ∀ isReq c fi tags r,
        (∀ k ∈ propNames isReq ft, W k) →
        fieldProp isReq c fi tags ft = .ok r → P c → P r.1) ∧
      (∀ t : GoType, sizeOf t ≤ n → ∀ isReq c c1,
        (∀ k ∈ zeroNames isReq t, W k) →
        synthZero isReq c t = .ok c1 → P c → P c1) := by
  intro n
  induction n with
  | zero =>
    refine ⟨?_, ?_, ?_⟩
    · intro fs hs
      cases fs with
      | nil =>
        intro isReq valid c acc r _ h hp
        simp only [fieldLoop] at h
        injection h with h
        subst h
        exact hp
      | cons f rest => simp at hs
    · intro ft hs
      cases ft <;> simp at hs
    · intro t hs
      cases t <;> simp at hs
  | succ n ih =>
    obtain ⟨ih1, ih2, ih3⟩ := ih
    have loopReg : ∀ (fields : List (FieldInfo × GoType)) (name : String) isReq valid c c1,
        sizeOf fields ≤ n → (∀ k ∈ removePackageName name :: fieldsNames isReq fields, W k) →
        (match fieldLoop isReq valid c NewObjectComponent fields with
          | .error e => .error e
          | .ok (c1, acc) => .ok (registerModel c1 name acc)) = Except.ok c1 →
        P c → P c1 := by
      intro fields name isReq valid c c1 hs hw h hp
      split at h
      · cases h
      · rename_i c2 acc hl
        injection h with h
        subst h
        have p2 := ih1 fields hs isReq valid c _ _
          (fun k hk => hw k (List.mem_cons_of_mem _ hk)) hl hp
        exact hP _ _ _ (hw _ (List.mem_cons_self _ _)) rfl p2
    have regOnly : ∀ (name : String) c c1,
        (∀ k ∈ [removePackageName name], W k) →
        (Except.ok (registerModel c name NewObjectComponent) : Except Panic Components)
          = Except.ok c1 →
        P c → P c1 := by
      intro name c c1 hw h hp
      injection h with h
      subst h
      exact hP _ _ _ (hw _ (List.mem_cons_self _ _)) rfl hp
    refine ⟨?_, ?_, ?_⟩
    · intro fs hs isReq valid c acc r hw h hp
      cases fs with
      | nil =>
        simp only [fieldLoop] at h
        injection h with h
        subst h
        exact hp
      | cons f rest =>
        obtain ⟨fi, ft⟩ := f
        have hs1 : sizeOf rest ≤ n := by simp at hs; omega
        have hs2 : sizeOf ft ≤ n := by simp at hs; omega
        simp only [fieldLoop] at h
        simp only [fieldsNames] at hw
        split at h
        · cases h
        · split at h
          · cases h
          · rename_i tags htags
            simp only [htags] at hw
            split at h
            · rename_i hname
              simp only [hname] at hw
              exact ih1 rest hs1 isReq valid c acc r hw h hp
            · rename_i name hname
              simp only [hname] at hw
              split at h
              · cases h
              · rename_i c1 henum
                have p1 : P c1 := by
                  rcases registerEnum_ok _ _ _ _ henum with ⟨_, e⟩ | ⟨hne, v, hv, e⟩
                  · subst e
                    exact hp
                  · subst e
                    exact hP _ _ _ (hw _ (by simp [hne])) hv hp
                split at h
                · cases h
                · rename_i c2 prop hprop
                  have p2 := ih2 ft hs2 isReq c1 fi tags _
                    (fun k hk => hw k (by simp [hk])) hprop p1
                  exact ih1 rest hs1 isReq valid c2 _ r
                    (fun k hk => hw k (by simp [hk])) h p2
    · intro ft hs isReq c fi tags r hw h hp
      cases ft with
      | struct pkg name fields =>
        have hs1 : sizeOf fields ≤ n := by simp at hs; omega
        simp only [fieldProp] at h
        simp only [propNames] at hw
        split at h
        · split at h
          · cases h
          · split at h
            · cases h
            · injection h with h
              subst h
              exact hp
        · rename_i hname
          simp only [hname, if_false] at hw
          split at h
          · injection h with h
            subst h
            exact hp
          · split at h
            · cases h
            · rename_i c1 acc hl
              injection h with h
              subst h
              have p2 := ih1 fields hs1 isReq true c _ _
                (fun k hk => hw k (List.mem_cons_of_mem _ hk)) hl hp
              exact hP _ _ _ (hw _ (List.mem_cons_self _ _)) rfl p2
      | slice sname elem =>
        have hs1 : sizeOf elem ≤ n := by simp at hs; omega
        simp only [fieldProp] at h
        simp only [propNames] at hw
        split at h
        · cases h
        · split at h
          · rename_i hb
            simp only [hb, if_true] at hw
            split at h
            · cases h
            · rename_i c1 hz
              split at h
              · cases h
              · injection h with h
                subst h
                split at hz
                · injection hz with hz
                  subst hz
                  exact hp
                · exact ih3 elem hs1 isReq c c1 hw hz hp
          · split at h
            · cases h
            · split at h
              · cases h
              · injection h with h
                subst h
                exact hp
      | map mname key elem =>
        have hs1 : sizeOf elem ≤ n := by simp at hs; omega
        simp only [fieldProp] at h
        simp only [propNames] at hw
        split at h
        · injection h with h
          subst h
          exact hp
        · rename_i hk
          simp only [hk] at hw
          split at h
          · cases h
          · rename_i c1 hz
            injection h with h
            subst h
            split at hz
            · injection hz with hz
              subst hz
              exact hp
            · exact ih3 elem hs1 isReq c c1 hw hz hp
        · injection h with h
          subst h
          exact hp
      | iface iname =>
        simp only [fieldProp] at h
        injection h with h
        subst h
        exact hp
      | builtin k =>
        simp only [fieldProp] at h
        repeat (first | (split at h) | (cases h))
        exact hp
      | defined dn k =>
        simp only [fieldProp] at h
        repeat (first | (split at h) | (cases h))
        exact hp
      | ptr pn e =>
        simp only [fieldProp] at h
        repeat (first | (split at h) | (cases h))
        exact hp
      | array an e =>
        simp only [fieldProp] at h
        repeat (first | (split at h) | (cases h))
        exact hp
      | chan cn e =>
        simp only [fieldProp] at h
        repeat (first | (split at h) | (cases h))
        exact hp
      | func fn =>
        simp only [fieldProp] at h
        repeat (first | (split at h) | (cases h))
        exact hp
    · intro t hs isReq c c1 hw h hp
      cases t with
      | iface iname =>
        simp only [synthZero] at h
        injection h with h
        subst h
        exact hp
      | struct pkg name fields =>
        have hs1 : sizeOf fields ≤ n := by simp at hs; omega
        simp only [synthZero] at h
        simp only [zeroNames] at hw
        exact loopReg fields name isReq true c c1 hs1 hw h hp
      | ptr pn e =>
        cases e with
        | struct pkg name fields =>
          have hs1 : sizeOf fields ≤ n := by simp at hs; omega
          simp only [synthZero] at h
          simp only [zeroNames] at hw
          exact loopReg fields name isReq false c c1 hs1 hw h hp
        | builtin k => exact regOnly _ c c1 (by simpa [zeroNames] using hw) (by simpa [synthZero] using h) hp
        | defined dn k => exact regOnly _ c c1 (by simpa [zeroNames] using hw) (by simpa [synthZero] using h) hp
        | slice a b => exact regOnly _ c c1 (by simpa [zeroNames] using hw) (by simpa [synthZero] using h) hp
        | map a b d => exact regOnly _ c c1 (by simpa [zeroNames] using hw) (by simpa [synthZero] using h) hp
        | ptr a b => exact regOnly _ c c1 (by simpa [zeroNames] using hw) (by simpa [synthZero] using h) hp
        | iface a => exact regOnly _ c c1 (by simpa [zeroNames] using hw) (by simpa [synthZero] using h) hp
        | array a b => exact regOnly _ c c1 (by simpa [zeroNames] using hw) (by simpa [synthZero] using h) hp
        | chan a b => exact regOnly _ c c1 (by simpa [zeroNames] using hw) (by simpa [synthZero] using h) hp
        | func a => exact regOnly _ c c1 (by simpa [zeroNames] using hw) (by simpa [synthZero] using h) hp
      | builtin k => exact regOnly _ c c1 (by simpa [zeroNames] using hw) (by simpa [synthZero] using h) hp
      | defined dn k => exact regOnly _ c c1 (by simpa [zeroNames] using hw) (by simpa [synthZero] using h) hp
      | slice a b => exact regOnly _ c c1 (by simpa [zeroNames] using hw) (by simpa [synthZero] using h) hp
      | map a b d => exact regOnly _ c c1 (by simpa [zeroNames] using hw) (by simpa [synthZero] using h) hp
      | array a b => exact regOnly _ c c1 (by simpa [zeroNames] using hw) (by simpa [synthZero] using h) hp
      | chan a b => exact regOnly _ c c1 (by simpa [zeroNames] using hw) (by simpa [synthZero] using h) hp
      | func a => exact regOnly _ c c1 (by simpa [zeroNames] using hw) (by simpa [synthZero] using h) hp

/-! ## Lemmas on the field loop -/

/-- One successful step of the field loop. -/
theorem fieldLoop_cons_ok (isReq valid : Bool) (c : Components) (acc : Component)
    (fi : FieldInfo) (ft : GoType) (rest : List (FieldInfo × GoType))
    (r : Components × Component)
    (h : fieldLoop isReq valid c acc ((fi, ft) :: rest) = .ok r) :
    valid = true ∧ ∃ tags, fi.tags = some tags ∧
      ((fieldName isReq fi tags = none ∧ fieldLoop isReq valid c acc rest = .ok r) ∨
        ∃ name c1 c2 prop, fieldName isReq fi tags = some name ∧
          registerEnum c name (enumTagOf tags) = .ok c1 ∧
          fieldProp isReq c1 fi tags ft = .ok (c2, prop) ∧
          fieldLoop isReq valid c2
            { acc with
              required := addRequired acc.required tags name,
              properties := GoMap.store acc.properties name prop } rest = .ok r) := by
  simp only [fieldLoop] at h
  split at h
  · cases h
  · rename_i hv
    refine ⟨by simpa using hv, ?_⟩
    split at h
    · cases h
    · rename_i tags htags
      refine ⟨tags, htags, ?_⟩
      split at h
      · rename_i hname
        exact Or.inl ⟨hname, h⟩
      · rename_i name hname
        split at h
        · cases h
        · rename_i c1 henum
          split at h
          · cases h
          · rename_i c2 prop hprop
            exact Or.inr ⟨name, c1, c2, prop, hname, henum, hprop, h⟩

theorem requiredNames_cons_skip (isReq : Bool) (f : FieldInfo × GoType)
    (rest : List (FieldInfo × GoType)) (h : resolvedName isReq f = none) :
    requiredNames isReq (f :: rest) = requiredNames isReq rest := by
  unfold requiredNames
  by_cases hb : boundRequired f = true
  · simp [List.filter, hb, List.filterMap_cons, h]
  · simp [List.filter, hb]

theorem requiredNames_cons_visible (isReq : Bool) (fi : FieldInfo) (ft : GoType)
    (tags : List Tag) (name : String) (rest : List (FieldInfo × GoType))
    (ht : fi.tags = some tags) (hn : fieldName isReq fi tags = some name) :
    addRequired [] tags name ++ requiredNames isReq rest =
      requiredNames isReq ((fi, ft) :: rest) := by
  have hres : resolvedName isReq (fi, ft) = some name := by simp [resolvedName, ht, hn]
  unfold requiredNames addRequired boundRequired
  simp only [ht, List.filter]
  cases hb : Tags.get tags "binding" with
  | none => simp
  | some b =>
    by_cases hr : b.name = "required"
    · simp [hr, List.filterMap_cons, hres]
    · simp [hr]

theorem addRequired_append (req : List String) (tags : List Tag) (name : String) :
    addRequired req tags name = req ++ addRequired [] tags name := by
  unfold addRequired
  cases Tags.get tags "binding" with
  | none => simp
  | some b => by_cases hr : b.name = "required" <;> simp [hr]

/-- The field loop appends the required names of the fields to the required list. -/
theorem fieldLoop_required (isReq valid : Bool) (fs : List (FieldInfo × GoType)) :
    ∀ (c : Components) (acc : Component) (r : Components × Component),
      fieldLoop isReq valid c acc fs = .ok r →
      r.2.required = acc.required ++ requiredNames isReq fs := by
  induction fs with
  | nil =>
    intro c acc r h
    simp only [fieldLoop] at h
    injection h with h
    subst h
    simp [requiredNames]
  | cons f rest ih =>
    obtain ⟨fi, ft⟩ := f
    intro c acc r h
    obtain ⟨_, tags, ht, hcase⟩ := fieldLoop_cons_ok _ _ _ _ _ _ _ _ h
    rcases hcase with ⟨hn, hrest⟩ | ⟨name, c1, c2, prop, hn, _, _, hrest⟩
    · rw [ih _ _ _ hrest, requiredNames_cons_skip]
      simp [resolvedName, ht, hn]
    · rw [ih _ _ _ hrest, ← requiredNames_cons_visible isReq fi ft tags name rest ht hn]
      simp only
      rw [addRequired_append, List.append_assoc]

/-- Every visible field has an entry in the properties the field loop returns, and the
entries it found there stay. -/
theorem fieldLoop_props_present (isReq valid : Bool) (fs : List (FieldInfo × GoType)) :
    ∀ (c : Components) (acc : Component) (r : Components × Component),
      fieldLoop isReq valid c acc fs = .ok r → ∀ k : String,
      ((GoMap.lookup acc.properties k).isSome = true ∨ k ∈ visibleNames isReq fs) →
      (GoMap.lookup r.2.properties k).isSome = true := by
  induction fs with
  | nil =>
    intro c acc r h k hk
    simp only [fieldLoop] at h
    injection h with h
    subst h
    simpa [visibleNames] using hk
  | cons f rest ih =>
    obtain ⟨fi, ft⟩ := f
    intro c acc r h k hk
    obtain ⟨_, tags, ht, hcase⟩ := fieldLoop_cons_ok _ _ _ _ _ _ _ _ h
    rcases hcase with ⟨hn, hrest⟩ | ⟨name, c1, c2, prop, hn, _, _, hrest⟩
    · apply ih _ _ _ hrest k
      rcases hk with hk | hk
      · exact Or.inl hk
      · right
        simpa [visibleNames, List.filterMap_cons, resolvedName, ht, hn] using hk
    · apply ih _ _ _ hrest k
      rcases hk with hk | hk
      · left
        by_cases e : name = k
        · subst e
          simp [GoMap.lookup_store_same]
        · simp only [GoMap.lookup_store_other _ _ _ _ e]
          exact hk
      · simp only [visibleNames, List.filterMap_cons, resolvedName, ht, hn,
          List.mem_cons] at hk
        rcases hk with hk | hk
        · left
          subst hk
          simp [GoMap.lookup_store_same]
        · exact Or.inr hk

/-- Every entry of the properties the field loop returns was there before or is the schema
the dispatch produced for a visible field of that name. -/
theorem fieldLoop_props_sound (isReq valid : Bool) (fs : List (FieldInfo × GoType)) :
    ∀ (c : Components) (acc : Component) (r : Components × Component),
      fieldLoop isReq valid c acc fs = .ok r → ∀ (k : String) (p : SchemaRef),
      GoMap.lookup r.2.properties k = some p →
      GoMap.lookup acc.properties k = some p ∨
        ∃ f ∈ fs, ∃ tags c1 c2, f.1.tags = some tags ∧ fieldName isReq f.1 tags = some k ∧
          fieldProp isReq c1 f.1 tags f.2 = .ok (c2, p) := by
  induction fs with
  | nil =>
    intro c acc r h k p hk
    simp only [fieldLoop] at h
    injection h with h
    subst h
    exact Or.inl hk
  | cons f rest ih =>
    obtain ⟨fi, ft⟩ := f
    intro c acc r h k p hk
    obtain ⟨_, tags, ht, hcase⟩ := fieldLoop_cons_ok _ _ _ _ _ _ _ _ h
    rcases hcase with ⟨hn, hrest⟩ | ⟨name, c1, c2, prop, hn, _, hprop, hrest⟩
    · rcases ih _ _ _ hrest k p hk with h1 | ⟨f, hf, rest1⟩
      · exact Or.inl h1
      · exact Or.inr ⟨f, List.mem_cons_of_mem _ hf, rest1⟩
    · rcases ih _ _ _ hrest k p hk with h1 | ⟨f, hf, rest1⟩
      · by_cases e : name = k
        · subst e
          simp only [GoMap.lookup_store_same] at h1
          injection h1 with h1
          subst h1
          exact Or.inr ⟨(fi, ft), List.mem_cons_self _ _, tags, c1, c2, ht, hn, hprop⟩
        · simp only [GoMap.lookup_store_other _ _ _ _ e] at h1
          exact Or.inl h1
      · exact Or.inr ⟨f, List.mem_cons_of_mem _ hf, rest1⟩

/-- The schema `getComponentByModel` registers for a struct model: the accumulated schema
of the field loop, titled and stored under the bare type name. -/
theorem getComponentByModel_struct (c c1 : Components) (model : Model) (isReq : Bool)
    (pkg name : String) (fields : List (FieldInfo × GoType)) (valid : Bool)
    (hm : model.deref = some (.struct pkg name fields, valid))
    (h : getComponentByModel c model isReq = .ok c1) :
    ∃ c2 acc, fieldLoop isReq valid c NewObjectComponent fields = .ok (c2, acc) ∧
      c1 = registerModel c2 name acc ∧
      c1.schema (removePackageName name) =
        some { acc with title := removePackageName name } := by
  simp only [getComponentByModel, hm, synthType] at h
  split at h
  · cases h
  · rename_i c2 acc hl
    injection h with h
    subst h
    exact ⟨c2, acc, hl, rfl, by simp [registerModel, Components.schema_setSchema_same]⟩

theorem takeWhile_eq_iff {p : Char → Bool} (l r : List Char) (hr : ∀ c ∈ r, p c = true) :
    l.takeWhile p = r ↔ l = r ∨ ∃ x rest, p x = false ∧ l = r ++ x :: rest := by
  constructor
  · intro h
    have hsplit := List.takeWhile_append_dropWhile p l
    cases hd : l.dropWhile p with
    | nil =>
      left
      rw [hd, h] at hsplit
      simpa using hsplit.symm
    | cons x rest =>
      right
      refine ⟨x, rest, ?_, ?_⟩
      · have := List.head_dropWhile_not p l (by simp [hd])
        simpa [hd] using this
      · rw [hd, h] at hsplit
        exact hsplit.symm
  · intro h
    rcases h with h | ⟨x, rest, hx, h⟩
    · subst h
      exact List.takeWhile_eq_self_iff.mpr hr
    · subst h
      have := (takeWhile_append_stop (p := p) r (x :: rest) (Or.inr ⟨x, rest, rfl, hx⟩)).1
      rw [this]
      exact List.takeWhile_eq_self_iff.mpr hr

/-- The name of a tag is `required` exactly when its value is `required`, alone or followed
by a comma and further rules. -/
theorem Tag.name_eq_required (t : Tag) :
    t.name = "required" ↔ t.value = "required" ∨ ∃ rest, t.value = "required," ++ rest := by
  have hr : ∀ c ∈ "required".toList, (fun c : Char => c != ',') c = true := by decide
  have key := takeWhile_eq_iff (p := fun c : Char => c != ',') t.value.toList
    "required".toList hr
  have e1 : t.name = "required" ↔
      t.value.toList.takeWhile (fun c => c != ',') = "required".toList := by
    unfold Tag.name
    constructor
    · intro h
      have := congrArg String.toList h
      simpa using this
    · intro h
      rw [h]
      rfl
  rw [e1, key]
  constructor
  · intro h
    rcases h with h | ⟨x, rest, hx, h⟩
    · left
      exact String.ext h
    · right
      have hx2 : x = ',' := by simpa using hx
      subst hx2
      refine ⟨String.mk rest, ?_⟩
      apply String.ext
      simp only [String.data_append]
      simpa using h
  · intro h
    rcases h with h | ⟨rest, h⟩
    · left
      rw [h]
    · right
      refine ⟨',', rest.toList, by decide, ?_⟩
      rw [h]
      simp only [String.toList, String.data_append]
      rfl

theorem mem_requiredNames (isReq : Bool) (fields : List (FieldInfo × GoType)) (n : String) :
    n ∈ requiredNames isReq fields ↔
      ∃ f ∈ fields, ∃ tags bindingTag, f.1.tags = some tags ∧
        fieldName isReq f.1 tags = some n ∧ Tags.get tags "binding" = some bindingTag ∧
        (bindingTag.value = "required" ∨ ∃ rest, bindingTag.value = "required," ++ rest) := by
  simp only [requiredNames, List.mem_filterMap, List.mem_filter]
  constructor
  · rintro ⟨f, ⟨hf, hb⟩, hn⟩
    refine ⟨f, hf, ?_⟩
    unfold boundRequired at hb
    unfold resolvedName at hn
    cases ht : f.1.tags with
    | none => simp [ht] at hb
    | some tags =>
      simp only [ht] at hb hn
      cases hg : Tags.get tags "binding" with
      | none => simp [hg] at hb
      | some b =>
        simp only [hg, decide_eq_true_eq] at hb
        exact ⟨tags, b, rfl, hn, hg, (Tag.name_eq_required b).mp hb⟩
  · rintro ⟨f, hf, tags, b, ht, hn, hg, hv⟩
    refine ⟨f, ⟨hf, ?_⟩, ?_⟩
    · simp [boundRequired, ht, hg, (Tag.name_eq_required b).mpr hv]
    · simp [resolvedName, ht, hn]

theorem requiredNames_nodup (isReq : Bool) (fields : List (FieldInfo × GoType))
    (h : (visibleNames isReq fields).Nodup) : (requiredNames isReq fields).Nodup := by
  unfold requiredNames
  unfold visibleNames at h
  exact h.sublist ((List.filter_sublist fields).filterMap _)

/-- C3, amended: the required list of the schema `getComponentByModel` registers for a
struct model is the list of the resolved names of its visible fields whose `binding` tag is
`required`, alone or followed by further comma-separated rules, in declaration order, one
entry for each such field; a name is in the list exactly when a visible field that resolves
to it is bound so, and the list has no repetition when the visible fields have different
names. -/
theorem required_list_of_registered_schema (c c1 : Components) (model : Model)
    (isRequest : Bool) (pkg name : String) (fields : List (FieldInfo × GoType))
    (valid : Bool) (hm : model.deref = some (.struct pkg name fields, valid))
    (h : getComponentByModel c model isRequest = .ok c1) :
    ∃ comp, c1.schema (removePackageName name) = some comp ∧
      comp.required = requiredNames isRequest fields ∧
      (∀ n, n ∈ comp.required ↔
        ∃ f ∈ fields, ∃ tags bindingTag, f.1.tags = some tags ∧
          fieldName isRequest f.1 tags = some n ∧
          Tags.get tags "binding" = some bindingTag ∧
          (bindingTag.value = "required" ∨
            ∃ rest, bindingTag.value = "required," ++ rest)) ∧
      ((visibleNames isRequest fields).Nodup → comp.required.Nodup) := by
  obtain ⟨c2, acc, hl, _, hs⟩ := getComponentByModel_struct c c1 model isRequest pkg name
    fields valid hm h
  have hreq := fieldLoop_required isRequest valid fields c NewObjectComponent (c2, acc) hl
  have hreq2 : acc.required = requiredNames isRequest fields := by
    simpa [NewObjectComponent] using hreq
  refine ⟨_, hs, hreq2, ?_, ?_⟩
  · intro n
    simp only [hreq2]
    exact mem_requiredNames isRequest fields n
  · intro hn
    simp only [hreq2]
    exact requiredNames_nodup isRequest fields hn

/-- C3, amended, at `&Login{}` synthesized as a response model: the required list is
`user`, `pass`. -/
theorem required_list_of_registered_schema_witness :
    ∃ c1, getComponentByModel {} (.ref exampleLogin) false = .ok c1 ∧
      ∃ comp, c1.schema "Login" = some comp ∧ comp.required = ["user", "pass"] := by
  cases h : getComponentByModel {} (.ref exampleLogin) false with
  | error e =>
    have hok : (getComponentByModel {} (.ref exampleLogin) false).toBool = true := by decide
    rw [h] at hok
    cases hok
  | ok c1 =>
    obtain ⟨comp, h1, h2, _⟩ := required_list_of_registered_schema {} c1 (.ref exampleLogin)
      false "main" "Login" _ true rfl h
    refine ⟨c1, rfl, comp, ?_, ?_⟩
    · have e : removePackageName "Login" = "Login" := by decide
      rw [← e]
      exact h1
    · rw [h2]
      decide

/-! ## Lemmas on the path loops -/

theorem pathLoop_cons_ok (c : Components) (paths : GoMap PathItem) (path : String)
    (m : GoMap Router) (rest : GoMap (GoMap Router)) (r : Components × GoMap PathItem)
    (h : pathLoop c paths ((path, m) :: rest) = .ok r) :
    ∃ c1 pathItem, methodLoop c {} m = .ok (c1, pathItem) ∧
      pathLoop c1 (GoMap.store paths (fixPath path) pathItem) rest = .ok r := by
  simp only [pathLoop] at h
  split at h
  · cases h
  · rename_i c1 item hm
    exact ⟨c1, item, hm, h⟩

theorem groupLoop_cons_ok (c : Components) (paths : GoMap PathItem)
    (g : GoMap (GoMap Router)) (rest : RouterMap) (r : Components × GoMap PathItem)
    (h : groupLoop c paths (g :: rest) = .ok r) :
    ∃ c1 paths1, pathLoop c paths g = .ok (c1, paths1) ∧
      groupLoop c1 paths1 rest = .ok r := by
  simp only [groupLoop] at h
  split at h
  · cases h
  · rename_i c1 p1 hm
    exact ⟨c1, p1, hm, h⟩

/-- Every path of a group has its key in the paths after the loop, and keys stay. -/
theorem pathLoop_present (g : GoMap (GoMap Router)) :
    ∀ (c : Components) (paths : GoMap PathItem) (r : Components × GoMap PathItem),
      pathLoop c paths g = .ok r → ∀ k : String,
      ((GoMap.lookup paths k).isSome = true ∨ ∃ pm ∈ g, fixPath pm.1 = k) →
      (GoMap.lookup r.2 k).isSome = true := by
  induction g with
  | nil =>
    intro c paths r h k hk
    simp only [pathLoop] at h
    injection h with h
    subst h
    simpa using hk
  | cons pm rest ih =>
    obtain ⟨path, m⟩ := pm
    intro c paths r h k hk
    obtain ⟨c1, item, _, hrest⟩ := pathLoop_cons_ok _ _ _ _ _ _ h
    apply ih _ _ _ hrest k
    by_cases e : fixPath path = k
    · left
      subst e
      simp [GoMap.lookup_store_same]
    · rcases hk with hk | ⟨pm, hpm, hk⟩
      · left
        simpa [GoMap.lookup_store_other _ _ _ _ e] using hk
      · rcases List.mem_cons.mp hpm with h1 | h1
        · subst h1
          exact absurd hk e
        · exact Or.inr ⟨pm, h1, hk⟩

/-- Every path item after the loop was there before or is the item the method loop built
for a path of the group with that key. -/
theorem pathLoop_sound (g : GoMap (GoMap Router)) :
    ∀ (c : Components) (paths : GoMap PathItem) (r : Components × GoMap PathItem),
      pathLoop c paths g = .ok r → ∀ (k : String) (item : PathItem),
      GoMap.lookup r.2 k = some item →
      GoMap.lookup paths k = some item ∨
        ∃ pm ∈ g, fixPath pm.1 = k ∧ ∃ c0 c2, methodLoop c0 {} pm.2 = .ok (c2, item) := by
  induction g with
  | nil =>
    intro c paths r h k item hk
    simp only [pathLoop] at h
    injection h with h
    subst h
    exact Or.inl hk
  | cons pm rest ih =>
    obtain ⟨path, m⟩ := pm
    intro c paths r h k item hk
    obtain ⟨c1, item1, hm, hrest⟩ := pathLoop_cons_ok _ _ _ _ _ _ h
    rcases ih _ _ _ hrest k item hk with h1 | ⟨pm, hpm, h2⟩
    · by_cases e : fixPath path = k
      · subst e
        simp only [GoMap.lookup_store_same] at h1
        injection h1 with h1
        subst h1
        exact Or.inr ⟨(path, m), List.mem_cons_self _ _, rfl, c, c1, hm⟩
      · simp only [GoMap.lookup_store_other _ _ _ _ e] at h1
        exact Or.inl h1
    · exact Or.inr ⟨pm, List.mem_cons_of_mem _ hpm, h2⟩

theorem groupLoop_present (routers : RouterMap) :
    ∀ (c : Components) (paths : GoMap PathItem) (r : Components × GoMap PathItem),
      groupLoop c paths routers = .ok r → ∀ k : String,
      ((GoMap.lookup paths k).isSome = true ∨ ∃ g ∈ routers, ∃ pm ∈ g, fixPath pm.1 = k) →
      (GoMap.lookup r.2 k).isSome = true := by
  induction routers with
  | nil =>
    intro c paths r h k hk
    simp only [groupLoop] at h
    injection h with h
    subst h
    simpa using hk
  | cons g rest ih =>
    intro c paths r h k hk
    obtain ⟨c1, paths1, hg, hrest⟩ := groupLoop_cons_ok _ _ _ _ _ h
    apply ih _ _ _ hrest k
    rcases hk with hk | ⟨g2, hg2, pm, hpm, hk⟩
    · exact Or.inl (pathLoop_present g c paths _ hg k (Or.inl hk))
    · rcases List.mem_cons.mp hg2 with h1 | h1
      · subst h1
        exact Or.inl (pathLoop_present g2 c paths _ hg k (Or.inr ⟨pm, hpm, hk⟩))
      · exact Or.inr ⟨g2, h1, pm, hpm, hk⟩

theorem groupLoop_sound (routers : RouterMap) :
    ∀ (c : Components) (paths : GoMap PathItem) (r : Components × GoMap PathItem),
      groupLoop c paths routers = .ok r → ∀ (k : String) (item : PathItem),
      GoMap.lookup r.2 k = some item →
      GoMap.lookup paths k = some item ∨
        ∃ g ∈ routers, ∃ pm ∈ g, fixPath pm.1 = k ∧
          ∃ c0 c2, methodLoop c0 {} pm.2 = .ok (c2, item) := by
  induction routers with
  | nil =>
    intro c paths r h k item hk
    simp only [groupLoop] at h
    injection h with h
    subst h
    exact Or.inl hk
  | cons g rest ih =>
    intro c paths r h k item hk
    obtain ⟨c1, paths1, hg, hrest⟩ := groupLoop_cons_ok _ _ _ _ _ h
    rcases ih _ _ _ hrest k item hk with h1 | ⟨g2, hg2, h2⟩
    · rcases pathLoop_sound g c paths _ hg k item h1 with h3 | ⟨pm, hpm, h3⟩
      · exact Or.inl h3
      · exact Or.inr ⟨g, List.mem_cons_self _ _, pm, hpm, h3⟩
    · exact Or.inr ⟨g2, List.mem_cons_of_mem _ hg2, h2⟩

/-- Every text is some text without `/` followed by `/`-led segments without `/`. -/
theorem path_segments (cs : List Char) :
    ∃ (pre : List Char) (segs : List (List Char)),
      cs = pre ++ joinSegs segs ∧ '/' ∉ pre ∧ ∀ s ∈ segs, '/' ∉ s := by
  induction cs with
  | nil => exact ⟨[], [], rfl, by simp, by simp⟩
  | cons c rest ih =>
    obtain ⟨pre, segs, h1, h2, h3⟩ := ih
    by_cases hc : c = '/'
    · subst hc
      refine ⟨[], pre :: segs, ?_, by simp, ?_⟩
      · simp [joinSegs, h1]
      · intro s hs
        rcases List.mem_cons.mp hs with e | e
        · subst e
          exact h2
        · exact h3 s e
    · refine ⟨c :: pre, segs, by simp [h1], ?_, h3⟩
      intro hm
      rcases List.mem_cons.mp hm with e | e
      · exact hc e.symm
      · exact h2 e

theorem fixPath_toList (path : String) (pre : List Char) (segs : List (List Char))
    (hp : path.toList = pre ++ joinSegs segs) (hpre : '/' ∉ pre)
    (hsegs : ∀ s ∈ segs, '/' ∉ s) :
    (fixPath path).toList = pre ++ joinSegs (segs.map rewriteSeg) := by
  unfold fixPath
  have hl : path.length = (pre ++ joinSegs segs).length := by
    rw [← hp]
    rfl
  simp only [String.toList] at hp ⊢
  rw [hp, hl]
  exact fixChars_path pre segs hpre hsegs _ (le_refl _)

/-- C5 fails at the path `/:user_id`, whose one segment is the parameter `user_id`: the key
is `/{user}_id`, not `/{user_id}`; the rewrite stops at the `_` of the name. -/
theorem fixPath_segment_counterexample :
    fixPath "/:user_id" = "/{user}_id" ∧
      (fixPath "/:user_id").toList ≠ joinSegs ([":user_id".toList].map braceSeg) := by
  decide

/-- C5, the rewrite the code performs: in every path, taken as its text before the first
`/` followed by its `/`-led segments (every text is of this form), a segment `:<name>` is
replaced by `{<p>}<rest>`, where `<p>` is the longest prefix of `<name>` made of ASCII
letters and digits and `<rest>` what follows it in the segment, when `<p>` is not empty; it
is kept when `<name>` is empty or starts with another character, and all other characters
of the path are unchanged. A name with a character other than a letter or digit is so cut
short. -/
theorem fixPath_rewrites_segments (path : String) (pre : List Char)
    (segs : List (List Char)) (hp : path.toList = pre ++ joinSegs segs) (hpre : '/' ∉ pre)
    (hsegs : ∀ s ∈ segs, '/' ∉ s) :
    (fixPath path).toList = pre ++ joinSegs (segs.map rewriteSeg) ∧
      (∀ text : List Char, ∃ (pre2 : List Char) (segs2 : List (List Char)),
        text = pre2 ++ joinSegs segs2 ∧ '/' ∉ pre2 ∧ ∀ s ∈ segs2, '/' ∉ s) ∧
      (∀ name, name.takeWhile isAlnum ≠ [] →
        rewriteSeg (':' :: name) =
          '{' :: name.takeWhile isAlnum ++ '}' :: name.dropWhile isAlnum) ∧
      (∀ name, name.takeWhile isAlnum = [] → rewriteSeg (':' :: name) = ':' :: name) ∧
      (∀ s, (∀ name, s ≠ ':' :: name) → rewriteSeg s = s) := by
  refine ⟨fixPath_toList path pre segs hp hpre hsegs, path_segments, ?_, ?_, ?_⟩
  · intro name hne
    simp only [rewriteSeg]
    cases h : name.takeWhile isAlnum with
    | nil => exact absurd h hne
    | cons d ds => rfl
  · intro name he
    simp only [rewriteSeg, he]
  · intro s hs
    unfold rewriteSeg
    split
    · rename_i name
      exact absurd rfl (hs name)
    · rfl

/-- C5, the rewrite the code performs, at `/api/:user_id/x`: the key is
`/api/{user}_id/x`. -/
theorem fixPath_rewrites_segments_witness :
    (fixPath "/api/:user_id/x").toList =
      joinSegs (["api".toList, ":user_id".toList, "x".toList].map rewriteSeg) ∧
    fixPath "/api/:user_id/x" = "/api/{user}_id/x" :=
  ⟨by
    have h := fixPath_rewrites_segments "/api/:user_id/x" []
      ["api".toList, ":user_id".toList, "x".toList] (by decide) (by decide) (by decide)
    simpa using h.1, by decide⟩

/-! ## Registrations through the build -/

theorem getComponentByModel_preserves (P : Components → Prop) (W : String → Prop)
    (hP : ∀ c k v, W k → v.title = k → P c → P (c.setSchema k v))
    (c c1 : Components) (model : Model) (isReq : Bool)
    (hw : ∀ k ∈ modelNames isReq model, W k)
    (h : getComponentByModel c model isReq = .ok c1) (hp : P c) : P c1 := by
  unfold getComponentByModel at h
  unfold modelNames at hw
  cases hd : model.deref with
  | none =>
    simp only [hd] at h
    injection h with h
    subst h
    exact hp
  | some tv =>
    obtain ⟨t, valid⟩ := tv
    simp only [hd] at h hw
    have reg : ∀ nm : String, (∀ k ∈ [removePackageName nm], W k) →
        synthType isReq valid c t = .ok (registerModel c nm NewObjectComponent) →
        P (registerModel c nm NewObjectComponent) := by
      intro nm hw2 _
      exact hP _ _ _ (hw2 _ (List.mem_cons_self _ _)) rfl hp
    cases t with
    | struct pkg name fields =>
      simp only [synthType] at h
      split at h
      · cases h
      · rename_i c2 acc hl
        injection h with h
        subst h
        have p2 := (synth_preserves P W hP (sizeOf fields)).1 fields (le_refl _) isReq valid c
          _ _ (fun k hk => hw k (List.mem_cons_of_mem _ hk)) hl hp
        exact hP _ _ _ (hw _ (List.mem_cons_self _ _)) rfl p2
    | builtin k =>
      simp only [synthType] at h
      injection h with h
      subst h
      exact hP _ _ _ (hw _ (List.mem_cons_self _ _)) rfl hp
    | defined a b =>
      simp only [synthType] at h
      injection h with h
      subst h
      exact hP _ _ _ (hw _ (List.mem_cons_self _ _)) rfl hp
    | slice a b =>
      simp only [synthType] at h
      injection h with h
      subst h
      exact hP _ _ _ (hw _ (List.mem_cons_self _ _)) rfl hp
    | map a b d =>
      simp only [synthType] at h
      injection h with h
      subst h
      exact hP _ _ _ (hw _ (List.mem_cons_self _ _)) rfl hp
    | ptr a b =>
      simp only [synthType] at h
      injection h with h
      subst h
      exact hP _ _ _ (hw _ (List.mem_cons_self _ _)) rfl hp
    | iface a =>
      simp only [synthType] at h
      injection h with h
      subst h
      exact hP _ _ _ (hw _ (List.mem_cons_self _ _)) rfl hp
    | array a b =>
      simp only [synthType] at h
      injection h with h
      subst h
      exact hP _ _ _ (hw _ (List.mem_cons_self _ _)) rfl hp
    | chan a b =>
      simp only [synthType] at h
      injection h with h
      subst h
      exact hP _ _ _ (hw _ (List.mem_cons_self _ _)) rfl hp
    | func a =>
      simp only [synthType] at h
      injection h with h
      subst h
      exact hP _ _ _ (hw _ (List.mem_cons_self _ _)) rfl hp

theorem responseModels_cons_ok (c : Components) (k : String) (resp : ResponseItem)
    (rest : GoMap ResponseItem) (c2 : Components)
    (h : responseModels c ((k, resp) :: rest) = .ok c2) :
    ∃ c1, getComponentByModel c resp.model false = .ok c1 ∧
      responseModels c1 rest = .ok c2 := by
  simp only [responseModels] at h
  split at h
  · cases h
  · rename_i c1 h1
    exact ⟨c1, h1, h⟩

theorem responseModels_preserves (P : Components → Prop) (W : String → Prop)
    (hP : ∀ c k v, W k → v.title = k → P c → P (c.setSchema k v))
    (rs : GoMap ResponseItem) :
    ∀ (c c1 : Components), (∀ k ∈ responseNames rs, W k) →
      responseModels c rs = .ok c1 → P c → P c1 := by
  induction rs with
  | nil =>
    intro c c1 _ h hp
    simp only [responseModels] at h
    injection h with h
    subst h
    exact hp
  | cons p rest ih =>
    obtain ⟨k, resp⟩ := p
    intro c c1 hw h hp
    obtain ⟨c2, h1, h2⟩ := responseModels_cons_ok _ _ _ _ _ h
    simp only [responseNames, List.mem_append] at hw
    have p2 := getComponentByModel_preserves P W hP c c2 resp.model false
      (fun k hk => hw k (Or.inl hk)) h1 hp
    exact ih c2 c1 (fun k hk => hw k (Or.inr hk)) h2 p2

theorem getEnumComponent_preserves (P : Components → Prop) (W : String → Prop)
    (hP : ∀ c k v, W k → v.title = k → P c → P (c.setSchema k v))
    (es : GoMap EnumItem) :
    ∀ (c c1 : Components), (∀ k ∈ GoMap.keys es, W k) →
      getEnumComponent c es = .ok c1 → P c → P c1 := by
  induction es with
  | nil =>
    intro c c1 _ h hp
    simp only [getEnumComponent] at h
    injection h with h
    subst h
    exact hp
  | cons p rest ih =>
    obtain ⟨k, e⟩ := p
    intro c c1 hw h hp
    simp only [getEnumComponent] at h
    split at h
    · cases h
    · rename_i m hm
      simp only [GoMap.keys, List.map_cons, List.mem_cons] at hw
      apply ih _ c1 (fun k hk => hw k (Or.inr hk)) h
      have e1 : ({ c with schemas := some (GoMap.store m k
          { type := e.kind, title := k, description := e.description, enum := e.values }) }
          : Components) = c.setSchema k
            { type := e.kind, title := k, description := e.description, enum := e.values } := by
        simp [Components.setSchema, hm]
      rw [e1]
      exact hP _ _ _ (hw k (Or.inl rfl)) rfl hp

theorem getSecurity_schemas (l : List Security) :
    ∀ c : Components, ∃ ss, (getSecurity c l).1 = { c with securitySchemes := ss } := by
  induction l with
  | nil => intro c; exact ⟨c.securitySchemes, rfl⟩
  | cons s rest ih =>
    intro c
    simp only [getSecurity]
    obtain ⟨ss, h⟩ := ih { c with securitySchemes := GoMap.store c.securitySchemes s.Name s.Schema }
    exact ⟨ss, by rw [h]⟩

theorem buildOperation_ok (c : Components) (r : Router) (res : Components × Operation)
    (h : buildOperation c r = .ok res) :
    ∃ c1 c2 c3 parameters, getComponentByModel c r.request.model true = .ok c1 ∧
      responseModels c1 r.response = .ok c2 ∧ getEnumComponent c2 r.enum = .ok c3 ∧
      getParametersByModel r.model = .ok parameters ∧
      res.1 = (getSecurity c3 r.securities).1 ∧
      res.2 = { tags := r.tags, summary := r.summary, description := r.description,
                operationID := r.operationID,
                responses := getResponsesRef r.response r.requestContentType,
                parameters := parameters, deprecated := r.deprecated,
                security := (getSecurity c3 r.securities).2 } := by
  unfold buildOperation at h
  split at h
  · cases h
  · rename_i c1 h1
    split at h
    · cases h
    · rename_i c2 h2
      split at h
      · cases h
      · rename_i c3 h3
        split at h
        · cases h
        · rename_i ps h4
          injection h with h
          subst h
          exact ⟨c1, c2, c3, ps, h1, h2, h3, h4, rfl, rfl⟩

theorem buildOperation_preserves (P : Components → Prop) (W : String → Prop)
    (hP : ∀ c k v, W k → v.title = k → P c → P (c.setSchema k v))
    (hS : ∀ (c : Components) ss, P c → P { c with securitySchemes := ss })
    (c : Components) (r : Router) (res : Components × Operation)
    (hex : r.exclude = false) (hw : ∀ k ∈ routeNames r, W k)
    (h : buildOperation c r = .ok res) (hp : P c) : P res.1 := by
  obtain ⟨c1, c2, c3, ps, h1, h2, h3, _, h5, _⟩ := buildOperation_ok c r res h
  simp only [routeNames, hex, Bool.false_eq_true, if_false, List.mem_append] at hw
  have p1 := getComponentByModel_preserves P W hP c c1 _ true (fun k hk => hw k (Or.inl hk))
    h1 hp
  have p2 := responseModels_preserves P W hP _ c1 c2 (fun k hk => hw k (Or.inr (Or.inl hk)))
    h2 p1
  have p3 := getEnumComponent_preserves P W hP _ c2 c3
    (fun k hk => hw k (Or.inr (Or.inr hk))) h3 p2
  obtain ⟨ss, hs⟩ := getSecurity_schemas r.securities c3
  rw [h5, hs]
  exact hS _ _ p3

theorem methodLoop_cons_ok (c : Components) (item : PathItem) (method : String)
    (r : Router) (rest : GoMap Router) (res : Components × PathItem)
    (h : methodLoop c item ((method, r) :: rest) = .ok res) :
    (r.exclude = true ∧ methodLoop c item rest = .ok res) ∨
      (r.exclude = false ∧ ∃ c1 op, buildOperation c r = .ok (c1, op) ∧
        methodLoop c1 (setMethod item method op (routeRequestBody r)) rest = .ok res) := by
  simp only [methodLoop] at h
  split at h
  · rename_i hex
    exact Or.inl ⟨hex, h⟩
  · rename_i hex
    split at h
    · cases h
    · rename_i c1 op hb
      exact Or.inr ⟨by simpa using hex, c1, op, hb, h⟩

theorem methodLoop_preserves (P : Components → Prop) (W : String → Prop)
    (hP : ∀ c k v, W k → v.title = k → P c → P (c.setSchema k v))
    (hS : ∀ (c : Components) ss, P c → P { c with securitySchemes := ss })
    (m : GoMap Router) :
    ∀ (c : Components) (item : PathItem) (res : Components × PathItem),
      (∀ k ∈ methodsNames m, W k) → methodLoop c item m = .ok res → P c → P res.1 := by
  induction m with
  | nil =>
    intro c item res _ h hp
    simp only [methodLoop] at h
    injection h with h
    subst h
    exact hp
  | cons p rest ih =>
    obtain ⟨method, r⟩ := p
    intro c item res hw h hp
    simp only [methodsNames, List.mem_append] at hw
    rcases methodLoop_cons_ok _ _ _ _ _ _ h with ⟨_, h1⟩ | ⟨hex, c1, op, hb, h1⟩
    · exact ih c item res (fun k hk => hw k (Or.inr hk)) h1 hp
    · have p1 := buildOperation_preserves P W hP hS c r _ hex (fun k hk => hw k (Or.inl hk))
        hb hp
      exact ih c1 _ res (fun k hk => hw k (Or.inr hk)) h1 p1

theorem pathLoop_preserves (P : Components → Prop) (W : String → Prop)
    (hP : ∀ c k v, W k → v.title = k → P c → P (c.setSchema k v))
    (hS : ∀ (c : Components) ss, P c → P { c with securitySchemes := ss })
    (g : GoMap (GoMap Router)) :
    ∀ (c : Components) (paths : GoMap PathItem) (res : Components × GoMap PathItem),
      (∀ k ∈ groupNames g, W k) → pathLoop c paths g = .ok res → P c → P res.1 := by
  induction g with
  | nil =>
    intro c paths res _ h hp
    simp only [pathLoop] at h
    injection h with h
    subst h
    exact hp
  | cons p rest ih =>
    obtain ⟨path, m⟩ := p
    intro c paths res hw h hp
    simp only [groupNames, List.mem_append] at hw
    obtain ⟨c1, item, hm, hrest⟩ := pathLoop_cons_ok _ _ _ _ _ _ h
    have p1 := methodLoop_preserves P W hP hS m c {} _ (fun k hk => hw k (Or.inl hk)) hm hp
    exact ih c1 _ res (fun k hk => hw k (Or.inr hk)) hrest p1

theorem groupLoop_preserves (P : Components → Prop) (W : String → Prop)
    (hP : ∀ c k v, W k → v.title = k → P c → P (c.setSchema k v))
    (hS : ∀ (c : Components) ss, P c → P { c with securitySchemes := ss })
    (routers : RouterMap) :
    ∀ (c : Components) (paths : GoMap PathItem) (res : Components × GoMap PathItem),
      (∀ k ∈ routersNames routers, W k) → groupLoop c paths routers = .ok res →
      P c → P res.1 := by
  induction routers with
  | nil =>
    intro c paths res _ h hp
    simp only [groupLoop] at h
    injection h with h
    subst h
    exact hp
  | cons g rest ih =>
    intro c paths res hw h hp
    simp only [routersNames, List.mem_append] at hw
    obtain ⟨c1, paths1, hg, hrest⟩ := groupLoop_cons_ok _ _ _ _ _ h
    have p1 := pathLoop_preserves P W hP hS g c paths _ (fun k hk => hw k (Or.inl hk)) hg hp
    exact ih c1 _ res (fun k hk => hw k (Or.inr hk)) hrest p1

/-! ## The slot of a route in the document -/

theorem slotOf_setMethod_other (item : PathItem) (method method2 : String) (op : Operation)
    (body : Option RequestBody) (h : method ≠ method2) :
    slotOf (setMethod item method2 op body) method = slotOf item method := by
  unfold setMethod
  split_ifs <;> first | rfl | (subst_vars; simp [slotOf, h])

theorem slotOf_setMethod_same (item : PathItem) (method : String) (op : Operation)
    (body : Option RequestBody) (h : method ∈ httpMethods) :
    slotOf (setMethod item method op body) method =
      some { op with
        requestBody := if method = "POST" ∨ method = "PUT" then body else op.requestBody } := by
  simp only [httpMethods, List.mem_cons, List.mem_singleton, List.not_mem_nil, or_false] at h
  rcases h with h | h | h | h | h | h | h | h | h <;> subst h <;> simp [setMethod, slotOf]

theorem slotOf_setMethod_none (item : PathItem) (method : String) (op : Operation)
    (body : Option RequestBody) (h : method ∉ httpMethods) :
    slotOf (setMethod item method op body) method = none := by
  simp only [httpMethods, List.mem_cons, List.mem_singleton, List.not_mem_nil, or_false,
    not_or] at h
  obtain ⟨h1, h2, h3, h4, h5, h6, h7, h8, h9⟩ := h
  simp [slotOf, h1, h2, h3, h4, h5, h6, h7, h8, h9]


theorem methodLoop_append (m1 m2 : GoMap Router) :
    ∀ (c : Components) (item : PathItem) (res : Components × PathItem),
      methodLoop c item (m1 ++ m2) = .ok res →
      ∃ c0 item0, methodLoop c item m1 = .ok (c0, item0) ∧
        methodLoop c0 item0 m2 = .ok res := by
  induction m1 with
  | nil => intro c item res h; exact ⟨c, item, rfl, h⟩
  | cons p rest ih =>
    obtain ⟨method, r⟩ := p
    intro c item res h
    rw [List.cons_append] at h
    rcases methodLoop_cons_ok _ _ _ _ _ _ h with ⟨hex, h1⟩ | ⟨hex, c1, op, hb, h1⟩
    · obtain ⟨c0, item0, h2, h3⟩ := ih c item res h1
      exact ⟨c0, item0, by simp [methodLoop, hex, h2], h3⟩
    · obtain ⟨c0, item0, h2, h3⟩ := ih c1 _ res h1
      exact ⟨c0, item0, by simp [methodLoop, hex, hb, h2], h3⟩

theorem pathLoop_append (g1 g2 : GoMap (GoMap Router)) :
    ∀ (c : Components) (paths : GoMap PathItem) (res : Components × GoMap PathItem),
      pathLoop c paths (g1 ++ g2) = .ok res →
      ∃ c0 paths0, pathLoop c paths g1 = .ok (c0, paths0) ∧
        pathLoop c0 paths0 g2 = .ok res := by
  induction g1 with
  | nil => intro c paths res h; exact ⟨c, paths, rfl, h⟩
  | cons p rest ih =>
    obtain ⟨path, m⟩ := p
    intro c paths res h
    rw [List.cons_append] at h
    obtain ⟨c1, item, hm, h1⟩ := pathLoop_cons_ok _ _ _ _ _ _ h
    obtain ⟨c0, paths0, h2, h3⟩ := ih c1 _ res h1
    exact ⟨c0, paths0, by simp [pathLoop, hm, h2], h3⟩

theorem groupLoop_append (r1 r2 : RouterMap) :
    ∀ (c : Components) (paths : GoMap PathItem) (res : Components × GoMap PathItem),
      groupLoop c paths (r1 ++ r2) = .ok res →
      ∃ c0 paths0, groupLoop c paths r1 = .ok (c0, paths0) ∧
        groupLoop c0 paths0 r2 = .ok res := by
  induction r1 with
  | nil => intro c paths res h; exact ⟨c, paths, rfl, h⟩
  | cons g rest ih =>
    intro c paths res h
    rw [List.cons_append] at h
    obtain ⟨c1, paths1, hg, h1⟩ := groupLoop_cons_ok _ _ _ _ _ h
    obtain ⟨c0, paths0, h2, h3⟩ := ih c1 _ res h1
    exact ⟨c0, paths0, by simp [groupLoop, hg, h2], h3⟩

/-- Routes under other methods leave the slot of a method. -/
theorem methodLoop_slot_frame (method : String) (m : GoMap Router) :
    ∀ (c : Components) (item : PathItem) (res : Components × PathItem),
      methodLoop c item m = .ok res → method ∉ GoMap.keys m →
      slotOf res.2 method = slotOf item method := by
  induction m with
  | nil =>
    intro c item res h _
    simp only [methodLoop] at h
    injection h with h
    subst h
    rfl
  | cons p rest ih =>
    obtain ⟨method2, r⟩ := p
    intro c item res h hk
    simp only [GoMap.keys, List.map_cons, List.mem_cons, not_or] at hk
    rcases methodLoop_cons_ok _ _ _ _ _ _ h with ⟨_, h1⟩ | ⟨_, c1, op, _, h1⟩
    · exact ih c item res h1 hk.2
    · rw [ih c1 _ res h1 hk.2]
      exact slotOf_setMethod_other item method method2 op _ hk.1

/-- Paths under other keys leave the path item of a key. -/
theorem pathLoop_lookup_frame (k : String) (g : GoMap (GoMap Router)) :
    ∀ (c : Components) (paths : GoMap PathItem) (res : Components × GoMap PathItem),
      pathLoop c paths g = .ok res → k ∉ groupKeys g →
      GoMap.lookup res.2 k = GoMap.lookup paths k := by
  induction g with
  | nil =>
    intro c paths res h _
    simp only [pathLoop] at h
    injection h with h
    subst h
    rfl
  | cons p rest ih =>
    obtain ⟨path, m⟩ := p
    intro c paths res h hk
    simp only [groupKeys, List.map_cons, List.mem_cons, not_or] at hk
    obtain ⟨c1, item, _, h1⟩ := pathLoop_cons_ok _ _ _ _ _ _ h
    rw [ih c1 _ res h1 hk.2]
    exact GoMap.lookup_store_other _ _ _ _ (fun e => hk.1 e.symm)

theorem groupLoop_lookup_frame (k : String) (routers : RouterMap) :
    ∀ (c : Components) (paths : GoMap PathItem) (res : Components × GoMap PathItem),
      groupLoop c paths routers = .ok res → k ∉ routersKeys routers →
      GoMap.lookup res.2 k = GoMap.lookup paths k := by
  induction routers with
  | nil =>
    intro c paths res h _
    simp only [groupLoop] at h
    injection h with h
    subst h
    rfl
  | cons g rest ih =>
    intro c paths res h hk
    simp only [routersKeys, List.mem_append, not_or] at hk
    obtain ⟨c1, paths1, hg, h1⟩ := groupLoop_cons_ok _ _ _ _ _ h
    rw [ih c1 _ res h1 hk.2]
    exact pathLoop_lookup_frame k g c paths _ hg hk.1

/-- The route at a position of the router map, when no later route of its path has its
method and no later path has its document key: `buildPath` builds its operation, the
document holds it in the slot of the method under the rewritten path, and what holds of the
components after the operation is built and is kept by the later registrations holds of the
components of the document. -/
theorem buildPath_route (c cF : Components) (paths : GoMap PathItem)
    (gpre gpost : RouterMap) (ppre ppost : GoMap (GoMap Router)) (mpre mpost : GoMap Router)
    (path method : String) (r : Router)
    (h : buildPath c (gpre ++ (ppre ++ (path, mpre ++ (method, r) :: mpost) :: ppost) :: gpost)
      = .ok (cF, paths))
    (hex : r.exclude = false) (hmethod : method ∉ GoMap.keys mpost)
    (hpath : fixPath path ∉ groupKeys ppost ++ routersKeys gpost) :
    ∃ c0 c1 op item, buildOperation c0 r = .ok (c1, op) ∧
      GoMap.lookup paths (fixPath path) = some item ∧
      slotOf item method = slotOf (setMethod {} method op (routeRequestBody r)) method ∧
      ∀ (P : Components → Prop) (W : String → Prop),
        (∀ c k v, W k → v.title = k → P c → P (c.setSchema k v)) →
        (∀ (c : Components) ss, P c → P { c with securitySchemes := ss }) →
        (∀ k ∈ methodsNames mpost ++ (groupNames ppost ++ routersNames gpost), W k) →
        P c1 → P cF := by
  unfold buildPath at h
  obtain ⟨ca, pa, _, h1⟩ := groupLoop_append _ _ _ _ _ h
  obtain ⟨cb, pb, h2, h3⟩ := groupLoop_cons_ok _ _ _ _ _ h1
  obtain ⟨cc, pc, _, h4⟩ := pathLoop_append _ _ _ _ _ h2
  obtain ⟨cd, itemF, h5, h6⟩ := pathLoop_cons_ok _ _ _ _ _ _ h4
  obtain ⟨ce, iteme, _, h7⟩ := methodLoop_append _ _ _ _ _ h5
  rcases methodLoop_cons_ok _ _ _ _ _ _ h7 with ⟨hex2, _⟩ | ⟨_, c1, op, hb, h8⟩
  · rw [hex] at hex2
    cases hex2
  · simp only [List.mem_append, not_or] at hpath
    refine ⟨ce, c1, op, itemF, hb, ?_, ?_, ?_⟩
    · rw [show paths = ((cF, paths) : Components × GoMap PathItem).2 from rfl,
        groupLoop_lookup_frame _ gpost cb pb _ h3 hpath.2,
        show pb = ((cb, pb) : Components × GoMap PathItem).2 from rfl,
        pathLoop_lookup_frame _ ppost cd _ _ h6 hpath.1]
      exact GoMap.lookup_store_same _ _ _
    · have e := methodLoop_slot_frame method mpost c1 _ _ h8 hmethod
      simp only at e
      rw [e]
      by_cases hm : method ∈ httpMethods
      · rw [slotOf_setMethod_same _ _ _ _ hm, slotOf_setMethod_same _ _ _ _ hm]
      · rw [slotOf_setMethod_none _ _ _ _ hm, slotOf_setMethod_none _ _ _ _ hm]
    · intro P W hP hS hw hp
      simp only [List.mem_append] at hw
      have p1 := methodLoop_preserves P W hP hS mpost c1 _ _
        (fun k hk => hw k (Or.inl hk)) h8 hp
      have p2 := pathLoop_preserves P W hP hS ppost cd _ _
        (fun k hk => hw k (Or.inr (Or.inl hk))) h6 p1
      exact groupLoop_preserves P W hP hS gpost cb pb _
        (fun k hk => hw k (Or.inr (Or.inr hk))) h3 p2

/-! ## Responses and request bodies -/

theorem defaultJSON_idem (ct : String) : defaultJSON (defaultJSON ct) = defaultJSON ct := by
  unfold defaultJSON
  by_cases h : ct = ""
  · simp only [h, if_true]
    decide
  · simp [h]

theorem responsesLoop_frame (k : String) (rs : GoMap ResponseItem) :
    ∀ (ct : String) (ret : GoMap Response), k ∉ GoMap.keys rs →
      GoMap.lookup (responsesLoop rs ct ret) k = GoMap.lookup ret k := by
  induction rs with
  | nil => intro ct ret _; rfl
  | cons p rest ih =>
    obtain ⟨k2, v⟩ := p
    intro ct ret hk
    simp only [GoMap.keys, List.map_cons, List.mem_cons, not_or] at hk
    simp only [responsesLoop]
    split
    · exact ih ct ret hk.2
    · rw [ih _ _ hk.2]
      exact GoMap.lookup_store_other _ _ _ _ (fun e => hk.1 e.symm)

/-- The response built for a declared status with a model: the declared description and
headers, and one content entry, under the defaulted content type given to the loop, that
refers to the schema named by the bare type name of the model. -/
theorem responsesLoop_entry (rpre rpost : GoMap ResponseItem) (k : String)
    (v : ResponseItem) (t : GoType) (valid : Bool) (hk : k ∉ GoMap.keys rpost)
    (hm : v.model.deref = some (t, valid)) :
    ∀ (ct : String) (ret : GoMap Response),
      GoMap.lookup (responsesLoop (rpre ++ (k, v) :: rpost) ct ret) k =
        some { description := some v.description,
               content := [(defaultJSON ct,
                 { schema := { ref := generateRefName (removePackageName t.name) } })],
               headers := v.headers } := by
  induction rpre with
  | nil =>
    intro ct ret
    simp only [List.nil_append, responsesLoop, hm]
    rw [responsesLoop_frame k rpost _ _ hk, GoMap.lookup_store_same]
    rfl
  | cons p rest ih =>
    obtain ⟨k2, v2⟩ := p
    intro ct ret
    simp only [List.cons_append, responsesLoop]
    split
    · exact ih ct ret
    · have e : defaultJSON (if ct = "" then MIMEJSON else ct) = defaultJSON ct :=
        defaultJSON_idem ct
      rw [← e]
      exact ih _ _

theorem registerModel_schema (c : Components) (name : String) (acc : Component) :
    (registerModel c name acc).schema (removePackageName name) =
      some { acc with title := removePackageName name } := by
  simp [registerModel, Components.schema_setSchema_same]

/-- A model that is not nil has, after its synthesis, an entry under the bare name of its
type, titled with that name. -/
theorem getComponentByModel_registers (c c1 : Components) (model : Model) (isReq : Bool)
    (t : GoType) (valid : Bool) (hm : model.deref = some (t, valid))
    (h : getComponentByModel c model isReq = .ok c1) :
    ∃ comp, c1.schema (removePackageName t.name) = some comp ∧
      comp.title = removePackageName t.name := by
  cases t with
  | struct pkg name fields =>
    obtain ⟨c2, acc, _, _, hs⟩ := getComponentByModel_struct c c1 model isReq pkg name fields
      valid hm h
    exact ⟨_, hs, rfl⟩
  | builtin k =>
    simp only [getComponentByModel, hm, synthType] at h
    injection h with h
    subst h
    exact ⟨_, registerModel_schema _ _ _, rfl⟩
  | defined a b =>
    simp only [getComponentByModel, hm, synthType] at h
    injection h with h
    subst h
    exact ⟨_, registerModel_schema _ _ _, rfl⟩
  | slice a b =>
    simp only [getComponentByModel, hm, synthType] at h
    injection h with h
    subst h
    exact ⟨_, registerModel_schema _ _ _, rfl⟩
  | map a b d =>
    simp only [getComponentByModel, hm, synthType] at h
    injection h with h
    subst h
    exact ⟨_, registerModel_schema _ _ _, rfl⟩
  | ptr a b =>
    simp only [getComponentByModel, hm, synthType] at h
    injection h with h
    subst h
    exact ⟨_, registerModel_schema _ _ _, rfl⟩
  | iface a =>
    simp only [getComponentByModel, hm, synthType] at h
    injection h with h
    subst h
    exact ⟨_, registerModel_schema _ _ _, rfl⟩
  | array a b =>
    simp only [getComponentByModel, hm, synthType] at h
    injection h with h
    subst h
    exact ⟨_, registerModel_schema _ _ _, rfl⟩
  | chan a b =>
    simp only [getComponentByModel, hm, synthType] at h
    injection h with h
    subst h
    exact ⟨_, registerModel_schema _ _ _, rfl⟩
  | func a =>
    simp only [getComponentByModel, hm, synthType] at h
    injection h with h
    subst h
    exact ⟨_, registerModel_schema _ _ _, rfl⟩

/-- Having an entry under a key is kept by every registration. -/
theorem present_stable (key : String) :
    (∀ (c : Components) (k : String) (v : Component), True → v.title = k →
      (c.schema key).isSome = true → ((c.setSchema k v).schema key).isSome = true) ∧
    (∀ (c : Components) (ss : GoMap SecurityScheme), (c.schema key).isSome = true →
      (({ c with securitySchemes := ss } : Components).schema key).isSome = true) := by
  constructor
  · intro c k v _ _ hp
    by_cases e : k = key
    · subst e
      simp [Components.schema_setSchema_same]
    · rw [Components.schema_setSchema_other _ _ _ _ e]
      exact hp
  · intro c ss hp
    exact hp

/-- The request body `buildPath` prepares for a route with a request model. -/
theorem routeRequestBody_some (r : Router) (t : GoType) (valid : Bool)
    (hm : r.request.model.deref = some (t, valid)) :
    routeRequestBody r =
      some { required := true,
             content := [(defaultJSON r.requestContentType,
               { schema := { ref := generateRefName (removePackageName t.name) } })] } := by
  simp only [routeRequestBody, hm, getRequestBodyRef]
  rfl

/-! ## C2, C6, C8: the code at the failing inputs -/

/-- C2: the dispatch aborts on every field whose type is a slice of structs, whatever the
registry holds: `getSchemaByValue` has no case for such a slice, so the array schema whose
items the reference is assigned to is nil. `Order{Items []Item}` aborts as a response and as
a request model, while the nested struct and the map of structs of `Cart` are rendered as
references whose schema is registered. -/
theorem slice_of_structs_aborts :
    (∀ (isRequest : Bool) (c : Components) (fi : FieldInfo) (tags : List Tag)
        (sname pkg name : String) (fields : List (FieldInfo × GoType)),
      ∃ e, fieldProp isRequest c fi tags (.slice sname (.struct pkg name fields)) = .error e) ∧
    getComponentByModel {} (.ref exampleOrder) false = .error .nilSchema ∧
    getComponentByModel {} (.ref exampleOrder) true = .error .nilSchema ∧
    getComponentByModel {} (.ref exampleCart) false =
      .ok { schemas := some [
              ("Item", { type := "object", title := "Item",
                         properties := [("sku", { value := some { type := "string" } })] }),
              ("Cart", { type := "object", title := "Cart",
                         properties := [
                           ("first", { ref := "#/components/schemas/Item" }),
                           ("byName", { value := some {
                              type := "object",
                              additionalProperties := {
                                schema := some { ref := "#/components/schemas/Item" } } } })] })] }
    := by
  refine ⟨?_, by decide, by decide, ?_⟩
  · intro isRequest c fi tags sname pkg name fields
    simp only [fieldProp, fieldInterface]
    by_cases hx : fi.exported = true
    · simp only [hx, if_true, isBuiltinType, GoType.kind, getSchemaByValue]
      split <;> exact ⟨_, rfl⟩
    · simp only [hx]
      exact ⟨_, rfl⟩
  · decide

theorem methodLoop_all_excluded (m : GoMap Router) (hm : ∀ p ∈ m, p.2.exclude = true) :
    ∀ (c : Components) (item : PathItem), methodLoop c item m = .ok (c, item) := by
  induction m with
  | nil => intro c item; rfl
  | cons p rest ih =>
    obtain ⟨method, r⟩ := p
    intro c item
    have h1 : r.exclude = true := hm (method, r) (List.mem_cons_self _ _)
    simp only [methodLoop, h1, if_true]
    exact ih (fun q hq => hm q (List.mem_cons_of_mem _ hq)) c item

/-- C6: the document built from the single excluded route `GET /hidden` has no schema and no
operation, but its paths hold the key `/hidden` with an empty path item; in every build an
excluded route is passed over by the method loop, which leaves components and path item as
they are, and a path all of whose routes are excluded still stores an empty path item under
its document key. -/
theorem excluded_route_keeps_path_key :
    BuildOpenAPI exampleHidden = .ok { openapi := "3.0.0", paths := [("/hidden", {})] } ∧
    (∀ (c : Components) (item : PathItem) (method : String) (r : Router)
        (rest : GoMap Router), r.exclude = true →
      methodLoop c item ((method, r) :: rest) = methodLoop c item rest) ∧
    (∀ (c : Components) (paths : GoMap PathItem) (path : String) (m : GoMap Router)
        (rest : GoMap (GoMap Router)), (∀ p ∈ m, p.2.exclude = true) →
      pathLoop c paths ((path, m) :: rest) =
        pathLoop c (GoMap.store paths (fixPath path) {}) rest) := by
  refine ⟨by decide, ?_, ?_⟩
  · intro c item method r rest hex
    simp only [methodLoop, hex, if_true]
  · intro c paths path m rest hm
    simp only [pathLoop, methodLoop_all_excluded m hm]

/-- C8: the content of every response with a model is keyed by the request content type of
the route (`application/json` when that is empty), with the declared description and
headers; the response content type of the route is not read. For the route with request
content type `multipart/form-data` and response content type `application/xml` the `200`
response is keyed by `multipart/form-data`. -/
theorem responses_keyed_by_request_content_type :
    (∀ (c c1 : Components) (r : Router) (op : Operation) (rpre rpost : GoMap ResponseItem)
        (status : String) (item : ResponseItem) (t : GoType) (valid : Bool),
      buildOperation c r = .ok (c1, op) → r.response = rpre ++ (status, item) :: rpost →
      status ∉ GoMap.keys rpost → item.model.deref = some (t, valid) →
      GoMap.lookup op.responses status =
        some { description := some item.description,
               content := [(defaultJSON r.requestContentType,
                 { schema := { ref := generateRefName (removePackageName t.name) } })],
               headers := item.headers }) ∧
    (buildOperation {} exampleUpload).map (fun res => GoMap.lookup res.2.responses "200") =
      .ok (some { description := some "done",
                  content := [("multipart/form-data",
                    { schema := { ref := "#/components/schemas/TestResp" } })],
                  headers := [] }) := by
  refine ⟨?_, by decide⟩
  intro c c1 r op rpre rpost status item t valid h hr hk hm
  obtain ⟨_, _, _, _, _, _, _, _, _, hop⟩ := buildOperation_ok c r _ h
  simp only at hop
  rw [hop]
  simp only [getResponsesRef, hr]
  exact responsesLoop_entry rpre rpost status item t valid hk hm _ _

/-- C7 fails for PATCH: the document built from the one route `PATCH /items/:id` with the
request model `&Item{}` has the operation in the patch slot, without a request body. -/
theorem patch_has_no_request_body :
    (BuildOpenAPI examplePatch).map (fun doc =>
        (GoMap.lookup doc.paths "/items/{id}").map
          (fun item => item.patch.map (fun op => op.requestBody))) =
      .ok (some (some none)) := by
  decide

/-- C7, amended: for a route that is not excluded under one of the methods of `buildPath`,
the last under its method and document key, the document holds its operation in the slot
of the method, and the operation carries a request body exactly when the method is POST or
PUT and the request model is not nil; for a request model that is not nil that body is
required and has the single content entry keyed by the request content type of the route
(`application/json` when it is empty) whose schema is the reference to the bare type name of
the request model, a schema the components of the document hold; under every other method
(GET, DELETE, PATCH, HEAD, OPTIONS, CONNECT, TRACE) the operation carries none. -/
theorem request_body_under_post_and_put (c cF : Components) (paths : GoMap PathItem)
    (gpre gpost : RouterMap) (ppre ppost : GoMap (GoMap Router)) (mpre mpost : GoMap Router)
    (path method : String) (r : Router)
    (h : buildPath c (gpre ++ (ppre ++ (path, mpre ++ (method, r) :: mpost) :: ppost) :: gpost)
      = .ok (cF, paths))
    (hex : r.exclude = false) (hm : method ∈ httpMethods)
    (hmethod : method ∉ GoMap.keys mpost)
    (hpath : fixPath path ∉ groupKeys ppost ++ routersKeys gpost) :
    ∃ item op, GoMap.lookup paths (fixPath path) = some item ∧
      slotOf item method = some op ∧
      op.requestBody =
        (if method = "POST" ∨ method = "PUT" then routeRequestBody r else none) ∧
      (r.request.model.deref = none → routeRequestBody r = none) ∧
      ∀ t valid, r.request.model.deref = some (t, valid) →
        routeRequestBody r =
          some { required := true,
                 content := [(defaultJSON r.requestContentType,
                   { schema := { ref := generateRefName (removePackageName t.name) } })] } ∧
        (cF.schema (removePackageName t.name)).isSome = true := by
  obtain ⟨c0, c1, op, item, hb, hl, hs, hframe⟩ := buildPath_route c cF paths gpre gpost ppre
    ppost mpre mpost path method r h hex hmethod hpath
  obtain ⟨ca, cb, cc, ps, h1, h2, h3, _, h5, hop⟩ := buildOperation_ok c0 r _ hb
  simp only at h5 hop
  rw [slotOf_setMethod_same _ _ _ _ hm] at hs
  refine ⟨item, _, hl, hs, ?_, ?_, ?_⟩
  · simp only [hop]
  · intro hn
    simp [routeRequestBody, hn]
  · intro t valid hmodel
    refine ⟨routeRequestBody_some r t valid hmodel, ?_⟩
    obtain ⟨comp, hreg, _⟩ := getComponentByModel_registers c0 ca _ true t valid hmodel h1
    obtain ⟨st1, st2⟩ := present_stable (removePackageName t.name)
    have p1 : (ca.schema (removePackageName t.name)).isSome = true := by simp [hreg]
    have p2 := responseModels_preserves _ (fun _ => True) st1 _ ca cb (fun _ _ => trivial) h2 p1
    have p3 := getEnumComponent_preserves _ (fun _ => True) st1 _ cb cc (fun _ _ => trivial)
      h3 p2
    obtain ⟨ss, hss⟩ := getSecurity_schemas r.securities cc
    have p4 : (c1.schema (removePackageName t.name)).isSome = true := by
      rw [h5, hss]
      exact st2 _ _ p3
    exact hframe _ (fun _ => True) st1 st2 (fun _ _ => trivial) p4

/-- C7, amended, at the document with the one route `POST /items` whose request model is
`&Item{}`: the post operation carries the required body referring to `Item`. -/
theorem request_body_under_post_and_put_witness :
    ∃ cF paths item op, buildPath {} [[("/items", [("POST", examplePostRoute)])]]
        = .ok (cF, paths) ∧
      GoMap.lookup paths "/items" = some item ∧ item.post = some op ∧
      op.requestBody =
        some { required := true,
               content := [("application/json",
                 { schema := { ref := "#/components/schemas/Item" } })] } ∧
      (cF.schema "Item").isSome = true := by
  cases h : buildPath {} [[("/items", [("POST", examplePostRoute)])]] with
  | error e =>
    have hok : (buildPath {} [[("/items", [("POST", examplePostRoute)])]]).toBool = true := by
      decide
    rw [h] at hok
    cases hok
  | ok res =>
    obtain ⟨cF, paths⟩ := res
    obtain ⟨item, op, h1, h2, h3, _, h5⟩ := request_body_under_post_and_put {} cF paths [] []
      [] [] [] [] "/items" "POST" examplePostRoute h rfl (by decide) (by decide) (by decide)
    obtain ⟨h6, h7⟩ := h5 exampleItem true rfl
    have e1 : fixPath "/items" = "/items" := by decide
    have e2 : removePackageName exampleItem.name = "Item" := by decide
    rw [e1] at h1
    rw [e2] at h7
    refine ⟨cF, paths, item, op, rfl, h1, h2, ?_, h7⟩
    rw [h3, h6]
    decide

/-! ## Parameters -/

theorem paramLocation_eq (tags : List Tag) :
    paramLocation tags =
      match lastLocation tags with
      | none => {}
      | some p => { loc := p.1, name := p.2 } := by
  unfold paramLocation lastLocation
  cases Tags.get tags "cookie" <;> cases Tags.get tags "header" <;>
    cases Tags.get tags "uri" <;> cases Tags.get tags "query" <;> rfl

theorem lastLocation_loc_ne (tags : List Tag) (p : String × String)
    (h : lastLocation tags = some p) : p.1 ≠ "" := by
  unfold lastLocation at h
  cases h1 : Tags.get tags "cookie" with
  | some t => simp only [h1] at h; injection h with h; subst h; simp
  | none =>
    cases h2 : Tags.get tags "header" with
    | some t => simp only [h1, h2] at h; injection h with h; subst h; simp
    | none =>
      cases h3 : Tags.get tags "uri" with
      | some t => simp only [h1, h2, h3] at h; injection h with h; subst h; simp
      | none =>
        cases h4 : Tags.get tags "query" with
        | some t => simp only [h1, h2, h3, h4] at h; injection h with h; subst h; simp
        | none => simp only [h1, h2, h3, h4] at h; cases h

theorem paramMeta_fields (tags : List Tag) (p : Parameter) (fi : FieldInfo) (ft : GoType)
    (ht : fi.tags = some tags) (hp : p.required = false) :
    (paramMeta tags p).loc = p.loc ∧ (paramMeta tags p).name = p.name ∧
      (paramMeta tags p).required = boundRequired (fi, ft) := by
  unfold paramMeta boundRequired
  simp only [ht]
  cases Tags.get tags "description" <;> cases Tags.get tags "binding" <;> simp [hp]

/-- The parameters the field loop returns: one for each field with a location tag, in
declaration order, with the location and name of the last location tag. -/
theorem paramLoop_spec (valid : Bool) (fs : List (FieldInfo × GoType)) :
    ∀ ps : List Parameter, paramLoop valid fs = .ok ps →
      ps.map (fun p => (p.loc, p.name, p.required)) = fs.filterMap (paramOf lastLocation) := by
  induction fs with
  | nil =>
    intro ps h
    simp only [paramLoop] at h
    injection h with h
    subst h
    rfl
  | cons f rest ih =>
    obtain ⟨fi, ft⟩ := f
    intro ps h
    simp only [paramLoop] at h
    split at h
    · cases h
    · split at h
      · cases h
      · rename_i tags ht
        have hloc := paramLocation_eq tags
        cases hl : lastLocation tags with
        | none =>
          rw [hl] at hloc
          simp only [hloc, if_true] at h
          rw [List.filterMap_cons]
          simp only [paramOf, ht, hl, Option.map_none']
          exact ih ps h
        | some p =>
          rw [hl] at hloc
          have hne := lastLocation_loc_ne tags p hl
          simp only [hloc, hne, if_false] at h
          split at h
          · cases h
          · split at h
            · cases h
            · split at h
              · cases h
              · rename_i ps2 hrest
                injection h with h
                subst h
                obtain ⟨m1, m2, m3⟩ := paramMeta_fields tags { loc := p.1, name := p.2 } fi ft
                  ht rfl
                rw [List.filterMap_cons]
                simp only [paramOf, ht, hl, Option.map_some', List.map_cons, ih ps2 hrest, m1,
                  m2, m3]

/-- C9 fails at `Traced{}`: its first field carries a query and a header tag, and its
parameter is the header parameter `X-Trace`, not the query parameter `trace`. -/
theorem parameter_location_counterexample :
    (getParametersByModel (.val exampleTraced)).map
        (fun ps => ps.map (fun p => (p.loc, p.name, p.required))) =
      .ok [("header", "X-Trace", false), ("query", "page", true)] ∧
    firstLocation [{ key := "query", value := "trace" }, { key := "header", value := "X-Trace" }]
      = some ("query", "trace") := by
  decide

/-- C9, amended: for a struct request model `getParametersByModel` returns, in declaration
order, one parameter for each field that carries at least one of the query, uri, header or
cookie tags and none for any other field, and the empty list for a nil model; location and
name of the parameter are those of the last tag the field carries in the order query, uri
(path), header, cookie; its required flag is true exactly when the name of the binding tag
of the field is `required`. -/
theorem parameters_of_request_model :
    getParametersByModel .nil = .ok [] ∧
    (∀ (model : Model) (pkg name : String) (fields : List (FieldInfo × GoType))
        (valid : Bool) (ps : List Parameter),
      model.deref = some (.struct pkg name fields, valid) →
      getParametersByModel model = .ok ps →
      ps.map (fun p => (p.loc, p.name, p.required)) =
        fields.filterMap (paramOf lastLocation)) ∧
    (∀ tags : List Tag, (lastLocation tags).isSome = true ↔
      ∃ key ∈ ["query", "uri", "header", "cookie"], (Tags.get tags key).isSome = true) ∧
    (∀ f : FieldInfo × GoType, boundRequired f = true ↔
      ∃ tags bindingTag, f.1.tags = some tags ∧ Tags.get tags "binding" = some bindingTag ∧
        bindingTag.name = "required") := by
  refine ⟨rfl, ?_, ?_, ?_⟩
  · intro model pkg name fields valid ps hm h
    simp only [getParametersByModel, hm] at h
    exact paramLoop_spec valid fields ps h
  · intro tags
    have e : (∃ key ∈ ["query", "uri", "header", "cookie"],
        (Tags.get tags key).isSome = true) ↔
        ((Tags.get tags "query").isSome = true ∨ (Tags.get tags "uri").isSome = true ∨
          (Tags.get tags "header").isSome = true ∨ (Tags.get tags "cookie").isSome = true) := by
      simp
    rw [e]
    unfold lastLocation
    cases Tags.get tags "cookie" <;> cases Tags.get tags "header" <;>
      cases Tags.get tags "uri" <;> cases Tags.get tags "query" <;> simp
  · intro f
    unfold boundRequired
    cases ht : f.1.tags with
    | none => simp
    | some tags =>
      cases hb : Tags.get tags "binding" with
      | none => simp [hb]
      | some b => simp [hb]

/-- C9, amended, at `Traced{}`: a header parameter `X-Trace`, then the required query
parameter `page`, and no parameter for the field without location tag. -/
theorem parameters_of_request_model_witness :
    ∃ ps, getParametersByModel (.val exampleTraced) = .ok ps ∧
      ps.map (fun p => (p.loc, p.name, p.required)) =
        [("header", "X-Trace", false), ("query", "page", true)] := by
  cases h : getParametersByModel (.val exampleTraced) with
  | error e =>
    have hok : (getParametersByModel (.val exampleTraced)).toBool = true := by decide
    rw [h] at hok
    cases hok
  | ok ps =>
    refine ⟨ps, rfl, ?_⟩
    rw [parameters_of_request_model.2.1 (.val exampleTraced) "main" "Traced" _ true ps rfl h]
    decide

theorem fieldLoop_tags (isReq valid : Bool) (fs : List (FieldInfo × GoType)) :
    ∀ (c : Components) (acc : Component) (r : Components × Component),
      fieldLoop isReq valid c acc fs = .ok r → ∀ f ∈ fs, ∃ tags, f.1.tags = some tags := by
  induction fs with
  | nil => intro c acc r _ f hf; simp at hf
  | cons f0 rest ih =>
    obtain ⟨fi, ft⟩ := f0
    intro c acc r h f hf
    obtain ⟨_, tags, ht, hcase⟩ := fieldLoop_cons_ok _ _ _ _ _ _ _ _ h
    rcases List.mem_cons.mp hf with e | e
    · subst e
      exact ⟨tags, ht⟩
    · rcases hcase with ⟨_, hrest⟩ | ⟨_, _, _, _, _, _, _, hrest⟩
      · exact ih _ _ _ hrest f e
      · exact ih _ _ _ hrest f e

theorem mem_visibleNames (isReq : Bool) (fields : List (FieldInfo × GoType)) (k : String) :
    k ∈ visibleNames isReq fields ↔
      ∃ f ∈ fields, ∃ tags, f.1.tags = some tags ∧ fieldName isReq f.1 tags = some k := by
  simp only [visibleNames, List.mem_filterMap, resolvedName]
  constructor
  · rintro ⟨f, hf, h⟩
    cases ht : f.1.tags with
    | none => simp [ht] at h
    | some tags =>
      simp only [ht] at h
      exact ⟨f, hf, tags, ht, h⟩
  · rintro ⟨f, hf, tags, ht, h⟩
    exact ⟨f, hf, by simp [ht, h]⟩

/-- C10 fails at `TestStruct` of `examples/main.go` synthesized as a request model: the
fields `ID` (tagged `uri:"id"`) and `Token` (tagged `header:"authorization"`) are not
among the properties, which are `name` and `age`. -/
theorem request_properties_counterexample :
    (getComponentByModel {} (.ref exampleTestStruct) true).map
        (fun c1 => (c1.schema "TestStruct").map (fun comp => GoMap.keys comp.properties)) =
      .ok (some ["name", "age"]) := by
  decide

/-! ## The schema of a response model in the document -/

theorem getSchemaByValue_min (t : Option GoType) (s : Schema)
    (h : getSchemaByValue t = some s) :
    (s.min = some 0 ↔
      ∃ k ∈ [BasicKind.uint, .uint8, .uint16, .uint32, .uint64], t = some (.builtin k)) ∧
    (s.min = none ∨ s.min = some 0) := by
  unfold getSchemaByValue at h
  split at h <;> (try split at h) <;>
    first
      | (cases h; done)
      | (injection h with h
         subst h
         simp [Schema.basic, NewIntegerSchema, NewInt32Schema, NewInt64Schema, NewStringSchema,
           NewFloat64Schema, NewBoolSchema, NewDateTimeSchema, NewBytesSchema, NewArraySchema])

/-- C11: `getSchemaByValue` follows the primitive mapping table: int, int8 and int16 give
integer without format, int32 integer/int32, int64 integer/int64, float32 number/float,
float64 number/double, string gives string, bool boolean, `time.Time` string/date-time, a
byte slice string/byte, a file upload string/binary and a slice of file uploads an array
with string/binary items; the unsigned kinds give the type and format of the signed kind of
the same width with minimum 0, and a schema has a minimum exactly when its type is one of
uint, uint8, uint16, uint32, uint64; `getBasicSchemaByType` gives the same type, format and
minimum for every basic kind. -/
theorem scalar_mapping_table :
    getSchemaByValue (some (.builtin .int)) = some { type := "integer" } ∧
    getSchemaByValue (some (.builtin .int8)) = some { type := "integer" } ∧
    getSchemaByValue (some (.builtin .int16)) = some { type := "integer" } ∧
    getSchemaByValue (some (.builtin .int32)) = some { type := "integer", format := "int32" } ∧
    getSchemaByValue (some (.builtin .int64)) = some { type := "integer", format := "int64" } ∧
    getSchemaByValue (some (.builtin .float32)) = some { type := "number", format := "float" } ∧
    getSchemaByValue (some (.builtin .float64)) =
      some { type := "number", format := "double" } ∧
    getSchemaByValue (some (.builtin .string)) = some { type := "string" } ∧
    getSchemaByValue (some (.builtin .bool)) = some { type := "boolean" } ∧
    (∀ fields, getSchemaByValue (some (.struct "time" "Time" fields)) =
      some { type := "string", format := "date-time" }) ∧
    getSchemaByValue (some (.slice "" (.builtin .uint8))) =
      some { type := "string", format := "byte" } ∧
    (∀ fields, getSchemaByValue (some (.ptr "" (.struct "mime/multipart" "FileHeader" fields))) =
      some { type := "string", format := "binary" }) ∧
    (∀ fields,
      getSchemaByValue
          (some (.slice "" (.ptr "" (.struct "mime/multipart" "FileHeader" fields)))) =
        some { type := "array",
               items := some { value := some { type := "string", format := "binary" } } }) ∧
    getSchemaByValue (some (.builtin .uint)) = some { type := "integer", min := some 0 } ∧
    getSchemaByValue (some (.builtin .uint8)) = some { type := "integer", min := some 0 } ∧
    getSchemaByValue (some (.builtin .uint16)) = some { type := "integer", min := some 0 } ∧
    getSchemaByValue (some (.builtin .uint32)) =
      some { type := "integer", format := "int32", min := some 0 } ∧
    getSchemaByValue (some (.builtin .uint64)) =
      some { type := "integer", format := "int64", min := some 0 } ∧
    (∀ (t : Option GoType) (s : Schema), getSchemaByValue t = some s →
      (s.min = some 0 ↔
        ∃ k ∈ [BasicKind.uint, .uint8, .uint16, .uint32, .uint64], t = some (.builtin k)) ∧
      (s.min = none ∨ s.min = some 0)) ∧
    (∀ k : BasicKind,
      (getBasicSchemaByType (.basic k)).map (fun b => (b.type, b.format, b.min)) =
        (getSchemaByValue (some (.builtin k))).map Schema.core) := by
  refine ⟨rfl, rfl, rfl, rfl, rfl, rfl, rfl, rfl, rfl, ?_, rfl, ?_, ?_, rfl, rfl, rfl, rfl, rfl,
    getSchemaByValue_min, ?_⟩
  · intro fields
    simp [getSchemaByValue, Schema.basic, NewDateTimeSchema]
  · intro fields
    simp [getSchemaByValue, Schema.basic, NewStringSchema]
  · intro fields
    simp [getSchemaByValue, NewArraySchema]
  · intro k
    cases k <;> rfl

/-! ## C12, C14, C15: the code at the failing inputs -/

theorem getSchemaByValue_slice_builtin (sname : String) (k : BasicKind)
    (h : sname ≠ "" ∨ k ≠ .uint8) :
    getSchemaByValue (some (.slice sname (.builtin k))) = none := by
  cases k <;> simp [getSchemaByValue]
  rcases h with h | h
  · exact h
  · exact absurd rfl h

/-- C12: for a field whose type is a slice of a predeclared kind, other than the byte slice
`[]byte`, `getSchemaByValue` has no case and returns nil: when the dispatch returns, the
property is a schema reference without schema, not an array schema, and the registry is as
it was; with a `description` or a `default` tag on the field the dispatch aborts on the
nil schema. `Article{Tags []string}` gets the property `tags` without schema, and aborts once
the field is described. -/
theorem slice_of_scalars_has_no_schema :
    (∀ (isRequest : Bool) (c : Components) (fi : FieldInfo) (tags : List Tag)
        (sname : String) (k : BasicKind) (r : Components × SchemaRef),
      (sname ≠ "" ∨ k ≠ .uint8) →
      fieldProp isRequest c fi tags (.slice sname (.builtin k)) = .ok r →
      r = (c, { ref := "", value := none })) ∧
    (∀ (isRequest : Bool) (c : Components) (fi : FieldInfo) (tags : List Tag)
        (sname : String) (k : BasicKind), (sname ≠ "" ∨ k ≠ .uint8) →
      ((Tags.get tags "description").isSome = true ∨
        (Tags.get tags "default").isSome = true) →
      ∃ e, fieldProp isRequest c fi tags (.slice sname (.builtin k)) = .error e) ∧
    (getComponentByModel {} (.ref exampleArticle) false).map
        (fun c1 => (c1.schema "Article").map (fun comp => comp.properties)) =
      .ok (some [("tags", { ref := "", value := none })]) ∧
    getComponentByModel {} (.ref exampleArticleDescribed) false = .error .nilSchema := by
  refine ⟨?_, ?_, by decide, by decide⟩
  · intro isRequest c fi tags sname k r hk h
    simp only [fieldProp, fieldInterface] at h
    by_cases hx : fi.exported = true
    · simp only [hx, if_true, isBuiltinType, GoType.kind, getSchemaByValue_slice_builtin _ _ hk]
        at h
      unfold setDescription at h
      cases hd : Tags.get tags "description" with
      | some d => simp [hd] at h
      | none =>
        simp only [hd] at h
        unfold setDefault at h
        cases hf : Tags.get tags "default" with
        | some d => simp [hf] at h
        | none =>
          simp only [hf] at h
          injection h with h
          exact h.symm
    · simp only [hx] at h
      cases h
  · intro isRequest c fi tags sname k hk htag
    simp only [fieldProp, fieldInterface]
    by_cases hx : fi.exported = true
    · simp only [hx, if_true, isBuiltinType, GoType.kind, getSchemaByValue_slice_builtin _ _ hk]
      unfold setDescription
      cases hd : Tags.get tags "description" with
      | some d => exact ⟨_, rfl⟩
      | none =>
        simp only
        unfold setDefault
        cases hf : Tags.get tags "default" with
        | some d => exact ⟨_, rfl⟩
        | none => simp [hd, hf] at htag
    · simp only [hx]
      exact ⟨_, rfl⟩

/-- C14: `parseEnumTag` splits each part at every `:` and keeps only the second piece, so a
description that holds a `:` is cut at it: the tag `values:low,high;description:ratio 1:2`
registers the description `ratio 1`, not `ratio 1:2`. The rest of the claim holds at the
examples: the parts are read in any order with their spaces trimmed, the type defaults to
`string`, the values keep their written order, and a tag whose parsed parts have no
`values` aborts with the error of the mandatory values, whatever the name and the state. -/
theorem enum_tag_description_cut_at_colon :
    getEnumComponentByTag {} "level" "values:low,high;description:ratio 1:2" =
      .ok { schemas := some [("level",
        { type := "string", title := "level", description := "ratio 1",
          enum := [.str "low", .str "high"] })] } ∧
    getEnumComponentByTag {} "state" " description : the state ; values : 1, 2 ,3;type:integer" =
      .ok { schemas := some [("state",
        { type := "integer", title := "state", description := "the state",
          enum := [.str "1", .str "2", .str "3"] })] } ∧
    getEnumComponentByTag {} "state" "type:integer;description:the state" =
      .error .enumValues ∧
    (∀ (c : Components) (name enumTag : String) (parts : GoMap String),
      parseEnumTag enumTag = .ok parts → GoMap.lookup parts "values" = none →
      getEnumComponentByTag c name enumTag = .error .enumValues) := by
  refine ⟨by decide, by decide, by decide, ?_⟩
  intro c name enumTag parts hp hv
  simp only [getEnumComponentByTag, hp, hv]

/-! ## C15: explicit enum descriptors -/

theorem getEnumComponent_nil_map (c : Components) (es : GoMap EnumItem)
    (hc : c.schemas = none) (hes : es ≠ []) : getEnumComponent c es = .error .nilMap := by
  cases es with
  | nil => exact absurd rfl hes
  | cons p rest =>
    obtain ⟨k, e⟩ := p
    simp only [getEnumComponent, hc]

theorem getEnumComponent_step (c : Components) (m : GoMap Component) (k : String)
    (e : EnumItem) (rest : GoMap EnumItem) (hc : c.schemas = some m) :
    getEnumComponent c ((k, e) :: rest) =
      getEnumComponent (c.setSchema k (enumComponent k e)) rest := by
  simp [getEnumComponent, hc, Components.setSchema, enumComponent]

theorem getEnumComponent_total (es : GoMap EnumItem) :
    ∀ (c : Components) (m : GoMap Component), c.schemas = some m →
      ∃ c1, getEnumComponent c es = .ok c1 ∧
        (∀ k, k ∉ GoMap.keys es → c1.schema k = c.schema k) ∧
        ((GoMap.keys es).Nodup → ∀ p ∈ es, c1.schema p.1 = some (enumComponent p.1 p.2)) := by
  induction es with
  | nil =>
    intro c m _
    exact ⟨c, rfl, fun _ _ => rfl, fun _ p hp => by cases hp⟩
  | cons q rest ih =>
    obtain ⟨k, e⟩ := q
    intro c m hc
    rw [getEnumComponent_step c m k e rest hc]
    have hc1 : (c.setSchema k (enumComponent k e)).schemas =
        some (GoMap.store m k (enumComponent k e)) := by
      simp [Components.setSchema, hc]
    obtain ⟨c1, h1, hframe, hent⟩ := ih _ _ hc1
    refine ⟨c1, h1, ?_, ?_⟩
    · intro k1 hk1
      simp only [GoMap.keys, List.map_cons, List.mem_cons, not_or] at hk1
      rw [hframe k1 hk1.2]
      exact Components.schema_setSchema_other _ _ _ _ (fun h => hk1.1 h.symm)
    · intro hnd p hp
      simp only [GoMap.keys, List.map_cons, List.nodup_cons] at hnd
      rcases List.mem_cons.1 hp with hp | hp
      · subst hp
        rw [hframe _ hnd.1]
        exact Components.schema_setSchema_same _ _ _
      · exact hent hnd.2 p hp

/-- C15: `getEnumComponent` assigns into `Components.Schemas` without the nil test its
sibling paths make, so a descriptor set met while the map is still nil aborts the build:
the document whose only route declares the descriptor `Color` and no model is not built,
while the same route with a response model is built and holds the schema of the claim.
Once the map exists the loop completes, writes for each descriptor the schema titled with
its name that carries its kind, values and description, and leaves the other names as they
were. -/
theorem enum_descriptors_abort_on_nil_schemas :
    BuildOpenAPI exampleEnumOnly = .error .nilMap ∧
    (BuildOpenAPI exampleEnumWithModel).map (fun t => t.components.schema "Color") =
      .ok (some { type := "string", title := "Color", description := "a color",
                  enum := [.str "red", .str "green"] }) ∧
    (∀ (c : Components) (es : GoMap EnumItem), c.schemas = none → es ≠ [] →
      getEnumComponent c es = .error .nilMap) ∧
    (∀ (c : Components) (m : GoMap Component) (es : GoMap EnumItem), c.schemas = some m →
      ∃ c1, getEnumComponent c es = .ok c1 ∧
        (∀ k, k ∉ GoMap.keys es → c1.schema k = c.schema k) ∧
        ((GoMap.keys es).Nodup → ∀ p ∈ es, c1.schema p.1 = some (enumComponent p.1 p.2))) := by
  refine ⟨by decide, by decide, getEnumComponent_nil_map, ?_⟩
  intro c m es hc
  exact getEnumComponent_total es c m hc

/-! ## C13: the security registrar -/

theorem GoMap.keys_store {α : Type} (m : GoMap α) (k : String) (v : α) :
    GoMap.keys (GoMap.store m k v) =
      if k ∈ GoMap.keys m then GoMap.keys m else GoMap.keys m ++ [k] := by
  induction m with
  | nil => simp [GoMap.store, GoMap.keys]
  | cons p rest ih =>
    obtain ⟨k1, v1⟩ := p
    simp only [GoMap.store]
    by_cases h : k1 = k
    · subst h
      simp [GoMap.keys]
    · simp only [h, if_false]
      simp only [GoMap.keys, List.map_cons, List.mem_cons] at ih ⊢
      rw [ih]
      have h2 : ¬ k = k1 := fun e => h e.symm
      simp only [h2, false_or]
      split_ifs <;> simp

theorem GoMap.store_keys_nodup {α : Type} (m : GoMap α) (k : String) (v : α)
    (h : (GoMap.keys m).Nodup) : (GoMap.keys (GoMap.store m k v)).Nodup := by
  rw [GoMap.keys_store]
  split_ifs with hk
  · exact h
  · exact List.Nodup.append h (List.nodup_singleton k) (by simpa using hk)

theorem storeSchemes_append (l1 l2 : List Security) :
    ∀ ss, storeSchemes ss (l1 ++ l2) = storeSchemes (storeSchemes ss l1) l2 := by
  induction l1 with
  | nil => intro ss; rfl
  | cons s rest ih =>
    intro ss
    rw [List.cons_append]
    simp only [storeSchemes]
    exact ih _

theorem storeSchemes_nodup (l : List Security) :
    ∀ ss, (GoMap.keys ss).Nodup → (GoMap.keys (storeSchemes ss l)).Nodup := by
  induction l with
  | nil => intro ss h; exact h
  | cons s rest ih =>
    intro ss h
    exact ih _ (GoMap.store_keys_nodup ss _ _ h)

theorem storeSchemes_frame (l : List Security) (k : String) :
    ∀ ss, (∀ s ∈ l, s.Name ≠ k) →
      GoMap.lookup (storeSchemes ss l) k = GoMap.lookup ss k := by
  induction l with
  | nil => intro ss _; rfl
  | cons s rest ih =>
    intro ss h
    simp only [storeSchemes]
    rw [ih _ (fun s1 h1 => h s1 (List.mem_cons_of_mem _ h1))]
    exact GoMap.lookup_store_other _ _ _ _ (h s (List.mem_cons_self _ _))

/-- The entry under the name of a stored requirement is the scheme of a stored requirement
of that name: the last one. -/
theorem storeSchemes_lookup (l : List Security) :
    ∀ ss, ∀ s ∈ l, ∃ s1 ∈ l, s1.Name = s.Name ∧
      GoMap.lookup (storeSchemes ss l) s.Name = some s1.Schema := by
  induction l with
  | nil => intro ss s hs; cases hs
  | cons s0 rest ih =>
    intro ss s hs
    simp only [storeSchemes]
    by_cases hex : ∃ s1 ∈ rest, s1.Name = s.Name
    · obtain ⟨s1, h1, e1⟩ := hex
      obtain ⟨s2, h2, e2, hl⟩ := ih (GoMap.store ss s0.Name s0.Schema) s1 h1
      rw [e1] at hl
      exact ⟨s2, List.mem_cons_of_mem _ h2, e2.trans e1, hl⟩
    · have hne : ∀ s1 ∈ rest, s1.Name ≠ s.Name := fun s1 h1 e => hex ⟨s1, h1, e⟩
      rcases List.mem_cons.1 hs with hs | hs
      · subst hs
        refine ⟨s, List.mem_cons_self _ _, rfl, ?_⟩
        rw [storeSchemes_frame rest _ _ hne]
        exact GoMap.lookup_store_same _ _ _
      · exact absurd rfl (hne s hs)

theorem getSecurity_eq (l : List Security) :
    ∀ c : Components,
      getSecurity c l =
        ({ c with securitySchemes := storeSchemes c.securitySchemes l },
          l.map (fun s => [(s.Name, [])])) := by
  induction l with
  | nil => intro c; rfl
  | cons s rest ih =>
    intro c
    simp only [getSecurity, ih, storeSchemes, List.map_cons, GoMap.store]

theorem setSchema_securitySchemes (c : Components) (k : String) (v : Component) :
    (c.setSchema k v).securitySchemes = c.securitySchemes := by
  simp [Components.setSchema]

/-- Building an operation stores the requirements of the route, in their order, and lists
them by name. -/
theorem buildOperation_security (c c1 : Components) (r : Router) (op : Operation)
    (h : buildOperation c r = .ok (c1, op)) :
    c1.securitySchemes = storeSchemes c.securitySchemes r.securities ∧
      op.security = r.securities.map (fun s => [(s.Name, [])]) := by
  obtain ⟨ca, cb, cc, ps, h1, h2, h3, _, h5, h6⟩ := buildOperation_ok c r _ h
  have hP : ∀ (c0 : Components) (k : String) (v : Component), True → v.title = k →
      c0.securitySchemes = c.securitySchemes →
      (c0.setSchema k v).securitySchemes = c.securitySchemes := by
    intro c0 k v _ _ h0
    rw [setSchema_securitySchemes, h0]
  have p1 := getComponentByModel_preserves (fun c0 => c0.securitySchemes = c.securitySchemes)
    (fun _ => True) hP c ca _ true (fun _ _ => trivial) h1 rfl
  have p2 := responseModels_preserves (fun c0 => c0.securitySchemes = c.securitySchemes)
    (fun _ => True) hP _ ca cb (fun _ _ => trivial) h2 p1
  have p3 := getEnumComponent_preserves (fun c0 => c0.securitySchemes = c.securitySchemes)
    (fun _ => True) hP _ cb cc (fun _ _ => trivial) h3 p2
  simp only at h5 h6 p3
  rw [getSecurity_eq] at h5 h6
  simp only at h5 h6
  rw [h5, h6]
  simp only [p3, and_self]

theorem methodLoop_security (m : GoMap Router) :
    ∀ (c : Components) (item : PathItem) (res : Components × PathItem),
      methodLoop c item m = .ok res →
      res.1.securitySchemes = storeSchemes c.securitySchemes (methodsSecurities m) := by
  induction m with
  | nil =>
    intro c item res h
    simp only [methodLoop] at h
    injection h with h
    subst h
    rfl
  | cons p rest ih =>
    obtain ⟨method, r⟩ := p
    intro c item res h
    rcases methodLoop_cons_ok _ _ _ _ _ _ h with ⟨hex, h1⟩ | ⟨hex, c1, op, hb, h1⟩
    · simp only [methodsSecurities, hex, if_true, List.nil_append]
      exact ih _ _ _ h1
    · simp only [methodsSecurities, hex, Bool.false_eq_true, if_false, storeSchemes_append]
      rw [ih _ _ _ h1, (buildOperation_security _ _ _ _ hb).1]

theorem pathLoop_security (g : GoMap (GoMap Router)) :
    ∀ (c : Components) (paths : GoMap PathItem) (res : Components × GoMap PathItem),
      pathLoop c paths g = .ok res →
      res.1.securitySchemes = storeSchemes c.securitySchemes (groupSecurities g) := by
  induction g with
  | nil =>
    intro c paths res h
    simp only [pathLoop] at h
    injection h with h
    subst h
    rfl
  | cons p rest ih =>
    obtain ⟨path, m⟩ := p
    intro c paths res h
    obtain ⟨c1, item, hm, h1⟩ := pathLoop_cons_ok _ _ _ _ _ _ h
    simp only [groupSecurities, storeSchemes_append]
    rw [ih _ _ _ h1, methodLoop_security _ _ _ _ hm]

theorem groupLoop_security (rs : RouterMap) :
    ∀ (c : Components) (paths : GoMap PathItem) (res : Components × GoMap PathItem),
      groupLoop c paths rs = .ok res →
      res.1.securitySchemes = storeSchemes c.securitySchemes (routersSecurities rs) := by
  induction rs with
  | nil =>
    intro c paths res h
    simp only [groupLoop] at h
    injection h with h
    subst h
    rfl
  | cons g rest ih =>
    intro c paths res h
    obtain ⟨c1, p1, hm, h1⟩ := groupLoop_cons_ok _ _ _ _ _ h
    simp only [routersSecurities, storeSchemes_append]
    rw [ih _ _ _ h1, pathLoop_security _ _ _ _ hm]

theorem methodsSecurities_append (m1 m2 : GoMap Router) :
    methodsSecurities (m1 ++ m2) = methodsSecurities m1 ++ methodsSecurities m2 := by
  induction m1 with
  | nil => rfl
  | cons p rest ih =>
    obtain ⟨k, r⟩ := p
    rw [List.cons_append]
    simp only [methodsSecurities, List.append_assoc]
    exact congrArg _ ih

theorem groupSecurities_append (g1 g2 : GoMap (GoMap Router)) :
    groupSecurities (g1 ++ g2) = groupSecurities g1 ++ groupSecurities g2 := by
  induction g1 with
  | nil => rfl
  | cons p rest ih =>
    obtain ⟨k, m⟩ := p
    rw [List.cons_append]
    simp only [groupSecurities, List.append_assoc]
    exact congrArg _ ih

theorem routersSecurities_append (r1 r2 : RouterMap) :
    routersSecurities (r1 ++ r2) = routersSecurities r1 ++ routersSecurities r2 := by
  induction r1 with
  | nil => rfl
  | cons g rest ih =>
    rw [List.cons_append]
    simp only [routersSecurities, List.append_assoc]
    exact congrArg _ ih

/-- The requirements of a route that is not excluded are among those of the routers. -/
theorem mem_routersSecurities (gpre gpost : RouterMap) (ppre ppost : GoMap (GoMap Router))
    (mpre mpost : GoMap Router) (path method : String) (r : Router) (hex : r.exclude = false)
    (s : Security) (hs : s ∈ r.securities) :
    s ∈ routersSecurities
      (gpre ++ (ppre ++ (path, mpre ++ (method, r) :: mpost) :: ppost) :: gpost) := by
  rw [routersSecurities_append]
  simp only [routersSecurities, groupSecurities_append, groupSecurities,
    methodsSecurities_append, methodsSecurities, hex, Bool.false_eq_true, if_false,
    List.mem_append]
  exact Or.inr (Or.inl (Or.inr (Or.inl (Or.inr (Or.inl hs)))))


/-! ## C16: a second synthesis -/

theorem GoMap.mem_store {α : Type} (m : GoMap α) (k : String) (v : α) (e : String × α)
    (h : e ∈ GoMap.store m k v) : e = (k, v) ∨ e ∈ m := by
  induction m with
  | nil =>
    simp only [GoMap.store, List.mem_singleton] at h
    exact Or.inl h
  | cons p rest ih =>
    obtain ⟨k1, v1⟩ := p
    simp only [GoMap.store] at h
    split_ifs at h with hk
    · rcases List.mem_cons.1 h with h | h
      · exact Or.inl h
      · exact Or.inr (List.mem_cons_of_mem _ h)
    · rcases List.mem_cons.1 h with h | h
      · exact Or.inr (h ▸ List.mem_cons_self _ _)
      · rcases ih h with h | h
        · exact Or.inl h
        · exact Or.inr (List.mem_cons_of_mem _ h)

theorem GoMap.store_eq_self {α : Type} (m : GoMap α) (k : String) (v : α)
    (h : GoMap.lookup m k = some v) : GoMap.store m k v = m := by
  induction m with
  | nil => simp [GoMap.lookup] at h
  | cons p rest ih =>
    obtain ⟨k1, v1⟩ := p
    simp only [GoMap.lookup] at h
    simp only [GoMap.store]
    split_ifs at h with hk
    · injection h with h
      subst h
      subst hk
      simp
    · simp only [hk, if_false]
      rw [ih h]

/-- Every write of a schema under its title keeps the registry keyed by title. -/
theorem wellKeyed_stable :
    ∀ (c : Components) (k : String) (v : Component), True → v.title = k →
      c.wellKeyed → (c.setSchema k v).wellKeyed := by
  intro c k v _ hv hw
  obtain ⟨h1, h2⟩ := hw
  constructor
  · simp only [Components.setSchema, Option.getD_some]
    exact GoMap.store_keys_nodup _ _ _ h1
  · intro e he
    simp only [Components.setSchema, Option.getD_some] at he
    rcases GoMap.mem_store _ _ _ _ he with he | he
    · subst he
      exact hv
    · exact h2 e he

/-- In a registry keyed by title, `checkSchemaExist` finds a title exactly when the registry
has that key. -/
theorem checkSchemaExist_iff (c : Components) (k : String) (hw : c.wellKeyed) :
    checkSchemaExist c k = true ↔ (c.schema k).isSome = true := by
  obtain ⟨h1, h2⟩ := hw
  unfold checkSchemaExist Components.schema
  rw [GoMap.lookup_isSome_iff_mem_keys]
  simp only [List.any_eq_true, decide_eq_true_eq, GoMap.keys, List.mem_map]
  constructor
  · rintro ⟨e, he, ht⟩
    exact ⟨e, he, by rw [← h2 e he, ht]⟩
  · rintro ⟨e, he, hk⟩
    exact ⟨e, he, by rw [h2 e he, hk]⟩

/-- In a registry keyed by title, a key that is present is the title of one schema. -/
theorem titledCount_eq_one (c : Components) (k : String) (hw : c.wellKeyed)
    (hk : (c.schema k).isSome = true) : titledCount c k = 1 := by
  obtain ⟨h1, h2⟩ := hw
  unfold titledCount
  unfold Components.schema at hk
  rw [GoMap.lookup_isSome_iff_mem_keys] at hk
  generalize c.schemas.getD [] = m at h1 h2 hk
  induction m with
  | nil => simp [GoMap.keys] at hk
  | cons p rest ih =>
    obtain ⟨k1, v1⟩ := p
    simp only [GoMap.keys, List.map_cons, List.nodup_cons, List.mem_cons] at h1 hk
    have ht1 : v1.title = k1 := h2 (k1, v1) (List.mem_cons_self _ _)
    have h2r : ∀ e ∈ rest, e.2.title = e.1 := fun e he => h2 e (List.mem_cons_of_mem _ he)
    by_cases e : k1 = k
    · subst e
      have hnone : rest.filter (fun e => decide (e.2.title = k1)) = [] := by
        rw [List.filter_eq_nil_iff]
        intro e he
        simp only [decide_eq_true_eq]
        intro ht
        apply h1.1
        rw [← ht, h2r e he]
        exact List.mem_map.2 ⟨e, he, rfl⟩
      simp [List.filter, ht1, hnone]
    · have hk2 : k ∈ GoMap.keys rest := by
        rcases hk with hk | hk
        · exact absurd hk.symm e
        · exact hk
      have hne : ¬ v1.title = k := by rw [ht1]; exact e
      simp only [List.filter, hne, decide_False]
      exact ih h1.2 h2r hk2


theorem fieldProp_keeps (P : Components → Prop)
    (hP : ∀ c k v, True → v.title = k → P c → P (c.setSchema k v))
    (isReq : Bool) (c : Components) (fi : FieldInfo) (tags : List Tag) (ft : GoType)
    (r : Components × SchemaRef) (h : fieldProp isReq c fi tags ft = .ok r) (hp : P c) :
    P r.1 :=
  (synth_preserves P (fun _ => True) hP (sizeOf ft)).2.1 ft (le_refl _) isReq c fi tags r
    (fun _ _ => trivial) h hp

theorem fieldLoop_keeps (P : Components → Prop)
    (hP : ∀ c k v, True → v.title = k → P c → P (c.setSchema k v))
    (isReq valid : Bool) (c : Components) (acc : Component) (fs : List (FieldInfo × GoType))
    (r : Components × Component) (h : fieldLoop isReq valid c acc fs = .ok r) (hp : P c) :
    P r.1 :=
  (synth_preserves P (fun _ => True) hP (sizeOf fs)).1 fs (le_refl _) isReq valid c acc r
    (fun _ _ => trivial) h hp

theorem synthZero_keeps (P : Components → Prop)
    (hP : ∀ c k v, True → v.title = k → P c → P (c.setSchema k v))
    (isReq : Bool) (c c1 : Components) (t : GoType)
    (h : synthZero isReq c t = .ok c1) (hp : P c) : P c1 :=
  (synth_preserves P (fun _ => True) hP (sizeOf t)).2.2 t (le_refl _) isReq c c1
    (fun _ _ => trivial) h hp

theorem registerEnum_keeps (P : Components → Prop)
    (hP : ∀ c k v, True → v.title = k → P c → P (c.setSchema k v))
    (c c1 : Components) (name enumTag : String)
    (h : registerEnum c name enumTag = .ok c1) (hp : P c) : P c1 := by
  rcases registerEnum_ok c c1 name enumTag h with ⟨_, e⟩ | ⟨_, v, hv, e⟩
  · rw [e]; exact hp
  · rw [e]; exact hP c name v trivial hv hp

/-- The scalar tail of the dispatch does not read the components. -/
theorem scalarTail_settled (x : Except Panic (Option GoType)) (tags : List Tag)
    (c d c1 : Components) (prop : SchemaRef) :
    (match x with
      | .error e => .error e
      | .ok v =>
        match setDescription tags (getSchemaByValue v) with
        | .error e => .error e
        | .ok s1 =>
          match setDefault tags s1 with
          | .error e => .error e
          | .ok s2 => .ok (c, ({ value := s2 } : SchemaRef))) =
        (.ok (c1, prop) : Except Panic (Components × SchemaRef)) →
    (match x with
      | .error e => .error e
      | .ok v =>
        match setDescription tags (getSchemaByValue v) with
        | .error e => .error e
        | .ok s1 =>
          match setDefault tags s1 with
          | .error e => .error e
          | .ok s2 => .ok (d, ({ value := s2 } : SchemaRef))) =
        (.ok (d, prop) : Except Panic (Components × SchemaRef)) := by
  intro h
  cases x with
  | error e => cases h
  | ok v =>
    simp only at h ⊢
    cases h1 : setDescription tags (getSchemaByValue v) with
    | error e => rw [h1] at h; cases h
    | ok s1 =>
      rw [h1] at h
      simp only at h ⊢
      cases h2 : setDefault tags s1 with
      | error e => rw [h2] at h; cases h
      | ok s2 =>
        rw [h2] at h
        simp only at h ⊢
        injection h with h
        injection h with _ h
        rw [h]

theorem synthZero_struct (isReq : Bool) (c c1 : Components) (pkg name : String)
    (fields : List (FieldInfo × GoType))
    (h : synthZero isReq c (.struct pkg name fields) = .ok c1) :
    ∃ c2 acc, c1 = registerModel c2 name acc := by
  simp only [synthZero] at h
  split at h
  · cases h
  · rename_i c2 acc _
    injection h with h
    exact ⟨c2, acc, h.symm⟩

/-- C16 fails when a nested model writes the enum name of a field: for
`Paint{Tone string; Base Primer}` with `Tone` tagged `json:"color" enum:"values:red"` and
the field of `Primer` tagged `json:"color" enum:"values:blue"`, the first synthesis leaves
the enum `color` with the value `blue`, written by the nested model, and the second one,
which finds `Primer` registered, leaves it with the value `red`. -/
theorem second_synthesis_counterexample :
    (getComponentByModel {} (.ref examplePaint) false).map
        (fun c1 => (c1.schema "color").map (fun comp => comp.enum)) =
      .ok (some [.str "blue"]) ∧
    ((getComponentByModel {} (.ref examplePaint) false).bind
        (fun c1 => getComponentByModel c1 (.ref examplePaint) false)).map
        (fun c2 => (c2.schema "color").map (fun comp => comp.enum)) =
      .ok (some [.str "red"]) := by
  refine ⟨by decide, by decide⟩

/-! ## C17: the schemas a build registers -/

theorem scalarTail_propOf (x : Except Panic (Option GoType)) (tags : List Tag)
    (c c1 : Components) (prop : SchemaRef) :
    (match x with
      | .error e => .error e
      | .ok v =>
        match setDescription tags (getSchemaByValue v) with
        | .error e => .error e
        | .ok s1 =>
          match setDefault tags s1 with
          | .error e => .error e
          | .ok s2 => .ok (c, ({ value := s2 } : SchemaRef))) =
        (.ok (c1, prop) : Except Panic (Components × SchemaRef)) →
    scalarProp tags x = some prop := by
  intro h
  unfold scalarProp
  cases x with
  | error e => cases h
  | ok v =>
    simp only at h ⊢
    cases h1 : setDescription tags (getSchemaByValue v) with
    | error e => rw [h1] at h; cases h
    | ok s1 =>
      rw [h1] at h
      simp only at h ⊢
      cases h2 : setDefault tags s1 with
      | error e => rw [h2] at h; cases h
      | ok s2 =>
        rw [h2] at h
        simp only at h ⊢
        injection h with h
        injection h with _ h
        rw [h]

/-- The property the dispatch stores for a field is the one `propOf` gives, whatever the
registry. -/
theorem fieldProp_propOf (isReq : Bool) (c c1 : Components) (fi : FieldInfo)
    (tags : List Tag) (ft : GoType) (prop : SchemaRef)
    (h : fieldProp isReq c fi tags ft = .ok (c1, prop)) :
    propOf fi tags ft = some prop := by
  cases ft with
  | struct pkg name fields =>
    simp only [fieldProp] at h
    simp only [propOf]
    by_cases ht : name = "Time"
    · simp only [ht, if_true] at h ⊢
      cases hv : fieldInterface fi (.struct pkg "Time" fields) true with
      | error e => rw [hv] at h; cases h
      | ok v =>
        rw [hv] at h
        simp only at h ⊢
        cases hs : getSchemaByValue v with
        | none => rw [hs] at h; cases h
        | some s =>
          rw [hs] at h
          simp only at h ⊢
          injection h with h
          injection h with _ h
          rw [h]
    · simp only [ht, if_false] at h ⊢
      split at h
      · injection h with h
        injection h with _ h
        rw [h]
      · split at h
        · cases h
        · injection h with h
          injection h with _ h
          rw [h]
  | slice sname elem =>
    simp only [fieldProp] at h
    simp only [propOf]
    by_cases hb : isBuiltinType elem = false
    · simp only [hb, if_true] at h ⊢
      cases hv : fieldInterface fi (.slice sname elem) true with
      | error e => rw [hv] at h; cases h
      | ok v =>
        rw [hv] at h
        simp only at h ⊢
        split at h
        · cases h
        · cases hs : getSchemaByValue v with
          | none => rw [hs] at h; cases h
          | some s =>
            rw [hs] at h
            simp only at h ⊢
            injection h with h
            injection h with _ h
            rw [h]
    · simp only [hb, if_false] at h ⊢
      exact scalarTail_propOf (fieldInterface fi (.slice sname elem) true) tags c c1 prop h
  | map mname key elem =>
    simp only [fieldProp] at h
    simp only [propOf]
    cases elem with
    | struct pkg name fields =>
      simp only [GoType.kind, GoType.name] at h ⊢
      split at h
      · cases h
      · injection h with h
        injection h with _ h
        rw [h]
    | iface n =>
      simp only [GoType.kind] at h ⊢
      injection h with h
      injection h with _ h
      rw [h]
    | _ =>
      simp only [GoType.kind] at h ⊢
      injection h with h
      injection h with _ h
      rw [h]
  | iface n =>
    simp only [fieldProp] at h
    simp only [propOf]
    injection h with h
    injection h with _ h
    rw [h]
  | builtin k =>
    simp only [fieldProp] at h
    simp only [propOf]
    exact scalarTail_propOf (fieldInterface fi (.builtin k) true) tags c c1 prop h
  | defined n k =>
    simp only [fieldProp] at h
    simp only [propOf]
    exact scalarTail_propOf (fieldInterface fi (.defined n k) true) tags c c1 prop h
  | ptr n e =>
    simp only [fieldProp] at h
    simp only [propOf]
    exact scalarTail_propOf (fieldInterface fi (.ptr n e) true) tags c c1 prop h
  | array n e =>
    simp only [fieldProp] at h
    simp only [propOf]
    exact scalarTail_propOf (fieldInterface fi (.array n e) true) tags c c1 prop h
  | chan n e =>
    simp only [fieldProp] at h
    simp only [propOf]
    exact scalarTail_propOf (fieldInterface fi (.chan n e) true) tags c c1 prop h
  | func n =>
    simp only [fieldProp] at h
    simp only [propOf]
    exact scalarTail_propOf (fieldInterface fi (.func n) true) tags c c1 prop h

/-- The schema the field loop accumulates is the one `accOf` gives, whatever the
registry. -/
theorem fieldLoop_accOf (isReq : Bool) (fs : List (FieldInfo × GoType)) :
    ∀ (valid : Bool) (c : Components) (acc : Component) (r : Components × Component),
      fieldLoop isReq valid c acc fs = .ok r → r.2 = accOf isReq acc fs := by
  induction fs with
  | nil =>
    intro valid c acc r h
    simp only [fieldLoop] at h
    injection h with h
    rw [← h]
    rfl
  | cons f rest ih =>
    obtain ⟨fi, ft⟩ := f
    intro valid c acc r h
    obtain ⟨_, tags, htags, hcase⟩ := fieldLoop_cons_ok isReq valid c acc fi ft rest r h
    rcases hcase with ⟨hn, hrest⟩ | ⟨name, c1, c2, prop, hn, _, hp, hrest⟩
    · simp only [accOf, htags, hn]
      exact ih _ _ _ _ hrest
    · simp only [accOf, htags, hn, fieldProp_propOf isReq c1 c2 fi tags ft prop hp]
      exact ih _ _ _ _ hrest

/-- The operation of a route does not depend on the components it is built in. -/
theorem buildOperation_pure (c d c1 d1 : Components) (r : Router) (op op2 : Operation)
    (h : buildOperation c r = .ok (c1, op)) (h2 : buildOperation d r = .ok (d1, op2)) :
    op = op2 := by
  obtain ⟨_, _, ca, ps, _, _, _, hps, _, hop⟩ := buildOperation_ok c r _ h
  obtain ⟨_, _, da, qs, _, _, _, hqs, _, hop2⟩ := buildOperation_ok d r _ h2
  simp only at hop hop2
  rw [hps] at hqs
  injection hqs with hqs
  rw [hop, hop2, getSecurity_eq, getSecurity_eq, hqs]

/-- A path of the router map that is the last under its document key: the document holds,
under the rewritten path, the path item the method loop built for the routes of that
path. -/
theorem buildPath_path_item (c cF : Components) (paths : GoMap PathItem)
    (gpre gpost : RouterMap) (ppre ppost : GoMap (GoMap Router)) (path : String)
    (m : GoMap Router)
    (h : buildPath c (gpre ++ (ppre ++ (path, m) :: ppost) :: gpost) = .ok (cF, paths))
    (hpath : fixPath path ∉ groupKeys ppost ++ routersKeys gpost) :
    ∃ c0 c2 item, methodLoop c0 {} m = .ok (c2, item) ∧
      GoMap.lookup paths (fixPath path) = some item := by
  unfold buildPath at h
  obtain ⟨ca, pa, _, h1⟩ := groupLoop_append _ _ _ _ _ h
  obtain ⟨cb, pb, h2, h3⟩ := groupLoop_cons_ok _ _ _ _ _ h1
  obtain ⟨cc, pc, _, h4⟩ := pathLoop_append _ _ _ _ _ h2
  obtain ⟨cd, itemF, h5, h6⟩ := pathLoop_cons_ok _ _ _ _ _ _ h4
  simp only [List.mem_append, not_or] at hpath
  refine ⟨cc, cd, itemF, h5, ?_⟩
  rw [show paths = ((cF, paths) : Components × GoMap PathItem).2 from rfl,
    groupLoop_lookup_frame _ gpost cb pb _ h3 hpath.2,
    show pb = ((cb, pb) : Components × GoMap PathItem).2 from rfl,
    pathLoop_lookup_frame _ ppost cd _ _ h6 hpath.1]
  exact GoMap.lookup_store_same _ _ _

/-- C4 fails for a path whose key a later path has too: with `/:id` (route `GET`) visited
before `/{id}` (route `POST`), both of key `/{id}`, the document holds under `/{id}` the
path item of `/{id}`, with the post operation only; the path item of `/:id`, with its get
operation, is not in the document. -/
theorem path_key_counterexample :
    fixPath "/:id" = "/{id}" ∧ fixPath "/{id}" = "/{id}" ∧
    (BuildOpenAPI exampleSameKey).map (fun doc => GoMap.keys doc.paths) = .ok ["/{id}"] ∧
    (BuildOpenAPI exampleSameKey).map (fun doc =>
        (GoMap.lookup doc.paths "/{id}").map
          (fun item => (item.get.map (fun op => op.summary),
            item.post.map (fun op => op.summary)))) =
      .ok (some (none, some "second")) := by
  refine ⟨by decide, by decide, by decide, by decide⟩

/-- C4, amended: a path is its text before the first `/` followed by its `/`-led segments;
when every segment that starts with `:` continues with a non-empty run of ASCII letters and
digits up to the next `/` or the end of the path, `fixPath` puts the name of each such
segment in braces and keeps every other character; so `/users/:id/:postId` gives
`/users/{id}/{postId}` and a path without `/:` is returned unchanged. After `buildPath` the
document paths hold, under the rewritten path of a registered path that no path visited
later shares its key with, the path item built for the routes of that path; under the
rewritten path of every registered path they hold the path item built for a path of that
key. -/
theorem fixPath_braces_parameters :
    (∀ path : String, ∃ (pre : List Char) (segs : List (List Char)),
      path.toList = pre ++ joinSegs segs ∧ '/' ∉ pre ∧ ∀ s ∈ segs, '/' ∉ s) ∧
    (∀ (path : String) (pre : List Char) (segs : List (List Char)),
      path.toList = pre ++ joinSegs segs → '/' ∉ pre → (∀ s ∈ segs, '/' ∉ s) →
      (∀ s ∈ segs, ∀ name, s = ':' :: name → name ≠ [] ∧ ∀ ch ∈ name, isAlnum ch = true) →
      (fixPath path).toList = pre ++ joinSegs (segs.map braceSeg)) ∧
    fixPath "/users/:id/:postId" = "/users/{id}/{postId}" ∧
    (∀ path : String, (∀ a b, path.toList ≠ a ++ '/' :: ':' :: b) → fixPath path = path) ∧
    (∀ (c cF : Components) (paths : GoMap PathItem) (gpre gpost : RouterMap)
        (ppre ppost : GoMap (GoMap Router)) (path : String) (m : GoMap Router),
      buildPath c (gpre ++ (ppre ++ (path, m) :: ppost) :: gpost) = .ok (cF, paths) →
      fixPath path ∉ groupKeys ppost ++ routersKeys gpost →
      ∃ c0 c2 item, methodLoop c0 {} m = .ok (c2, item) ∧
        GoMap.lookup paths (fixPath path) = some item) ∧
    (∀ (c : Components) (routers : RouterMap) (c1 : Components) (paths : GoMap PathItem),
      buildPath c routers = .ok (c1, paths) → ∀ g ∈ routers, ∀ pm ∈ g,
      ∃ item, GoMap.lookup paths (fixPath pm.1) = some item ∧
        ∃ g2 ∈ routers, ∃ pm2 ∈ g2, fixPath pm2.1 = fixPath pm.1 ∧
          ∃ c0 c2, methodLoop c0 {} pm2.2 = .ok (c2, item)) := by
  refine ⟨fun path => path_segments path.toList, ?_, by decide, ?_, ?_, ?_⟩
  · intro path pre segs hp hpre hsegs hparam
    rw [fixPath_toList path pre segs hp hpre hsegs]
    congr 2
    apply List.map_congr_left
    intro s hs
    exact rewriteSeg_alnum s (hparam s hs)
  · intro path h
    unfold fixPath
    rw [fixChars_unchanged _ _ h]
    cases path
    rfl
  · intro c cF paths gpre gpost ppre ppost path m h hpath
    exact buildPath_path_item c cF paths gpre gpost ppre ppost path m h hpath
  · intro c routers c1 paths h g hg pm hpm
    unfold buildPath at h
    have hp := groupLoop_present routers c [] _ h (fixPath pm.1) (Or.inr ⟨g, hg, pm, hpm, rfl⟩)
    cases hl : GoMap.lookup paths (fixPath pm.1) with
    | none => simp [hl] at hp
    | some item =>
      refine ⟨item, rfl, ?_⟩
      rcases groupLoop_sound routers c [] _ h _ item hl with h1 | h1
      · simp [GoMap.lookup] at h1
      · exact h1

/-- C4, amended, at the document with the one path `/items/:id`: the document holds under
`/items/{id}` the path item built for its route `PATCH`. -/
theorem fixPath_braces_parameters_witness :
    ∃ cF paths c0 c2 item, buildPath {} examplePatch.routers = .ok (cF, paths) ∧
      methodLoop c0 {} [("PATCH", { request := { model := .ref exampleItem } })] =
        .ok (c2, item) ∧
      GoMap.lookup paths "/items/{id}" = some item := by
  cases h : buildPath {} examplePatch.routers with
  | error e =>
    have hok : (buildPath {} examplePatch.routers).toBool = true := by decide
    rw [h] at hok
    cases hok
  | ok res =>
    obtain ⟨cF, paths⟩ := res
    obtain ⟨c0, c2, item, h1, h2⟩ := fixPath_braces_parameters.2.2.2.2.1 {} cF paths [] [] []
      [] "/items/:id" [("PATCH", { request := { model := .ref exampleItem } })] h (by decide)
    have e1 : fixPath "/items/:id" = "/items/{id}" := by decide
    rw [e1] at h2
    exact ⟨cF, paths, c0, c2, item, rfl, h1, h2⟩

/-! ## The property of the last field of a name -/

theorem fieldLoop_append (isReq valid : Bool) (l1 l2 : List (FieldInfo × GoType)) :
    ∀ (c : Components) (acc : Component) (r : Components × Component),
      fieldLoop isReq valid c acc (l1 ++ l2) = .ok r →
      ∃ c1 acc1, fieldLoop isReq valid c acc l1 = .ok (c1, acc1) ∧
        fieldLoop isReq valid c1 acc1 l2 = .ok r := by
  induction l1 with
  | nil => intro c acc r h; exact ⟨c, acc, rfl, h⟩
  | cons f rest ih =>
    obtain ⟨fi, ft⟩ := f
    intro c acc r h
    rw [List.cons_append] at h
    obtain ⟨hv, tags, ht, hcase⟩ := fieldLoop_cons_ok _ _ _ _ _ _ _ _ h
    subst hv
    rcases hcase with ⟨hn, hrest⟩ | ⟨name, c1, c2, prop, hn, he, hp, hrest⟩
    · obtain ⟨c3, acc3, h1, h2⟩ := ih _ _ _ hrest
      exact ⟨c3, acc3, by simpa [fieldLoop, ht, hn] using h1, h2⟩
    · obtain ⟨c3, acc3, h1, h2⟩ := ih _ _ _ hrest
      exact ⟨c3, acc3, by simpa [fieldLoop, ht, hn, he, hp] using h1, h2⟩

/-- The property under a resolved name is the one the dispatch produced for the last field
of that name. -/
theorem fieldLoop_last_prop (isReq valid : Bool) (pre : List (FieldInfo × GoType))
    (fi : FieldInfo) (ft : GoType) (post : List (FieldInfo × GoType)) (tags : List Tag)
    (n : String) (c : Components) (acc : Component) (r : Components × Component)
    (h : fieldLoop isReq valid c acc (pre ++ (fi, ft) :: post) = .ok r)
    (ht : fi.tags = some tags) (hn : fieldName isReq fi tags = some n)
    (hlast : ∀ f ∈ post, resolvedName isReq f ≠ some n) :
    ∃ p c1 c2, GoMap.lookup r.2.properties n = some p ∧
      fieldProp isReq c1 fi tags ft = .ok (c2, p) := by
  obtain ⟨ca, acca, _, h2⟩ := fieldLoop_append isReq valid pre _ c acc r h
  obtain ⟨_, tags2, ht2, hcase⟩ := fieldLoop_cons_ok _ _ _ _ _ _ _ _ h2
  rw [ht] at ht2
  injection ht2 with ht2
  subst ht2
  rcases hcase with ⟨hn2, _⟩ | ⟨name, c1, c2, prop, hn2, _, hp, hrest⟩
  · rw [hn] at hn2
    cases hn2
  · rw [hn] at hn2
    injection hn2 with hn2
    subst hn2
    have hpres := fieldLoop_props_present isReq valid post c2 _ r hrest n
      (Or.inl (by simp [GoMap.lookup_store_same]))
    cases hl : GoMap.lookup r.2.properties n with
    | none => simp [hl] at hpres
    | some p =>
      rcases fieldLoop_props_sound isReq valid post c2 _ r hrest n p hl with
        h1 | ⟨f, hf, tags3, _, _, ht3, hn3, _⟩
      · simp only [GoMap.lookup_store_same] at h1
        injection h1 with h1
        subst h1
        exact ⟨_, c1, c2, rfl, hp⟩
      · exact absurd (by simp [resolvedName, ht3, hn3]) (hlast f hf)

/-! ## C1: the schema of a response model in the document -/

/-- C10, amended: in the schema registered for a struct model the properties are keyed by
the resolved names of the fields, and the property under a name is the one of the last
field that resolves to it, so fields of one resolved name share one property; for a model
synthesized as a request model a name is a key exactly when it is the name of the `form`
tag of a field that carries a `form` tag (a field with only query, uri, header or cookie
tags is not a property); for a model synthesized as a response model every field has a
property under the name of its `json` tag (the tag value up to its first comma, which is
empty for `json:",omitempty"`), or under its field name when it has no `json` tag. -/
theorem properties_of_registered_schema (c c1 : Components) (model : Model)
    (isRequest : Bool) (pkg name : String) (fields : List (FieldInfo × GoType))
    (valid : Bool) (hm : model.deref = some (.struct pkg name fields, valid))
    (h : getComponentByModel c model isRequest = .ok c1) :
    ∃ comp, c1.schema (removePackageName name) = some comp ∧
      (∀ k, (GoMap.lookup comp.properties k).isSome = true ↔
        k ∈ visibleNames isRequest fields) ∧
      (isRequest = true → ∀ k, (GoMap.lookup comp.properties k).isSome = true ↔
        ∃ f ∈ fields, ∃ tags formTag, f.1.tags = some tags ∧
          Tags.get tags "form" = some formTag ∧ k = formTag.name) ∧
      (isRequest = false → ∀ f ∈ fields, ∃ tags, f.1.tags = some tags ∧
        (GoMap.lookup comp.properties
          (match Tags.get tags "json" with
            | some jsonTag => jsonTag.name
            | none => f.1.name)).isSome = true) ∧
      (∀ pre fi ft post tags n, fields = pre ++ (fi, ft) :: post → fi.tags = some tags →
        fieldName isRequest fi tags = some n →
        (∀ f ∈ post, resolvedName isRequest f ≠ some n) →
        GoMap.lookup comp.properties n = propOf fi tags ft) := by
  obtain ⟨c2, acc, hl, _, hs⟩ := getComponentByModel_struct c c1 model isRequest pkg name
    fields valid hm h
  have hkeys : ∀ k, (GoMap.lookup acc.properties k).isSome = true ↔
      k ∈ visibleNames isRequest fields := by
    intro k
    constructor
    · intro hk
      cases hp : GoMap.lookup acc.properties k with
      | none => simp [hp] at hk
      | some p =>
        rcases fieldLoop_props_sound isRequest valid fields c NewObjectComponent (c2, acc) hl
          k p hp with h1 | ⟨f, hf, tags, _, _, ht, hn, _⟩
        · simp [NewObjectComponent, GoMap.lookup] at h1
        · exact (mem_visibleNames isRequest fields k).mpr ⟨f, hf, tags, ht, hn⟩
    · intro hk
      exact fieldLoop_props_present isRequest valid fields c NewObjectComponent (c2, acc) hl k
        (Or.inr hk)
  refine ⟨_, hs, hkeys, ?_, ?_, ?_⟩
  · intro hreq k
    subst hreq
    simp only
    rw [hkeys k, mem_visibleNames]
    constructor
    · rintro ⟨f, hf, tags, ht, hn⟩
      cases hform : Tags.get tags "form" with
      | none => simp [fieldName, hform] at hn
      | some formTag =>
        simp only [fieldName, hform, Option.some.injEq] at hn
        exact ⟨f, hf, tags, formTag, ht, hform, hn.symm⟩
    · rintro ⟨f, hf, tags, formTag, ht, hform, hk⟩
      exact ⟨f, hf, tags, ht, by simp [fieldName, hform, hk]⟩
  · intro hreq f hf
    subst hreq
    obtain ⟨tags, ht⟩ := fieldLoop_tags false valid fields c NewObjectComponent (c2, acc) hl f hf
    refine ⟨tags, ht, ?_⟩
    simp only
    apply (hkeys _).mpr
    apply (mem_visibleNames false fields _).mpr
    refine ⟨f, hf, tags, ht, ?_⟩
    cases hform : Tags.get tags "form" <;> cases hjson : Tags.get tags "json" <;>
      simp [fieldName, hform, hjson]
  · intro pre fi ft post tags n hfields ht hn hlast
    rw [hfields] at hl
    obtain ⟨p, ca, cb, hp, hprop⟩ := fieldLoop_last_prop isRequest valid pre fi ft post tags n
      c NewObjectComponent (c2, acc) hl ht hn hlast
    simp only at hp ⊢
    rw [hp, fieldProp_propOf isRequest ca cb fi tags ft p hprop]

/-- C10, amended, at `TestStruct` of `examples/main.go` synthesized as a request model:
the properties are the two fields with a `form` tag. -/
theorem properties_of_registered_schema_witness :
    ∃ c1 comp, getComponentByModel {} (.ref exampleTestStruct) true = .ok c1 ∧
      c1.schema "TestStruct" = some comp ∧
      (GoMap.lookup comp.properties "name").isSome = true ∧
      (GoMap.lookup comp.properties "age").isSome = true ∧
      (GoMap.lookup comp.properties "id").isSome = false := by
  cases h : getComponentByModel {} (.ref exampleTestStruct) true with
  | error e =>
    have hok : (getComponentByModel {} (.ref exampleTestStruct) true).toBool = true := by
      decide
    rw [h] at hok
    cases hok
  | ok c1 =>
    obtain ⟨comp, h1, h2, _, _, _⟩ := properties_of_registered_schema {} c1
      (.ref exampleTestStruct) true "main" "TestStruct" _ true rfl h
    have e : removePackageName "TestStruct" = "TestStruct" := by decide
    rw [e] at h1
    refine ⟨c1, comp, rfl, h1, (h2 "name").mpr (by decide), (h2 "age").mpr (by decide), ?_⟩
    cases hid : (GoMap.lookup comp.properties "id").isSome with
    | false => rfl
    | true =>
      have := (h2 "id").mp hid
      revert this
      decide

/-- C10 at two response fields tagged `json:",omitempty"`: both resolve to the empty name
and the schema has the one property keyed by it. -/
theorem omitempty_fields_share_a_property :
    (getComponentByModel {} (.ref exampleBare) false).map
        (fun c1 => (c1.schema "Bare").map (fun comp => GoMap.keys comp.properties)) =
      .ok (some [""]) := by
  decide

/-! ## C13: registration and the scheme stored last -/

theorem updateAt_getElem_same (f : Router → Router) (l : List Router) (p : Nat) (x : Router)
    (h : l[p]? = some x) : (updateAt f l p)[p]? = some (f x) := by
  induction l generalizing p with
  | nil => simp at h
  | cons y rest ih =>
    cases p with
    | zero =>
      simp only [List.getElem?_cons_zero, Option.some.injEq] at h
      subst h
      simp [updateAt]
    | succ q =>
      simp only [List.getElem?_cons_succ] at h
      simp only [updateAt, List.getElem?_cons_succ]
      exact ih q h

theorem updateAt_getElem_other (f : Router → Router) (l : List Router) (p q : Nat)
    (h : q ≠ p) : (updateAt f l p)[q]? = l[q]? := by
  induction l generalizing p q with
  | nil => simp [updateAt]
  | cons y rest ih =>
    cases p with
    | zero =>
      cases q with
      | zero => exact absurd rfl h
      | succ q2 => simp [updateAt]
    | succ p2 =>
      cases q with
      | zero => simp [updateAt]
      | succ q2 =>
        simp only [updateAt, List.getElem?_cons_succ]
        exact ih p2 q2 (fun e => h (by rw [e]))

theorem GoMap.lookup_map {α β : Type} (f : α → β) (m : GoMap α) (k : String) :
    GoMap.lookup (m.map (fun p => (p.1, f p.2))) k = (GoMap.lookup m k).map f := by
  induction m with
  | nil => rfl
  | cons p rest ih =>
    obtain ⟨k1, v1⟩ := p
    simp only [List.map_cons, GoMap.lookup]
    split_ifs
    · rfl
    · exact ih

/-- Go `Group.handle` on a router of the heap: the router gets the tags and the
requirements of the group after those it carried, the pointer is stored under the path of
the group followed by the path given and the method, the other routers are as they were,
and the router map read at build time holds the router so changed in that place. -/
theorem Group.handle_spec (g : Group) (e : Egs) (m p : String) (r : Nat) (x : Router)
    (hx : e.heap[r]? = some x) :
    (g.handle e m p r).heap[r]? =
        some { x with method := m, path := g.path ++ p, tags := x.tags ++ g.tags,
                      securities := x.securities ++ g.securities } ∧
      GoMap.lookup ((GoMap.lookup (g.handle e m p r).routes (g.path ++ p)).getD []) m =
        some r ∧
      (∀ q, q ≠ r → (g.handle e m p r).heap[q]? = e.heap[q]?) ∧
      ∃ routes, (g.handle e m p r).Routers = [routes] ∧
        GoMap.lookup ((GoMap.lookup routes (g.path ++ p)).getD []) m =
          some { x with method := m, path := g.path ++ p, tags := x.tags ++ g.tags,
                        securities := x.securities ++ g.securities } := by
  have h1 : (g.handle e m p r).heap[r]? =
      some { x with method := m, path := g.path ++ p, tags := x.tags ++ g.tags,
                    securities := x.securities ++ g.securities } := by
    simp only [Group.handle, Egs.handle]
    rw [updateAt_getElem_same _ _ r _ (updateAt_getElem_same _ _ r x hx)]
  have h2 : GoMap.lookup ((GoMap.lookup (g.handle e m p r).routes (g.path ++ p)).getD []) m =
      some r := by
    simp only [Group.handle, Egs.handle, GoMap.lookup_store_same, Option.getD_some]
  refine ⟨h1, h2, ?_, ?_⟩
  · intro q hq
    simp only [Group.handle, Egs.handle]
    rw [updateAt_getElem_other _ _ r q hq, updateAt_getElem_other _ _ r q hq]
  · refine ⟨_, rfl, ?_⟩
    rw [GoMap.lookup_map (fun (mm : GoMap Nat) =>
      mm.map (fun mr => (mr.1, (g.handle e m p r).heap.getD mr.2 {})))]
    cases hl : GoMap.lookup (g.handle e m p r).routes (g.path ++ p) with
    | none =>
      rw [hl] at h2
      simp [GoMap.lookup] at h2
    | some mm =>
      rw [hl] at h2
      simp only [Option.getD_some] at h2
      simp only [Option.map_some', Option.getD_some]
      rw [GoMap.lookup_map (fun (q : Nat) => (g.handle e m p r).heap.getD q {}), h2]
      simp only [Option.map_some', List.getD_eq_getElem?_getD, h1, Option.getD_some]

/-- The entry under the name of a requirement that no later requirement has is the scheme
of that requirement. -/
theorem storeSchemes_last (pre post : List Security) (s : Security)
    (ss : GoMap SecurityScheme) (hlast : ∀ t ∈ post, t.Name ≠ s.Name) :
    GoMap.lookup (storeSchemes ss (pre ++ s :: post)) s.Name = some s.Schema := by
  rw [storeSchemes_append]
  simp only [storeSchemes]
  rw [storeSchemes_frame post s.Name _ hlast]
  exact GoMap.lookup_store_same _ _ _

/-- C13 fails for two requirements of one name: for the route `GET /me` with
`router.Security(&security.Basic{AuthName: "auth"}, &security.Bearer{AuthName: "auth"})` the
entry `securitySchemes["auth"]` is the bearer scheme, which is not the scheme of the basic
requirement attached to the route, while the security list has one entry per requirement. -/
theorem security_same_name_counterexample :
    (BuildOpenAPI { routers := exampleSameName.Routers }).map
        (fun doc => doc.components.securitySchemes) =
      .ok [("auth", { type := "http", scheme := "bearer" })] ∧
    (BuildOpenAPI { routers := exampleSameName.Routers }).map (fun doc =>
        (GoMap.lookup doc.paths "/me").map (fun item => item.get.map (fun op => op.security))) =
      .ok (some (some [[("auth", [])], [("auth", [])]])) ∧
    (Security.basic "auth").Schema ≠ { type := "http", scheme := "bearer" } := by
  refine ⟨by decide, rfl, by decide⟩

/-- A router registered under two groups: `Group.handle` appends to the router behind the
pointer, so the operation under `/a/x` lists the requirement of the group `/b` too, as the
operation under `/b/x` does. -/
theorem shared_router_carries_both_groups :
    (BuildOpenAPI { routers := exampleTwoGroups.Routers }).map (fun doc =>
        (GoMap.lookup doc.paths "/a/x").map (fun item => item.get.map (fun op => op.security))) =
      .ok (some (some [[("own", [])], [("first", [])], [("second", [])]])) ∧
    (BuildOpenAPI { routers := exampleTwoGroups.Routers }).map (fun doc =>
        (GoMap.lookup doc.paths "/b/x").map (fun item => item.get.map (fun op => op.security))) =
      .ok (some (some [[("own", [])], [("first", [])], [("second", [])]])) := by
  refine ⟨rfl, rfl⟩

/-- C13, amended: `Group.handle` appends the requirements of the group to those the router
carries and stores the router under the path of the group followed by its own. After
`BuildOpenAPI`, for a route that is not excluded, registered under one of the nine methods
of `buildPath`, the last under its method and document key: the operation in the slot of
the method lists one entry, by name and without scopes,
per requirement the route carries, in their order; `securitySchemes` holds under a name the
scheme of the requirement of that name stored last in the visit (the requirements of the
routes that are not excluded, in visiting order), so a later requirement of the name
overwrites the entry, and holds no entry under a name no requirement has; hence the entry
under the name of a requirement of the route is its own scheme when all requirements of the
name describe one scheme; and the registry holds every name once. -/
theorem security_round_trip (swagger : Swagger) (doc : T)
    (gpre gpost : RouterMap) (ppre ppost : GoMap (GoMap Router)) (mpre mpost : GoMap Router)
    (path method : String) (r : Router)
    (h : BuildOpenAPI swagger = .ok doc)
    (hr : swagger.routers =
      gpre ++ (ppre ++ (path, mpre ++ (method, r) :: mpost) :: ppost) :: gpost)
    (hex : r.exclude = false) (hm : method ∈ httpMethods)
    (hmethod : method ∉ GoMap.keys mpost)
    (hpath : fixPath path ∉ groupKeys ppost ++ routersKeys gpost) :
    (∀ (g : Group) (e : Egs) (m p : String) (q : Nat) (x : Router), e.heap[q]? = some x →
      ∃ routes, (g.handle e m p q).Routers = [routes] ∧
        GoMap.lookup ((GoMap.lookup routes (g.path ++ p)).getD []) m =
          some { x with method := m, path := g.path ++ p, tags := x.tags ++ g.tags,
                        securities := x.securities ++ g.securities }) ∧
    (∃ pathItem op, GoMap.lookup doc.paths (fixPath path) = some pathItem ∧
      slotOf pathItem method = some op ∧
      op.security = r.securities.map (fun s => [(s.Name, [])])) ∧
    (∀ pre s post, routersSecurities swagger.routers = pre ++ s :: post →
      (∀ t ∈ post, t.Name ≠ s.Name) →
      GoMap.lookup doc.components.securitySchemes s.Name = some s.Schema) ∧
    (∀ k, (∀ s ∈ routersSecurities swagger.routers, s.Name ≠ k) →
      GoMap.lookup doc.components.securitySchemes k = none) ∧
    (∀ s ∈ r.securities, s ∈ routersSecurities swagger.routers ∧
      ((∀ s1 ∈ routersSecurities swagger.routers, s1.Name = s.Name → s1.Schema = s.Schema) →
        GoMap.lookup doc.components.securitySchemes s.Name = some s.Schema)) ∧
    (GoMap.keys doc.components.securitySchemes).Nodup := by
  unfold BuildOpenAPI at h
  split at h
  · cases h
  rename_i cF paths hb
  injection h with h
  subst h
  simp only
  have hsec := groupLoop_security _ _ _ _ hb
  simp only at hsec
  refine ⟨?_, ?_, ?_, ?_, ?_, ?_⟩
  · intro g e m p q x hx
    exact (Group.handle_spec g e m p q x hx).2.2.2
  · rw [hr] at hb
    obtain ⟨c0, c1, op, item, hop, hl, hs, _⟩ := buildPath_route _ cF paths gpre gpost ppre
      ppost mpre mpost path method r hb hex hmethod hpath
    rw [slotOf_setMethod_same _ _ _ _ hm] at hs
    exact ⟨item, _, hl, hs, (buildOperation_security _ _ _ _ hop).2⟩
  · intro pre s post hl hlast
    rw [hsec, hl]
    exact storeSchemes_last pre post s [] hlast
  · intro k hk
    rw [hsec, storeSchemes_frame _ k [] hk]
    rfl
  · intro s hs
    have hmem : s ∈ routersSecurities swagger.routers := by
      rw [hr]
      exact mem_routersSecurities gpre gpost ppre ppost mpre mpost path method r hex s hs
    refine ⟨hmem, ?_⟩
    intro hsame
    obtain ⟨s1, h1, e1, hl⟩ := storeSchemes_lookup _ [] s hmem
    rw [hsec, hl, hsame s1 h1 e1]
  · rw [hsec]
    exact storeSchemes_nodup _ _ List.nodup_nil

/-- C13, amended, at the registration of `examples/main.go`: the group `test` carries the
bearer requirement `jwtAuth` and the route `POST /:id` is registered under it; the document
holds `securitySchemes["jwtAuth"] = {type: http, scheme: bearer}` and the post operation
under `test/{id}` has the security list `[{"jwtAuth": []}]`. -/
theorem security_round_trip_witness :
    ∃ doc pathItem op, BuildOpenAPI { routers := exampleSecured.Routers } = .ok doc ∧
      GoMap.lookup doc.paths "test/{id}" = some pathItem ∧ pathItem.post = some op ∧
      op.security = [[("jwtAuth", [])]] ∧
      GoMap.lookup doc.components.securitySchemes "jwtAuth" =
        some { type := "http", scheme := "bearer" } := by
  cases h : BuildOpenAPI { routers := exampleSecured.Routers } with
  | error e =>
    have hok : (BuildOpenAPI { routers := exampleSecured.Routers }).toBool = true := by decide
    rw [h] at hok
    cases hok
  | ok doc =>
    obtain ⟨_, ⟨pathItem, op, a1, a2, a3⟩, a4, _, _, _⟩ :=
      security_round_trip { routers := exampleSecured.Routers } doc [] [] [] [] [] []
        "test/:id" "POST"
        { method := "POST", path := "test/:id", securities := [jwtAuth],
          response := [("200", { model := .ref exampleTestResp })] }
        h rfl rfl (by decide) (by decide) (by decide)
    have e1 : fixPath "test/:id" = "test/{id}" := by decide
    rw [e1] at a1
    refine ⟨doc, pathItem, op, rfl, a1, a2, a3, ?_⟩
    exact a4 [] jwtAuth [] (by decide) (by intro t ht; cases ht)

/-! ## C17: two visits of the same routes -/

theorem applyWrites_append (ws1 ws2 : List (String × Component)) :
    ∀ c, applyWrites c (ws1 ++ ws2) = applyWrites (applyWrites c ws1) ws2 := by
  induction ws1 with
  | nil => intro c; rfl
  | cons w rest ih =>
    intro c
    rw [List.cons_append]
    simp only [applyWrites]
    exact ih _

theorem keyedBy_setSchema (d : Components) (K : List String) (k : String) (v : Component)
    (hd : d.keyedBy K) (hk : k ∈ K) (hv : v.title = k) : (d.setSchema k v).keyedBy K := by
  refine ⟨wellKeyed_stable d k v trivial hv hd.1, ?_⟩
  intro k2
  by_cases e : k = k2
  · subst e
    simp [Components.schema_setSchema_same, hk]
  · rw [Components.schema_setSchema_other _ _ _ _ e]
    exact hd.2 k2

/-- The enum tag a first synthesis registered is registered again, with the same schema, in
any registry. -/
theorem registerEnum_replay (c c1 : Components) (name enumTag : String)
    (h : registerEnum c name enumTag = .ok c1) :
    (∀ d, registerEnum d name enumTag = .ok (applyWrites d (enumWrites name enumTag))) ∧
      (enumWrites name enumTag = [] ∨
        ∃ v, enumWrites name enumTag = [(name, v)] ∧ v.title = name ∧
          (c1.schema name).isSome = true) := by
  unfold registerEnum at h
  unfold registerEnum enumWrites
  split at h
  · rename_i he
    simp only [he, if_true, applyWrites]
    exact ⟨fun d => trivial, Or.inl trivial⟩
  · rename_i hne
    simp only [hne, if_false]
    unfold getEnumComponentByTag at h ⊢
    cases hp : parseEnumTag enumTag with
    | error e => rw [hp] at h; cases h
    | ok parts =>
      rw [hp] at h
      simp only at h ⊢
      cases hv : GoMap.lookup parts "values" with
      | none => rw [hv] at h; cases h
      | some vs =>
        rw [hv] at h
        simp only at h ⊢
        injection h with h
        refine ⟨?_, Or.inr ⟨
          { type := (GoMap.lookup parts "type").getD "string", title := name,
            description := (GoMap.lookup parts "description").getD "",
            enum := (splitOn ',' vs.toList).map (fun v => Lit.str (String.mk (trimSpace v))) },
          ?_, rfl, ?_⟩⟩
        · intro d
          simp [applyWrites, Components.setSchema, GoMap.store]
        · simp [Components.setSchema, GoMap.store]
        · rw [← h]
          simp [Components.schema_setSchema_same]


/-- A second run of the synthesizer, in a registry keyed by title whose names `K` include
those the first run left: every registration completes as it did in the first run, stores
the schemas `fieldsReplay`, `propReplay` and `zeroReplay` list, and leaves the names of the
registry as they are. -/
theorem synth_replay (K : List String) :
    ∀ n : Nat,
      (∀ fs : List (FieldInfo × GoType), sizeOf fs ≤ n → ∀ isReq valid c acc r d acc2,
        fieldLoop isReq valid c acc fs = .ok r → c.wellKeyed →
        (∀ k, (r.1.schema k).isSome = true → k ∈ K) → d.keyedBy K →
        ∃ a, fieldLoop isReq valid d acc2 fs =
            .ok (applyWrites d (fieldsReplay K isReq fs), a) ∧
          (applyWrites d (fieldsReplay K isReq fs)).keyedBy K) ∧
      (∀ ft : GoType, sizeOf ft ≤ n → ∀ isReq c fi tags r d,
        fieldProp isReq c fi tags ft = .ok r → c.wellKeyed →
        (∀ k, (r.1.schema k).isSome = true → k ∈ K) → d.keyedBy K →
        fieldProp isReq d fi tags ft = .ok (applyWrites d (propReplay K isReq ft), r.2) ∧
          (applyWrites d (propReplay K isReq ft)).keyedBy K) ∧
      (∀ t : GoType, sizeOf t ≤ n → ∀ isReq c c1 d,
        synthZero isReq c t = .ok c1 → c.wellKeyed →
        (∀ k, (c1.schema k).isSome = true → k ∈ K) → d.keyedBy K →
        synthZero isReq d t = .ok (applyWrites d (zeroReplay K isReq t)) ∧
          (applyWrites d (zeroReplay K isReq t)).keyedBy K) := by
  intro n
  induction n with
  | zero =>
    refine ⟨?_, ?_, ?_⟩
    · intro fs hs
      cases fs with
      | nil =>
        intro isReq valid c acc r d acc2 _ _ _ hd
        exact ⟨acc2, rfl, hd⟩
      | cons f rest => simp at hs
    · intro ft hs
      cases ft <;> simp at hs
    · intro t hs
      cases t <;> simp at hs
  | succ n ih =>
    obtain ⟨ih1, ih2, ih3⟩ := ih
    have absent : ∀ (d : Components) (name : String), d.keyedBy K → name ∉ K →
        checkSchemaExist d name = false := by
      intro d name hd hk
      cases hx : checkSchemaExist d name with
      | false => rfl
      | true => exact absurd ((hd.2 name).1 ((checkSchemaExist_iff d name hd.1).1 hx)) hk
    have found : ∀ (d : Components) (name : String), d.keyedBy K → name ∈ K →
        checkSchemaExist d name = true :=
      fun d name hd hk => (checkSchemaExist_iff d name hd.1).2 ((hd.2 name).2 hk)
    have loopReg : ∀ (fields : List (FieldInfo × GoType)) (name : String) isReq valid
        (c c1 : Components) (acc : Component) (d : Components),
        sizeOf fields ≤ n →
        fieldLoop isReq valid c NewObjectComponent fields = .ok (c1, acc) → c.wellKeyed →
        (∀ k, ((registerModel c1 name acc).schema k).isSome = true → k ∈ K) →
        d.keyedBy K →
        ∃ d1 a, fieldLoop isReq valid d NewObjectComponent fields = .ok (d1, a) ∧
          registerModel d1 name a =
            applyWrites d (fieldsReplay K isReq fields ++
              [(removePackageName name, modelComponent isReq name fields)]) ∧
          (applyWrites d (fieldsReplay K isReq fields ++
              [(removePackageName name, modelComponent isReq name fields)])).keyedBy K := by
      intro fields name isReq valid c c1 acc d hs hl hc hK hd
      have hK1 : ∀ k, (c1.schema k).isSome = true → k ∈ K :=
        fun k hk => hK k ((present_stable k).1 c1 _ _ trivial rfl hk)
      obtain ⟨a, h2, g2⟩ := ih1 fields hs isReq valid c NewObjectComponent (c1, acc) d
        NewObjectComponent hl hc hK1 hd
      have ha := fieldLoop_accOf isReq fields valid d NewObjectComponent _ h2
      simp only at ha
      have hreg : registerModel (applyWrites d (fieldsReplay K isReq fields)) name a =
          applyWrites d (fieldsReplay K isReq fields ++
            [(removePackageName name, modelComponent isReq name fields)]) := by
        rw [applyWrites_append]
        simp only [applyWrites, registerModel, modelComponent, ha]
      refine ⟨_, a, h2, hreg, ?_⟩
      rw [← hreg]
      exact keyedBy_setSchema _ K _ _ g2
        (hK _ (by rw [registerModel_schema]; rfl)) rfl
    have regOnly : ∀ (name : String) (c c1 d : Components),
        (Except.ok (registerModel c name NewObjectComponent) : Except Panic Components)
          = Except.ok c1 →
        (∀ k, (c1.schema k).isSome = true → k ∈ K) → d.keyedBy K →
        (Except.ok (registerModel d name NewObjectComponent) : Except Panic Components) =
            .ok (applyWrites d [(removePackageName name, emptyComponent name)]) ∧
          (applyWrites d [(removePackageName name, emptyComponent name)]).keyedBy K := by
      intro name c c1 d h hK hd
      injection h with h
      subst h
      refine ⟨rfl, ?_⟩
      simp only [applyWrites]
      exact keyedBy_setSchema _ K _ _ hd (hK _ (by rw [registerModel_schema]; rfl)) rfl
    refine ⟨?_, ?_, ?_⟩
    · intro fs hs isReq valid c acc r d acc2 h hc hK hd
      cases fs with
      | nil => exact ⟨acc2, rfl, hd⟩
      | cons f rest =>
        obtain ⟨fi, ft⟩ := f
        have hs1 : sizeOf rest ≤ n := by simp at hs; omega
        have hs2 : sizeOf ft ≤ n := by simp at hs; omega
        obtain ⟨hv, tags, htags, hcase⟩ := fieldLoop_cons_ok _ _ _ _ _ _ _ _ h
        subst hv
        rcases hcase with ⟨hn, hrest⟩ | ⟨name, c1, c2, prop, hn, he, hp, hrest⟩
        · obtain ⟨a, h2, g2⟩ := ih1 rest hs1 isReq true c acc r d acc2 hrest hc hK hd
          refine ⟨a, ?_, ?_⟩
          · simp only [fieldLoop, htags, hn, fieldsReplay]
            simpa using h2
          · simp only [fieldsReplay, htags, hn]
            exact g2
        · have hc1 : c1.wellKeyed := registerEnum_keeps _ wellKeyed_stable c c1 name _ he hc
          have hc2 : c2.wellKeyed :=
            fieldProp_keeps _ wellKeyed_stable isReq c1 fi tags ft _ hp hc1
          have hK2 : ∀ k, (c2.schema k).isSome = true → k ∈ K :=
            fun k hk => hK k (fieldLoop_keeps (fun x => (x.schema k).isSome = true)
              (present_stable k).1 isReq true c2 _ rest r hrest hk)
          have hmono1 : ∀ k, (c1.schema k).isSome = true → (c2.schema k).isSome = true :=
            fun k hk => fieldProp_keeps (fun x => (x.schema k).isSome = true)
              (present_stable k).1 isReq c1 fi tags ft _ hp hk
          obtain ⟨hen, hcases⟩ := registerEnum_replay c c1 name _ he
          have hd1 : (applyWrites d (enumWrites name (enumTagOf tags))).keyedBy K := by
            rcases hcases with e | ⟨v, e, hv, hs⟩
            · rw [e]
              exact hd
            · rw [e]
              simp only [applyWrites]
              exact keyedBy_setSchema d K name v hd (hK2 name (hmono1 name hs)) hv
          obtain ⟨hp2, hd2⟩ := ih2 ft hs2 isReq c1 fi tags (c2, prop) _ hp hc1 hK2 hd1
          obtain ⟨a, h3, hd3⟩ := ih1 rest hs1 isReq true c2 _ r _
            { acc2 with
              required := addRequired acc2.required tags name,
              properties := GoMap.store acc2.properties name prop } hrest hc2 hK hd2
          refine ⟨a, ?_, ?_⟩
          · simp only [fieldLoop, htags, hn, hen d, hp2, fieldsReplay, applyWrites_append]
            simpa using h3
          · simp only [fieldsReplay, htags, hn, applyWrites_append]
            exact hd3
    · intro ft hs isReq c fi tags r d h hc hK hd
      have hmono : ∀ k, (c.schema k).isSome = true → (r.1.schema k).isSome = true :=
        fun k hk => fieldProp_keeps (fun x => (x.schema k).isSome = true) (present_stable k).1
          isReq c fi tags ft _ h hk
      have hcabs : ∀ name, name ∉ K → checkSchemaExist c name = false := by
        intro name hk
        cases hx : checkSchemaExist c name with
        | false => rfl
        | true => exact absurd (hK name (hmono name ((checkSchemaExist_iff c name hc).1 hx))) hk
      cases ft with
      | struct pkg name fields =>
        have hs1 : sizeOf fields ≤ n := by simp at hs; omega
        simp only [fieldProp] at h ⊢
        simp only [propReplay]
        by_cases ht : name = "Time"
        · simp only [ht, if_true] at h ⊢
          simp only [applyWrites]
          refine ⟨?_, hd⟩
          cases hv : fieldInterface fi (.struct pkg "Time" fields) true with
          | error e => rw [hv] at h; cases h
          | ok v =>
            rw [hv] at h
            simp only at h ⊢
            cases hsv : getSchemaByValue v with
            | none => rw [hsv] at h; cases h
            | some s =>
              rw [hsv] at h
              simp only at h ⊢
              injection h with h
              rw [← h]
        · simp only [ht, if_false] at h ⊢
          by_cases hk : name ∈ K
          · simp only [hk, found d name hd hk, if_true, applyWrites]
            refine ⟨?_, hd⟩
            split at h
            · injection h with h
              rw [← h]
            · split at h
              · cases h
              · injection h with h
                rw [← h]
          · simp only [hcabs name hk, Bool.false_eq_true, if_false] at h
            split at h
            · cases h
            · rename_i c1 acc hl
              injection h with h
              subst h
              obtain ⟨d1, a, hsec, hreg, hgood⟩ := loopReg fields name isReq true c c1 acc d
                hs1 hl hc hK hd
              simp only [hk, absent d name hd hk, Bool.false_eq_true, if_false, hsec, hreg]
              exact ⟨trivial, hgood⟩
      | slice sname elem =>
        have hs1 : sizeOf elem ≤ n := by simp at hs; omega
        simp only [fieldProp] at h ⊢
        simp only [propReplay]
        cases hv : fieldInterface fi (.slice sname elem) true with
        | error e => rw [hv] at h; cases h
        | ok v =>
          rw [hv] at h
          simp only at h ⊢
          by_cases hb : isBuiltinType elem = false
          · simp only [hb, if_true] at h ⊢
            by_cases hk : elem.name ∈ K
            · simp only [hk, found d _ hd hk, if_true, applyWrites]
              refine ⟨?_, hd⟩
              split at h
              · cases h
              · cases hsv : getSchemaByValue v with
                | none => rw [hsv] at h; cases h
                | some s =>
                  rw [hsv] at h
                  simp only at h ⊢
                  injection h with h
                  rw [← h]
            · simp only [hcabs _ hk, Bool.false_eq_true, if_false] at h
              cases hz : synthZero isReq c elem with
              | error e => rw [hz] at h; cases h
              | ok c1 =>
                rw [hz] at h
                simp only at h
                cases hsv : getSchemaByValue v with
                | none => rw [hsv] at h; cases h
                | some s =>
                  rw [hsv] at h
                  simp only at h
                  injection h with h
                  subst h
                  obtain ⟨hz2, hg⟩ := ih3 elem hs1 isReq c c1 d hz hc hK hd
                  simp only [hk, absent d _ hd hk, Bool.false_eq_true, if_false, hz2, hsv]
                  exact ⟨trivial, hg⟩
          · simp only [hb, if_false] at h ⊢
            simp only [applyWrites]
            refine ⟨?_, hd⟩
            obtain ⟨r1, r2⟩ := r
            exact scalarTail_settled (.ok v) tags c d r1 r2 h
      | map mname key elem =>
        have hs1 : sizeOf elem ≤ n := by simp at hs; omega
        simp only [fieldProp] at h ⊢
        simp only [propReplay]
        cases elem with
        | struct pkg name fields =>
          simp only [GoType.kind, GoType.name] at h ⊢
          by_cases hk : name ∈ K
          · simp only [hk, found d _ hd hk, if_true, applyWrites]
            refine ⟨?_, hd⟩
            split at h
            · cases h
            · injection h with h
              rw [← h]
          · have hca := hcabs name hk
            simp only [hca, Bool.false_eq_true, if_false] at h
            cases hz : synthZero isReq c (.struct pkg name fields) with
            | error e => rw [hz] at h; cases h
            | ok c1 =>
              rw [hz] at h
              simp only at h
              injection h with h
              subst h
              obtain ⟨hz2, hg⟩ := ih3 (.struct pkg name fields) hs1 isReq c c1 d hz hc hK hd
              simp only [hk, absent d _ hd hk, Bool.false_eq_true, if_false, hz2]
              exact ⟨trivial, hg⟩
        | iface a =>
          simp only [GoType.kind, applyWrites] at h ⊢
          injection h with h
          exact ⟨by rw [← h], hd⟩
        | builtin a =>
          simp only [GoType.kind, applyWrites] at h ⊢
          injection h with h
          exact ⟨by rw [← h], hd⟩
        | defined a b =>
          simp only [GoType.kind, applyWrites] at h ⊢
          injection h with h
          exact ⟨by rw [← h], hd⟩
        | slice a b =>
          simp only [GoType.kind, applyWrites] at h ⊢
          injection h with h
          exact ⟨by rw [← h], hd⟩
        | map a b e =>
          simp only [GoType.kind, applyWrites] at h ⊢
          injection h with h
          exact ⟨by rw [← h], hd⟩
        | ptr a b =>
          simp only [GoType.kind, applyWrites] at h ⊢
          injection h with h
          exact ⟨by rw [← h], hd⟩
        | array a b =>
          simp only [GoType.kind, applyWrites] at h ⊢
          injection h with h
          exact ⟨by rw [← h], hd⟩
        | chan a b =>
          simp only [GoType.kind, applyWrites] at h ⊢
          injection h with h
          exact ⟨by rw [← h], hd⟩
        | func a =>
          simp only [GoType.kind, applyWrites] at h ⊢
          injection h with h
          exact ⟨by rw [← h], hd⟩
      | iface iname =>
        simp only [fieldProp, propReplay, applyWrites] at h ⊢
        injection h with h
        exact ⟨by rw [← h], hd⟩
      | builtin k =>
        obtain ⟨r1, r2⟩ := r
        simp only [fieldProp, propReplay, applyWrites] at h ⊢
        exact ⟨scalarTail_settled (fieldInterface fi (.builtin k) true) tags c d r1 r2 h, hd⟩
      | defined dn k =>
        obtain ⟨r1, r2⟩ := r
        simp only [fieldProp, propReplay, applyWrites] at h ⊢
        exact ⟨scalarTail_settled (fieldInterface fi (.defined dn k) true) tags c d r1 r2 h, hd⟩
      | ptr pn e =>
        obtain ⟨r1, r2⟩ := r
        simp only [fieldProp, propReplay, applyWrites] at h ⊢
        exact ⟨scalarTail_settled (fieldInterface fi (.ptr pn e) true) tags c d r1 r2 h, hd⟩
      | array an e =>
        obtain ⟨r1, r2⟩ := r
        simp only [fieldProp, propReplay, applyWrites] at h ⊢
        exact ⟨scalarTail_settled (fieldInterface fi (.array an e) true) tags c d r1 r2 h, hd⟩
      | chan cn e =>
        obtain ⟨r1, r2⟩ := r
        simp only [fieldProp, propReplay, applyWrites] at h ⊢
        exact ⟨scalarTail_settled (fieldInterface fi (.chan cn e) true) tags c d r1 r2 h, hd⟩
      | func fn =>
        obtain ⟨r1, r2⟩ := r
        simp only [fieldProp, propReplay, applyWrites] at h ⊢
        exact ⟨scalarTail_settled (fieldInterface fi (.func fn) true) tags c d r1 r2 h, hd⟩
    · intro t hs isReq c c1 d h hc hK hd
      cases t with
      | iface iname =>
        simp only [synthZero, zeroReplay, applyWrites] at h ⊢
        exact ⟨trivial, hd⟩
      | struct pkg name fields =>
        have hs1 : sizeOf fields ≤ n := by simp at hs; omega
        simp only [synthZero] at h ⊢
        simp only [zeroReplay]
        split at h
        · cases h
        · rename_i c2 acc hl
          injection h with h
          subst h
          obtain ⟨d1, a, hsec, hreg, hgood⟩ := loopReg fields name isReq true c c2 acc d
            hs1 hl hc hK hd
          simp only [hsec, hreg]
          exact ⟨trivial, hgood⟩
      | ptr pn e =>
        cases e with
        | struct pkg name fields =>
          have hs1 : sizeOf fields ≤ n := by simp at hs; omega
          simp only [synthZero] at h ⊢
          simp only [zeroReplay]
          split at h
          · cases h
          · rename_i c2 acc hl
            injection h with h
            subst h
            obtain ⟨d1, a, hsec, hreg, hgood⟩ := loopReg fields name isReq false c c2 acc d
              hs1 hl hc hK hd
            simp only [hsec, hreg]
            exact ⟨trivial, hgood⟩
        | builtin k => simpa [synthZero, zeroReplay] using regOnly _ c c1 d (by simpa [synthZero] using h) hK hd
        | defined dn k => simpa [synthZero, zeroReplay] using regOnly _ c c1 d (by simpa [synthZero] using h) hK hd
        | slice a b => simpa [synthZero, zeroReplay] using regOnly _ c c1 d (by simpa [synthZero] using h) hK hd
        | map a b e => simpa [synthZero, zeroReplay] using regOnly _ c c1 d (by simpa [synthZero] using h) hK hd
        | ptr a b => simpa [synthZero, zeroReplay] using regOnly _ c c1 d (by simpa [synthZero] using h) hK hd
        | iface a => simpa [synthZero, zeroReplay] using regOnly _ c c1 d (by simpa [synthZero] using h) hK hd
        | array a b => simpa [synthZero, zeroReplay] using regOnly _ c c1 d (by simpa [synthZero] using h) hK hd
        | chan a b => simpa [synthZero, zeroReplay] using regOnly _ c c1 d (by simpa [synthZero] using h) hK hd
        | func a => simpa [synthZero, zeroReplay] using regOnly _ c c1 d (by simpa [synthZero] using h) hK hd
      | builtin k => simpa [synthZero, zeroReplay] using regOnly _ c c1 d (by simpa [synthZero] using h) hK hd
      | defined dn k => simpa [synthZero, zeroReplay] using regOnly _ c c1 d (by simpa [synthZero] using h) hK hd
      | slice a b => simpa [synthZero, zeroReplay] using regOnly _ c c1 d (by simpa [synthZero] using h) hK hd
      | map a b e => simpa [synthZero, zeroReplay] using regOnly _ c c1 d (by simpa [synthZero] using h) hK hd
      | array a b => simpa [synthZero, zeroReplay] using regOnly _ c c1 d (by simpa [synthZero] using h) hK hd
      | chan a b => simpa [synthZero, zeroReplay] using regOnly _ c c1 d (by simpa [synthZero] using h) hK hd
      | func a => simpa [synthZero, zeroReplay] using regOnly _ c c1 d (by simpa [synthZero] using h) hK hd

theorem GoMap.lookup_append {α : Type} (a b : GoMap α) (k : String) :
    GoMap.lookup (a ++ b) k =
      match GoMap.lookup a k with
      | some v => some v
      | none => GoMap.lookup b k := by
  induction a with
  | nil => simp [GoMap.lookup]
  | cons p rest ih =>
    obtain ⟨k1, v1⟩ := p
    rw [List.cons_append]
    simp only [GoMap.lookup]
    by_cases h : k1 = k
    · simp only [h, if_true]
    · simp only [h, if_false]
      exact ih

/-- The schema under a name after a list of writes: the one the list stores last under the
name, or the one the registry had. -/
theorem applyWrites_schema (ws : List (String × Component)) (k : String) :
    ∀ d : Components, (applyWrites d ws).schema k =
      match lastWrite ws k with
      | some v => some v
      | none => d.schema k := by
  induction ws with
  | nil => intro d; simp [applyWrites, lastWrite, GoMap.lookup]
  | cons w rest ih =>
    intro d
    obtain ⟨k1, v1⟩ := w
    simp only [applyWrites]
    rw [ih]
    simp only [lastWrite, List.reverse_cons]
    rw [GoMap.lookup_append]
    cases hl : GoMap.lookup rest.reverse k with
    | some v => rfl
    | none =>
      simp only [GoMap.lookup]
      by_cases h : k1 = k
      · subst h
        simp only [if_true]
        exact Components.schema_setSchema_same d k1 v1
      · simp only [h, if_false]
        exact Components.schema_setSchema_other d k1 k v1 h

theorem lastWrite_isSome (ws : List (String × Component)) (w : String × Component)
    (hw : w ∈ ws) : (lastWrite ws w.1).isSome = true := by
  unfold lastWrite
  rw [GoMap.lookup_isSome_iff_mem_keys]
  simp only [GoMap.keys, List.mem_map, List.mem_reverse]
  exact ⟨w, hw, rfl⟩

theorem applyWrites_written (ws : List (String × Component)) (d : Components)
    (w : String × Component) (hw : w ∈ ws) :
    ((applyWrites d ws).schema w.1).isSome = true := by
  rw [applyWrites_schema]
  have h := lastWrite_isSome ws w hw
  cases hl : lastWrite ws w.1 with
  | some v => rfl
  | none => rw [hl] at h; cases h

theorem applyWrites_securitySchemes (ws : List (String × Component)) :
    ∀ d : Components, (applyWrites d ws).securitySchemes = d.securitySchemes := by
  induction ws with
  | nil => intro d; rfl
  | cons w rest ih =>
    intro d
    simp only [applyWrites]
    rw [ih]
    rfl

theorem applyWrites_schemas_isSome (ws : List (String × Component)) :
    ∀ d : Components, d.schemas.isSome = true → (applyWrites d ws).schemas.isSome = true := by
  induction ws with
  | nil => intro d h; exact h
  | cons w rest ih =>
    intro d _
    simp only [applyWrites]
    exact ih _ rfl

/-- Writes under names the registry has leave its names, and their order, as they are. -/
theorem applyWrites_keys (ws : List (String × Component)) :
    ∀ d : Components, (∀ w ∈ ws, w.1 ∈ GoMap.keys (d.schemas.getD [])) →
      GoMap.keys ((applyWrites d ws).schemas.getD []) = GoMap.keys (d.schemas.getD []) := by
  induction ws with
  | nil => intro d _; rfl
  | cons w rest ih =>
    intro d h
    simp only [applyWrites]
    have e : GoMap.keys ((d.setSchema w.1 w.2).schemas.getD []) =
        GoMap.keys (d.schemas.getD []) := by
      simp only [Components.setSchema, Option.getD_some]
      rw [GoMap.keys_store, if_pos (h w (List.mem_cons_self _ _))]
    rw [ih (d.setSchema w.1 w.2) (fun x hx => by rw [e]; exact h x (List.mem_cons_of_mem _ hx)), e]

/-- Two maps with the same keys in the same order, none twice, and the same value under
every key are the same map. -/
theorem GoMap.ext_of_keys {α : Type} :
    ∀ (m1 m2 : GoMap α), GoMap.keys m1 = GoMap.keys m2 → (GoMap.keys m1).Nodup →
      (∀ k, GoMap.lookup m1 k = GoMap.lookup m2 k) → m1 = m2 := by
  intro m1
  induction m1 with
  | nil =>
    intro m2 hk _ _
    cases m2 with
    | nil => rfl
    | cons p rest => simp [GoMap.keys] at hk
  | cons p rest ih =>
    intro m2 hk hn hl
    cases m2 with
    | nil => simp [GoMap.keys] at hk
    | cons q rest2 =>
      obtain ⟨k1, v1⟩ := p
      obtain ⟨k2, v2⟩ := q
      simp only [GoMap.keys, List.map_cons, List.cons.injEq] at hk
      obtain ⟨e1, e2⟩ := hk
      subst e1
      simp only [GoMap.keys, List.map_cons, List.nodup_cons] at hn
      have hv := hl k1
      simp only [GoMap.lookup, if_true] at hv
      injection hv with hv
      subst hv
      have hrest : rest = rest2 := by
        apply ih rest2 e2 hn.2
        intro k
        by_cases h : k1 = k
        · subst h
          have n1 : GoMap.lookup rest k1 = none := by
            cases hx : GoMap.lookup rest k1 with
            | none => rfl
            | some v =>
              have := (GoMap.lookup_isSome_iff_mem_keys rest k1).1 (by rw [hx]; rfl)
              exact absurd this hn.1
          have n2 : GoMap.lookup rest2 k1 = none := by
            cases hx : GoMap.lookup rest2 k1 with
            | none => rfl
            | some v =>
              have := (GoMap.lookup_isSome_iff_mem_keys rest2 k1).1 (by rw [hx]; rfl)
              have e3 : GoMap.keys rest = GoMap.keys rest2 := e2
              rw [← e3] at this
              exact absurd this hn.1
          rw [n1, n2]
        · have := hl k
          simpa [GoMap.lookup, h] using this
      rw [hrest]

/-- Two registries with maps of schemas, the same names in the same order, the same schema
under every name and the same security schemes are the same registry. -/
theorem Components.ext_of_schema (c d : Components)
    (hc : c.schemas.isSome = true) (hd : d.schemas.isSome = true)
    (hs : c.securitySchemes = d.securitySchemes)
    (hk : GoMap.keys (c.schemas.getD []) = GoMap.keys (d.schemas.getD []))
    (hn : (GoMap.keys (c.schemas.getD [])).Nodup)
    (hl : ∀ k, c.schema k = d.schema k) : c = d := by
  obtain ⟨cs, css⟩ := c
  obtain ⟨ds, dss⟩ := d
  cases cs with
  | none => cases hc
  | some m1 =>
    cases ds with
    | none => cases hd
    | some m2 =>
      simp only [Option.getD_some] at hk hn
      simp only [Components.schema, Option.getD_some] at hl
      simp only at hs
      rw [GoMap.ext_of_keys m1 m2 hk hn hl, hs]

/-- The second synthesis of a struct model, in the registry the first one left: it
completes, stores the schemas of `secondWrites`, and adds no name. -/
theorem second_synthesis_replays (c c1 : Components) (model : Model) (isReq : Bool)
    (pkg name : String) (fields : List (FieldInfo × GoType)) (valid : Bool)
    (hc : c.wellKeyed)
    (hm : model.deref = some (.struct pkg name fields, valid))
    (h : getComponentByModel c model isReq = .ok c1) :
    c1.wellKeyed ∧ c1.schemas.isSome = true ∧
      c1.schema (removePackageName name) = some (modelComponent isReq name fields) ∧
      getComponentByModel c1 model isReq =
        .ok (applyWrites c1 (secondWrites c1 isReq name fields)) ∧
      GoMap.keys ((applyWrites c1 (secondWrites c1 isReq name fields)).schemas.getD []) =
        GoMap.keys (c1.schemas.getD []) := by
  obtain ⟨c2, acc, hl, e1, hs⟩ := getComponentByModel_struct c c1 model isReq pkg name fields
    valid hm h
  have hc2 : c2.wellKeyed := fieldLoop_keeps _ wellKeyed_stable isReq valid c _ fields _ hl hc
  have hc1 : c1.wellKeyed := by
    rw [e1]
    exact wellKeyed_stable c2 _ _ trivial rfl hc2
  have hsub : ∀ k, (c2.schema k).isSome = true → (c1.schema k).isSome = true := by
    intro k hk
    rw [e1]
    exact (present_stable k).1 c2 _ _ trivial rfl hk
  have hK : c1.keyedBy (GoMap.keys (c1.schemas.getD [])) :=
    ⟨hc1, fun k => GoMap.lookup_isSome_iff_mem_keys _ k⟩
  have hacc := fieldLoop_accOf isReq fields valid c NewObjectComponent _ hl
  simp only at hacc
  have hself : c1.schema (removePackageName name) = some (modelComponent isReq name fields) := by
    rw [hs, hacc]
    rfl
  obtain ⟨a, h2, g2⟩ := (synth_replay (GoMap.keys (c1.schemas.getD [])) (sizeOf fields)).1
    fields (le_refl _) isReq valid c NewObjectComponent (c2, acc) c1 NewObjectComponent hl hc
    (fun k hk => (hK.2 k).1 (hsub k hk)) hK
  have ha := fieldLoop_accOf isReq fields valid c1 NewObjectComponent _ h2
  simp only at ha
  have hres : getComponentByModel c1 model isReq =
      .ok (applyWrites c1 (secondWrites c1 isReq name fields)) := by
    simp only [getComponentByModel, hm, synthType, h2, secondWrites]
    rw [applyWrites_append]
    simp only [applyWrites, registerModel, modelComponent, ha]
  refine ⟨hc1, ?_, hself, hres, ?_⟩
  · rw [e1]
    rfl
  · apply applyWrites_keys
    intro w hw
    simp only [secondWrites, List.mem_append, List.mem_singleton] at hw
    rcases hw with hw | hw
    · have := applyWrites_written _ c1 w hw
      exact (g2.2 w.1).1 this
    · subst hw
      exact (hK.2 _).1 (by rw [hself]; rfl)


theorem lastWrite_append (a b : List (String × Component)) (k : String) :
    lastWrite (a ++ b) k =
      match lastWrite b k with
      | some v => some v
      | none => lastWrite a k := by
  unfold lastWrite
  rw [List.reverse_append, GoMap.lookup_append]
  cases GoMap.lookup b.reverse k <;> rfl

/-- The registry a list of writes leaves is the one it found exactly when every name holds
the schema the list stores last under it. -/
theorem applyWrites_eq_self_iff (c1 : Components) (ws : List (String × Component))
    (hw : c1.wellKeyed) (hs : c1.schemas.isSome = true)
    (hk : GoMap.keys ((applyWrites c1 ws).schemas.getD []) = GoMap.keys (c1.schemas.getD [])) :
    applyWrites c1 ws = c1 ↔ ∀ k v, lastWrite ws k = some v → c1.schema k = some v := by
  constructor
  · intro h k v hl
    have e := applyWrites_schema ws k c1
    rw [h, hl] at e
    exact e
  · intro h
    apply Components.ext_of_schema _ _ (applyWrites_schemas_isSome ws c1 hs) hs
      (applyWrites_securitySchemes ws c1) hk
    · rw [hk]
      exact hw.1
    · intro k
      rw [applyWrites_schema]
      cases hl : lastWrite ws k with
      | some v => exact (h k v hl).symm
      | none => rfl

/-- A field type with plain nested lookups stores nothing in a second pass: its nested
model is found under its type name. -/
theorem propReplay_plain (K : List String) (isReq : Bool) (c : Components) (fi : FieldInfo)
    (tags : List Tag) (ft : GoType) (r : Components × SchemaRef)
    (h : fieldProp isReq c fi tags ft = .ok r)
    (hplain : plainNested ft = true) (hc : c.wellKeyed)
    (hK : ∀ k, (r.1.schema k).isSome = true → k ∈ K) :
    propReplay K isReq ft = [] := by
  have hmono : ∀ k, (c.schema k).isSome = true → (r.1.schema k).isSome = true :=
    fun k hk => fieldProp_keeps (fun x => (x.schema k).isSome = true) (present_stable k).1
      isReq c fi tags ft _ h hk
  cases ft with
  | struct pkg name fields =>
    simp only [plainNested, decide_eq_true_eq] at hplain
    simp only [propReplay]
    by_cases ht : name = "Time"
    · simp only [ht, if_true]
    · have hk : name ∈ K := by
        apply hK
        simp only [fieldProp, ht, if_false] at h
        by_cases hx : checkSchemaExist c name = true
        · exact hmono _ ((checkSchemaExist_iff c name hc).1 hx)
        · simp only [hx, Bool.false_eq_true, if_false] at h
          split at h
          · cases h
          · rename_i c2 acc _
            injection h with h
            subst h
            have e := registerModel_schema c2 name acc
            rw [hplain] at e
            simp only
            rw [e]
            rfl
      simp only [ht, hk, if_false, if_true]
  | slice sname elem =>
    simp only [plainNested] at hplain
    simp only [propReplay, hplain, Bool.true_eq_false, if_false]
  | map mname key elem =>
    simp only [propReplay]
    cases elem with
    | struct pkg name fields =>
      simp only [plainNested, decide_eq_true_eq] at hplain
      simp only [GoType.kind, GoType.name]
      have hk : name ∈ K := by
        apply hK
        simp only [fieldProp, GoType.kind, GoType.name] at h
        by_cases hx : checkSchemaExist c name = true
        · exact hmono _ ((checkSchemaExist_iff c name hc).1 hx)
        · simp only [hx, Bool.false_eq_true, if_false] at h
          split at h
          · cases h
          · rename_i c2 hz
            injection h with h
            subst h
            obtain ⟨c3, acc, e3⟩ := synthZero_struct isReq c c2 pkg name fields hz
            have e := registerModel_schema c3 name acc
            rw [hplain] at e
            simp only
            rw [e3, e]
            rfl
      simp only [hk, if_true]
    | iface a => simp only [GoType.kind]
    | builtin a => simp only [GoType.kind]
    | defined a b => simp only [GoType.kind]
    | slice a b => simp only [GoType.kind]
    | map a b e => simp only [GoType.kind]
    | ptr a b => simp only [GoType.kind]
    | array a b => simp only [GoType.kind]
    | chan a b => simp only [GoType.kind]
    | func a => simp only [GoType.kind]
  | iface n => simp only [propReplay]
  | builtin k => simp only [propReplay]
  | defined n k => simp only [propReplay]
  | ptr n e => simp only [propReplay]
  | array n e => simp only [propReplay]
  | chan n e => simp only [propReplay]
  | func n => simp only [propReplay]

/-- With plain nested lookups and enum names that nothing later in the call stores under,
the first pass of the field loop leaves under every name the schema the second pass stores
last under it. -/
theorem fieldsReplay_kept (K : List String) (isReq : Bool)
    (fs : List (FieldInfo × GoType)) :
    ∀ (valid : Bool) (c : Components) (acc : Component) (r : Components × Component),
      fieldLoop isReq valid c acc fs = .ok r → c.wellKeyed →
      (∀ f ∈ fs, plainNested f.2 = true) →
      (∀ k, (r.1.schema k).isSome = true → k ∈ K) →
      enumsKept isReq fs = true →
      ∀ k v, lastWrite (fieldsReplay K isReq fs) k = some v → r.1.schema k = some v := by
  induction fs with
  | nil =>
    intro valid c acc r _ _ _ _ _ k v hl
    simp [fieldsReplay, lastWrite, GoMap.lookup] at hl
  | cons f rest ih =>
    obtain ⟨fi, ft⟩ := f
    intro valid c acc r h hc hplain hK hkept k v hl
    obtain ⟨hv, tags, htags, hcase⟩ := fieldLoop_cons_ok isReq valid c acc fi ft rest r h
    subst hv
    have hplain2 : ∀ f ∈ rest, plainNested f.2 = true :=
      fun f hf => hplain f (List.mem_cons_of_mem _ hf)
    simp only [enumsKept, Bool.and_eq_true, htags] at hkept
    obtain ⟨hk1, hk2⟩ := hkept
    rcases hcase with ⟨hn, hrest⟩ | ⟨name, c1, c2, prop, hn, he, hp, hrest⟩
    · simp only [fieldsReplay, htags, hn] at hl
      exact ih true c acc r hrest hc hplain2 hK hk2 k v hl
    · have hc1 : c1.wellKeyed := registerEnum_keeps _ wellKeyed_stable c c1 name _ he hc
      have hc2 : c2.wellKeyed :=
        fieldProp_keeps _ wellKeyed_stable isReq c1 fi tags ft _ hp hc1
      have hK2 : ∀ k, (c2.schema k).isSome = true → k ∈ K :=
        fun k hk => hK k (fieldLoop_keeps (fun x => (x.schema k).isSome = true)
          (present_stable k).1 isReq true c2 _ rest r hrest hk)
      have hprop := propReplay_plain K isReq c1 fi tags ft (c2, prop) hp
        (hplain (fi, ft) (List.mem_cons_self _ _)) hc1 hK2
      simp only [fieldsReplay, htags, hn, hprop, List.nil_append] at hl
      rw [lastWrite_append] at hl
      cases hr : lastWrite (fieldsReplay K isReq rest) k with
      | some v2 =>
        rw [hr] at hl
        simp only at hl
        rw [← hl]
        exact ih true c2 _ r hrest hc2 hplain2 hK hk2 k v2 hr
      | none =>
        rw [hr] at hl
        simp only at hl
        obtain ⟨hen, hcases⟩ := registerEnum_replay c c1 name _ he
        rcases hcases with e | ⟨v0, e, _, _⟩
        · rw [e] at hl
          simp [lastWrite, GoMap.lookup] at hl
        · have htag : enumTagOf tags ≠ "" := by
            intro h0
            simp [enumWrites, h0] at e
          rw [e] at hl
          simp only [lastWrite, List.reverse_singleton, GoMap.lookup] at hl
          by_cases hname : name = k
          · subst hname
            simp only [if_true] at hl
            injection hl with hl
            subst hl
            simp only [hn, htag, decide_False, Bool.false_or, decide_eq_true_eq,
              List.mem_append, not_or] at hk1
            have e1 : c1 = applyWrites c (enumWrites name (enumTagOf tags)) := by
              have := hen c
              rw [he] at this
              injection this
            have s1 : c1.schema name = some v0 := by
              rw [e1, e]
              simp only [applyWrites]
              exact Components.schema_setSchema_same c name v0
            have hP : ∀ (x : Components) (k2 : String) (w : Component), k2 ≠ name →
                w.title = k2 → x.schema name = some v0 →
                (x.setSchema k2 w).schema name = some v0 := by
              intro x k2 w hne _ hx
              rw [Components.schema_setSchema_other x k2 name w hne]
              exact hx
            have s2 : c2.schema name = some v0 :=
              (synth_preserves (fun x => x.schema name = some v0) (fun k2 => k2 ≠ name) hP
                (sizeOf ft)).2.1 ft (le_refl _) isReq c1 fi tags (c2, prop)
                (fun k2 hk2 e2 => hk1.1 (e2 ▸ hk2)) hp s1
            exact (synth_preserves (fun x => x.schema name = some v0) (fun k2 => k2 ≠ name) hP
                (sizeOf rest)).1 rest (le_refl _) isReq true c2 _ r
                (fun k2 hk2 e2 => hk1.2 (e2 ▸ hk2)) hrest s2
          · simp only [hname, if_false] at hl
            cases hl

/-- C16, amended: for a registry keyed by title and a struct model whose synthesis
completes, the synthesis of the same model with the same flag in the registry the first
call left completes. It stores again, in order, the enum of each enum-tagged visible field,
the schemas of each nested model whose type name is not a name of the registry, and last
the schema of the model (`secondWrites`); it adds no name, keeps the order of the names and
the security schemes, and each name holds afterwards the schema stored last under it, or
the schema it had. The registry after the second call is the registry after the first one
exactly when every name the second call stores under held, after the first call, the schema
the second call stores last under it; this is so when the field types have plain nested
lookups (`plainNested`) and no enum-tagged visible field has a name under which the call
may store later (`enumsKept`). After either call the registry holds the schema of the model
under its bare type name and exactly one schema titled with that name. -/
theorem second_synthesis_is_noop (c c1 : Components) (model : Model) (isReq : Bool)
    (pkg name : String) (fields : List (FieldInfo × GoType)) (valid : Bool)
    (hc : c.wellKeyed)
    (hm : model.deref = some (.struct pkg name fields, valid))
    (h : getComponentByModel c model isReq = .ok c1) :
    ∃ c2, getComponentByModel c1 model isReq = .ok c2 ∧
      c2 = applyWrites c1 (secondWrites c1 isReq name fields) ∧
      GoMap.keys (c2.schemas.getD []) = GoMap.keys (c1.schemas.getD []) ∧
      c2.securitySchemes = c1.securitySchemes ∧
      (∀ k, c2.schema k =
        match lastWrite (secondWrites c1 isReq name fields) k with
        | some v => some v
        | none => c1.schema k) ∧
      (c2 = c1 ↔ ∀ k v, lastWrite (secondWrites c1 isReq name fields) k = some v →
        c1.schema k = some v) ∧
      ((∀ f ∈ fields, plainNested f.2 = true) → enumsKept isReq fields = true → c2 = c1) ∧
      c1.schema (removePackageName name) = some (modelComponent isReq name fields) ∧
      c2.schema (removePackageName name) = some (modelComponent isReq name fields) ∧
      titledCount c1 (removePackageName name) = 1 ∧
      titledCount c2 (removePackageName name) = 1 := by
  obtain ⟨hc1, hsome, hself, hres, hkeys⟩ :=
    second_synthesis_replays c c1 model isReq pkg name fields valid hc hm h
  have hiff := applyWrites_eq_self_iff c1 (secondWrites c1 isReq name fields) hc1 hsome hkeys
  have hlast : lastWrite (secondWrites c1 isReq name fields) (removePackageName name) =
      some (modelComponent isReq name fields) := by
    simp only [secondWrites]
    rw [lastWrite_append]
    simp [lastWrite, GoMap.lookup]
  have hself2 : (applyWrites c1 (secondWrites c1 isReq name fields)).schema
      (removePackageName name) = some (modelComponent isReq name fields) := by
    rw [applyWrites_schema, hlast]
  have hc2 : (applyWrites c1 (secondWrites c1 isReq name fields)).wellKeyed :=
    getComponentByModel_preserves (fun x => x.wellKeyed) (fun _ => True)
      wellKeyed_stable c1 _ model isReq (fun _ _ => trivial) hres hc1
  refine ⟨_, hres, rfl, hkeys, applyWrites_securitySchemes _ c1,
    fun k => applyWrites_schema _ k c1, hiff, ?_, hself, hself2,
    titledCount_eq_one c1 _ hc1 (by rw [hself]; rfl),
    titledCount_eq_one _ _ hc2 (by rw [hself2]; rfl)⟩
  intro hplain hkept
  apply hiff.2
  intro k v hl
  obtain ⟨cm, acc, hloop, e1, _⟩ := getComponentByModel_struct c c1 model isReq pkg name
    fields valid hm h
  have hsub : ∀ k, (cm.schema k).isSome = true → k ∈ GoMap.keys (c1.schemas.getD []) := by
    intro k hk
    apply (GoMap.lookup_isSome_iff_mem_keys _ k).1
    have := (present_stable k).1 cm (removePackageName name)
      { acc with title := removePackageName name } trivial rfl hk
    rw [e1]
    exact this
  have hfields := fieldsReplay_kept (GoMap.keys (c1.schemas.getD [])) isReq fields valid c
    NewObjectComponent (cm, acc) hloop hc hplain hsub hkept
  simp only [secondWrites] at hl
  rw [lastWrite_append] at hl
  by_cases hk : removePackageName name = k
  · subst hk
    simp only [lastWrite, List.reverse_singleton, GoMap.lookup, if_true] at hl
    rw [← hl]
    exact hself
  · simp only [lastWrite, List.reverse_singleton, GoMap.lookup, hk, if_false] at hl
    have := hfields k v hl
    simp only at this
    rw [e1]
    simp only [registerModel]
    rw [Components.schema_setSchema_other cm _ k _ hk]
    exact this

/-- C16, amended, at two models, from the empty document. For `Two{A string; B string}`
with both fields tagged `json:"color"` and the enum tags `values:red` and `values:blue`, the
first synthesis registers `color` and `Two`; the second one stores `color`, `color` and
`Two` and leaves the registry as it is, one schema titled `Two`. For
`Shirt{Size string; Maker Brand}` with the enum tag `values:s,m,l` on `Size`, whose nested
lookups are plain and whose enum name nothing stores under later, the second synthesis
leaves the schemas `size`, `Brand` and `Shirt` as they are, one of them titled `Shirt`. -/
theorem second_synthesis_is_noop_witness :
    (∃ c1, getComponentByModel {} (.ref exampleTwo) false = .ok c1 ∧
      GoMap.keys (c1.schemas.getD []) = ["color", "Two"] ∧
      getComponentByModel c1 (.ref exampleTwo) false = .ok c1 ∧
      titledCount c1 "Two" = 1) ∧
    (∃ c1, getComponentByModel {} (.ref exampleShirt) false = .ok c1 ∧
      GoMap.keys (c1.schemas.getD []) = ["size", "Brand", "Shirt"] ∧
      getComponentByModel c1 (.ref exampleShirt) false = .ok c1 ∧
      titledCount c1 "Shirt" = 1) := by
  have hw : Components.wellKeyed {} := ⟨List.nodup_nil, fun e he => by cases he⟩
  constructor
  · have h : getComponentByModel {} (.ref exampleTwo) false =
        .ok ((getComponentByModel {} (.ref exampleTwo) false).toOption.getD {}) := by decide
    obtain ⟨c2, h2, e2, _, _, _, _, _, _, _, h3, _⟩ :=
      second_synthesis_is_noop {} _ (.ref exampleTwo) false "main" "Two" _ true hw rfl h
    have e : c2 = (getComponentByModel {} (.ref exampleTwo) false).toOption.getD {} := by
      rw [e2]
      decide
    rw [e] at h2
    exact ⟨_, h, by decide, h2, h3⟩
  · have h : getComponentByModel {} (.ref exampleShirt) false =
        .ok ((getComponentByModel {} (.ref exampleShirt) false).toOption.getD {}) := by decide
    obtain ⟨c2, h2, _, _, _, _, _, hsuff, _, _, h3, _⟩ :=
      second_synthesis_is_noop {} _ (.ref exampleShirt) false "main" "Shirt" _ true hw rfl h
    have e := hsuff (by decide) (by decide)
    rw [e] at h2
    exact ⟨_, h, by decide, h2, h3⟩

/-! ## C3: two fields of one name -/

/-- C3 fails when two visible fields resolve to one name. For `Dup{A string; B string}`,
both tagged `json:"x" binding:"required"`, the required list is `x`, `x`: the name twice,
for the one property `x`. For `Half{A string; B string}` tagged
`json:"x" binding:"required"` and `json:"x"`, the required list is `x`, which is also the
resolved name of `B`, a visible field that is not bound as required. -/
theorem required_list_counterexample :
    (getComponentByModel {} (.ref exampleDup) false).map
        (fun c1 => (c1.schema "Dup").map
          (fun comp => (comp.required, GoMap.keys comp.properties))) =
      .ok (some (["x", "x"], ["x"])) ∧
    (getComponentByModel {} (.ref exampleHalf) false).map
        (fun c1 => (c1.schema "Half").map (fun comp => comp.required)) =
      .ok (some ["x"]) ∧
    (match exampleHalf with
      | .struct _ _ fields =>
        fields.map (fun f => (resolvedName false f, boundRequired f))
      | _ => []) = [(some "x", true), (some "x", false)] := by
  refine ⟨by decide, by decide, by decide⟩

end Egs
